import Mathlib

/-!
# OTA update engine of the dot-matrix clock firmware (`src/src/mz_update.cpp`)

A shallow embedding of the two classes of `mz_update.cpp`:

* `partition_updater_t` (one flashing session: `begin`, `write_sector`,
  `match_md5`, `activate_new_code`, `next_partition_from_type`);
* `updater_t` (the archive stream processor: `begin`, `process_block`,
  `write_data`, `finish`, `end`).

Conventions of the embedding.

* Bytes and 32-bit words are natural numbers; 32-bit arithmetic that can wrap
  is reduced modulo `2 ^ 32` where the source computes it.
* The platform (flash chip, partition table, boot control, heap, MD5 library)
  is not code of this repository.  Its static side is the record `Env`, its
  mutable side the record `World`.  Whether the `n`-th storage / boot-control
  primitive succeeds is decided by the oracle `Env.io_ok n`; every outcome
  sequence is therefore covered by quantifying over `Env`.  A primitive that
  reports failure leaves the flash contents untouched.
* Flash memory is NOR flash: erasing a sector sets its bytes to `0xFF`, writing
  can only clear bits (bitwise AND with the old contents).
* A function returns `none` where the C++ program has no defined result
  (dereference of a null pointer, an access outside the 4096-byte receive
  buffer) or where the loop model runs out of fuel.
-/

namespace MzUpdate

/-! ## Platform constants -/

/-- Flash sector size of the ESP32 SDK (`SPI_FLASH_SEC_SIZE`, 4096 bytes). -/
def SPI_FLASH_SEC_SIZE : Nat := 4096

/-- Width of `uint32_t` / `size_t` on the target: values wrap modulo `2 ^ 32`. -/
def U32 : Nat := 4294967296

/-- SDK constant `ESP_PARTITION_TYPE_APP`. -/
def ESP_PARTITION_TYPE_APP : Nat := 0x00
/-- SDK constant `ESP_PARTITION_TYPE_DATA`. -/
def ESP_PARTITION_TYPE_DATA : Nat := 0x01
/-- SDK constant `ESP_PARTITION_SUBTYPE_APP_OTA_0`. -/
def ESP_PARTITION_SUBTYPE_APP_OTA_0 : Nat := 0x10
/-- SDK constant `ESP_PARTITION_SUBTYPE_APP_OTA_1`. -/
def ESP_PARTITION_SUBTYPE_APP_OTA_1 : Nat := 0x11
/-- SDK constant `ESP_PARTITION_SUBTYPE_DATA_SPIFFS`. -/
def ESP_PARTITION_SUBTYPE_DATA_SPIFFS : Nat := 0x82

/-! ## String literals of the source, as byte lists -/

/-- The archive magic `"MZ5 firmware archive 1.0\r\n\n\x1a    "` (32 bytes). -/
def ARCHIVE_MAGIC : List Nat :=
  [77, 90, 53, 32, 102, 105, 114, 109, 119, 97, 114, 101, 32, 97, 114, 99,
   104, 105, 118, 101, 32, 49, 46, 48, 13, 10, 10, 26, 32, 32, 32, 32]

/-- The boundary marker `"-file boundary--"` (16 bytes). -/
def FILE_BOUNDARY : List Nat :=
  [45, 102, 105, 108, 101, 32, 98, 111, 117, 110, 100, 97, 114, 121, 45, 45]

/-- The literal `"font"`. -/
def STR_font : List Nat := [102, 111, 110, 116]
/-- The literal `"spiffs"`. -/
def STR_spiffs : List Nat := [115, 112, 105, 102, 102, 115]
/-- The literal `"app"`. -/
def STR_app : List Nat := [97, 112, 112]
/-- The literal `"app0"`. -/
def STR_app0 : List Nat := [97, 112, 112, 48]
/-- The literal `"app1"`. -/
def STR_app1 : List Nat := [97, 112, 112, 49]
/-- The literal `"spiffs0"`. -/
def STR_spiffs0 : List Nat := [115, 112, 105, 102, 102, 115, 48]
/-- The literal `"spiffs1"`. -/
def STR_spiffs1 : List Nat := [115, 112, 105, 102, 102, 115, 49]

/-- The C string stored in a character array: the bytes before the first NUL. -/
def cstr (bytes : List Nat) : List Nat := bytes.takeWhile (fun b => b != 0)

/-! ## Data model -/

/-- The enum `partition_updater_t::update_type_t`. -/
inductive update_type_t
  | utUnknown
  | utCode
  | utSPIFFS
  | utFont
  deriving DecidableEq, Repr

/-- The fields of the SDK record `esp_partition_t` that the source reads. -/
structure esp_partition_t where
  address : Nat
  size : Nat
  deriving DecidableEq, Repr

/-- The storage and boot-control primitives the source calls. -/
inductive FlashOp
  | erase (sector : Nat)
  | write (addr : Nat) (data : List Nat)
  | read (addr : Nat) (len : Nat)
  | set_boot (p : Option esp_partition_t)
  deriving DecidableEq, Repr

/-- The static side of the platform.

* `label_size` is `sizeof(header.label)`; the header record is declared in
  `mz_update.h`, which is not among the sources, so the width is a parameter.
* `md5sum` is the digest function of the MD5 library.
* `running_label` is `esp_ota_get_running_partition()->label`.
* `esp_partition_find_first type subtype label` is the partition-table lookup.
* `io_ok n` tells whether the `n`-th storage / boot-control primitive succeeds.
* `malloc_ok n` tells whether the `n`-th heap allocation succeeds and
  `heap_byte n i` is the indeterminate byte `i` of that allocation. -/
structure Env where
  label_size : Nat
  md5sum : List Nat → List Nat
  running_label : List Nat
  esp_partition_find_first : Nat → Nat → Option (List Nat) → Option esp_partition_t
  io_ok : Nat → Bool
  malloc_ok : Nat → Bool
  heap_byte : Nat → Nat → Nat

/-- The mutable side of the platform: flash contents, the boot-partition
pointer, the primitives issued so far (oldest first) and the number of heap
allocations requested so far. -/
structure World where
  mem : Nat → Nat
  boot : Option esp_partition_t
  log : List FlashOp
  mallocs : Nat

/-- The MD5 accumulator of the Arduino core (`MD5Builder`): the bytes fed
since `begin()` and the 16-byte output buffer filled by `calculate()`. -/
structure MD5Builder where
  ctx : List Nat
  buf : List Nat
  deriving DecidableEq, Repr

/-- The data members of `partition_updater_t`.  The class is declared in
`mz_update.h`, which is not among the sources; the members are those the
methods of `mz_update.cpp` read and write.  `_partition = none` is the null
pointer, `_size` and `_progress` are 32-bit unsigned. -/
structure partition_updater_t where
  _type : update_type_t
  _size : Nat
  _progress : Nat
  _partition : Option esp_partition_t
  _first_byte : Nat
  _md5 : MD5Builder
  deriving DecidableEq, Repr

/-- The values of `updater_t::phase` that the source uses. -/
inductive phase_t
  | phBegin
  | phHeader
  | phContent
  deriving DecidableEq, Repr

/-- The values of `updater_t::status` that the source uses. -/
inductive status_t
  | stNoError
  | stCorrupted
  deriving DecidableEq, Repr

/-- The target header record (`header` member of `updater_t`), with the
fields the source reads: `label`, `orig_len`, `arc_len`, `md5`. -/
structure header_t where
  label : List Nat
  orig_len : Nat
  arc_len : Nat
  md5 : List Nat
  deriving DecidableEq, Repr

/-- The data members of `updater_t` (declared in `mz_update.h`, not among
the sources; the members are those the methods read and write).
`buffer = none` is the null pointer, otherwise the bytes of the allocation;
`remaining_count` and `buffer_pos` are 32-bit unsigned. -/
structure updater_t where
  buffer : Option (List Nat)
  remaining_count : Nat
  buffer_pos : Nat
  phase : phase_t
  status : status_t
  header : header_t
  partition_updater : partition_updater_t
  deriving DecidableEq, Repr

/-! ## Platform primitives -/

/-- `ESP.flashEraseSector(sector)`: on success every byte of the sector reads `0xFF`. -/
def flashEraseSector (env : Env) (w : World) (sector : Nat) : World × Bool :=
  let ok := env.io_ok w.log.length
  ({ w with
      mem := fun a => if ok ∧ a / SPI_FLASH_SEC_SIZE = sector then 0xFF else w.mem a,
      log := w.log ++ [FlashOp.erase sector] }, ok)

/-- `ESP.flashWrite(addr, data, len)`: on success each addressed byte becomes
the bitwise AND of its old value and the data byte. -/
def flashWrite (env : Env) (w : World) (addr : Nat) (data : List Nat) : World × Bool :=
  let ok := env.io_ok w.log.length
  ({ w with
      mem := fun a =>
        if ok ∧ addr ≤ a ∧ a < addr + data.length then w.mem a &&& data.getD (a - addr) 0xFF
        else w.mem a,
      log := w.log ++ [FlashOp.write addr data] }, ok)

/-- `ESP.flashRead(addr, buf, len)`: on success the bytes at `addr .. addr + len - 1`. -/
def flashRead (env : Env) (w : World) (addr : Nat) (len : Nat) : World × Option (List Nat) :=
  ({ w with log := w.log ++ [FlashOp.read addr len] },
    if env.io_ok w.log.length then some ((List.range len).map (fun i => w.mem (addr + i)))
    else none)

/-- `esp_ota_set_boot_partition(p) == ESP_OK`: a null argument is refused,
otherwise success moves the boot pointer to `p`. -/
def esp_ota_set_boot_partition (env : Env) (w : World) (p : Option esp_partition_t) :
    World × Bool :=
  let ok := p.isSome && env.io_ok w.log.length
  ({ w with boot := if ok then p else w.boot, log := w.log ++ [FlashOp.set_boot p] }, ok)

/-- `malloc(SPI_FLASH_SEC_SIZE)`: `none` is the null pointer. -/
def malloc_sector (env : Env) (w : World) : World × Option (List Nat) :=
  ({ w with mallocs := w.mallocs + 1 },
    if env.malloc_ok w.mallocs then
      some ((List.range SPI_FLASH_SEC_SIZE).map (env.heap_byte w.mallocs))
    else none)

/-- `memcpy(dst + pos, src, src.length)` into an allocation `dst`; `none` when
the copy would leave the allocation. -/
def memcpy_at (dst : List Nat) (pos : Nat) (src : List Nat) : Option (List Nat) :=
  if pos + src.length ≤ dst.length then
    some (dst.take pos ++ src ++ dst.drop (pos + src.length))
  else none

/-- `MD5Builder::begin()`. -/
def MD5Builder.begin (_m : MD5Builder) : MD5Builder :=
  { ctx := [], buf := List.replicate 16 0 }

/-- `MD5Builder::add(data, len)`. -/
def MD5Builder.add (m : MD5Builder) (data : List Nat) : MD5Builder :=
  { m with ctx := m.ctx ++ data }

/-- `MD5Builder::calculate()`. -/
def MD5Builder.calculate (env : Env) (m : MD5Builder) : MD5Builder :=
  { m with buf := env.md5sum m.ctx }

/-- `MD5Builder::getBytes(buf)`. -/
def MD5Builder.getBytes (m : MD5Builder) : List Nat := m.buf

/-! ## `partition_updater_t` -/

/-- The function `get_current_active_partition_number()`. -/
def get_current_active_partition_number (env : Env) : Int :=
  if env.running_label = STR_app0 then 0
  else if env.running_label = STR_app1 then 1
  else -1

/-- The arguments `next_partition_from_type` passes to
`esp_partition_find_first` (`none` when no lookup is made). -/
def next_partition_query (env : Env) (type : update_type_t) :
    Option (Nat × Nat × Option (List Nat)) :=
  let active := get_current_active_partition_number env
  match type with
  | .utCode =>
    some (ESP_PARTITION_TYPE_APP,
      if active = 1 then ESP_PARTITION_SUBTYPE_APP_OTA_0 else ESP_PARTITION_SUBTYPE_APP_OTA_1,
      none)
  | .utSPIFFS =>
    some (ESP_PARTITION_TYPE_DATA, ESP_PARTITION_SUBTYPE_DATA_SPIFFS,
      some (if active = 1 then STR_spiffs0 else STR_spiffs1))
  | .utFont =>
    some (0x40, if active = 1 then 0 else 1, none)
  | .utUnknown => none

/-- The method `partition_updater_t::next_partition_from_type`. -/
def next_partition_from_type (env : Env) (type : update_type_t) : Option esp_partition_t :=
  match next_partition_query env type with
  | some (t, st, l) => env.esp_partition_find_first t st l
  | none => none

/-- The method `partition_updater_t::begin(type, size)`. -/
def partition_updater_t.begin (env : Env) (f : partition_updater_t)
    (type : update_type_t) (size : Nat) : partition_updater_t × Bool :=
  let f := { f with _type := type, _size := size, _progress := 0 }
  if f._size &&& (SPI_FLASH_SEC_SIZE - 1) ≠ 0 then (f, false)
  else
    let f := { f with _partition := next_partition_from_type env f._type }
    match f._partition with
    | none => (f, false)
    | some p =>
      if p.size < f._size then (f, false)
      else ({ f with _md5 := f._md5.begin }, true)

/-- The `fail:` exit of `write_sector`. -/
def write_sector_fail (f : partition_updater_t) (w : World) :
    Option (partition_updater_t × World × Bool) :=
  some ({ f with _type := .utUnknown }, w, false)

/-- The method `partition_updater_t::write_sector(buf)`.  The `printf` calls
are not modelled.  The result is undefined (`none`) when `buf` holds fewer than
`SPI_FLASH_SEC_SIZE` bytes or when the null `_partition` is dereferenced. -/
def partition_updater_t.write_sector (env : Env) (f : partition_updater_t) (w : World)
    (buf : List Nat) : Option (partition_updater_t × World × Bool) :=
  if f._type = .utUnknown then some (f, w, false)
  else if f._progress ≥ f._size then some (f, w, false)
  else
    match malloc_sector env w with
    | (w, none) => some (f, w, false)
    | (w, some _) =>
      -- memcpy(bbuf, buf, SPI_FLASH_SEC_SIZE)
      if buf.length < SPI_FLASH_SEC_SIZE then none
      else
        let bbuf := buf.take SPI_FLASH_SEC_SIZE
        -- if(_progress == 0) { _first_byte = bbuf[0]; bbuf[0] = 0xff; }
        let f := { f with _first_byte := if f._progress = 0 then bbuf.getD 0 0 else f._first_byte }
        let bbuf := if f._progress = 0 then bbuf.set 0 0xff else bbuf
        match f._partition with
        | none => none
        | some part =>
          match flashEraseSector env w
              ((part.address + f._progress) % U32 / SPI_FLASH_SEC_SIZE) with
          | (w, false) => write_sector_fail f w
          | (w, true) =>
            match flashWrite env w ((part.address + f._progress) % U32) bbuf with
            | (w, false) => write_sector_fail f w
            | (w, true) =>
              -- if(_progress == 0) bbuf[0] = _first_byte;
              let bbuf := if f._progress = 0 then bbuf.set 0 f._first_byte else bbuf
              let f := { f with _md5 := f._md5.add bbuf }
              let f := { f with _progress := (f._progress + SPI_FLASH_SEC_SIZE) % U32 }
              if f._progress ≥ f._size then
                let f := { f with _md5 := f._md5.calculate env }
                match flashRead env w part.address 4 with
                | (w, none) => write_sector_fail f w
                | (w, some buf4) =>
                  let buf4 := buf4.set 0 f._first_byte
                  match flashWrite env w part.address buf4 with
                  | (w, false) => write_sector_fail f w
                  | (w, true) => some (f, w, true)
              else some (f, w, true)

/-- The method `partition_updater_t::match_md5(md5)`. -/
def partition_updater_t.match_md5 (f : partition_updater_t) (md5 : List Nat) : Bool :=
  if f._type = .utUnknown then false
  else if f._progress ≠ f._size then false
  else decide (md5.take 16 = f._md5.getBytes.take 16)

/-- The method `partition_updater_t::activate_new_code()`. -/
def partition_updater_t.activate_new_code (env : Env) (f : partition_updater_t) (w : World) :
    World × Bool :=
  if f._type ≠ .utCode then (w, false)
  else if f._progress ≠ f._size then (w, false)
  else esp_ota_set_boot_partition env w f._partition

/-! ## `updater_t` -/

/-- Little-endian decoding of a 32-bit word from four bytes. -/
def le32 (bs : List Nat) : Nat :=
  bs.getD 0 0 % 256 + 256 * (bs.getD 1 0 % 256) + 65536 * (bs.getD 2 0 % 256)
    + 16777216 * (bs.getD 3 0 % 256)

/-- Modelled from the spec: the layout of the target header record, declared in
`mz_update.h` (not among the sources).  `memcpy(&header, buffer + 16,
sizeof(header))` followed by `header.label[sizeof(header.label)-1] = 0`, with
the fields in the order of the spec's wire-format table: `label`
(`label_size` bytes), `original_length`, `archived_length` (little-endian
32-bit words), `content_hash` (16 bytes). -/
def read_header (env : Env) (buffer : List Nat) : header_t :=
  let raw := buffer.drop 16
  let n := env.label_size
  { label := (raw.take n).set (n - 1) 0,
    orig_len := le32 ((raw.drop n).take 4),
    arc_len := le32 ((raw.drop (n + 4)).take 4),
    md5 := (raw.drop (n + 8)).take 16 }

/-- The method `updater_t::begin()`. -/
def updater_t.begin (env : Env) (s : updater_t) (w : World) : updater_t × World :=
  let (buffer, w) :=
    match s.buffer with
    | none => let (w, b) := malloc_sector env w; (b, w)
    | some b => (some b, w)
  ({ s with buffer := buffer, remaining_count := 0, buffer_pos := 0,
            phase := .phBegin, status := .stNoError }, w)

/-- The method `updater_t::end()`. -/
def updater_t.end_ (s : updater_t) : updater_t := { s with buffer := none }

/-- The label test of `process_block`: the `strcmp` chain. -/
def type_of_label (label : List Nat) : update_type_t :=
  if cstr label = STR_font then .utFont
  else if cstr label = STR_spiffs then .utSPIFFS
  else if cstr label = STR_app then .utCode
  else .utUnknown

/-- The method `updater_t::process_block()`.  The receive buffer is a
`malloc(SPI_FLASH_SEC_SIZE)` allocation: the method has no defined result on a
null buffer or on one of another size. -/
def updater_t.process_block (env : Env) (s : updater_t) (w : World) :
    Option (updater_t × World) :=
  match s.buffer with
  | none => none
  | some buffer =>
    if buffer.length ≠ SPI_FLASH_SEC_SIZE then none
    else
      match s.phase with
      | .phBegin =>
        if buffer.take 32 ≠ ARCHIVE_MAGIC then some ({ s with status := .stCorrupted }, w)
        else some ({ s with phase := .phHeader }, w)
      | .phHeader =>
        if buffer.take 16 ≠ FILE_BOUNDARY then some ({ s with status := .stCorrupted }, w)
        else
          let s := { s with header := read_header env buffer }
          if s.header.orig_len > s.header.arc_len ∨
              s.header.arc_len % SPI_FLASH_SEC_SIZE ≠ 0 then
            some ({ s with status := .stCorrupted }, w)
          else
            let type := type_of_label s.header.label
            if type = .utUnknown then some ({ s with status := .stCorrupted }, w)
            else
              match s.partition_updater.begin env type s.header.arc_len with
              | (f, false) =>
                some ({ s with partition_updater := f, status := .stCorrupted }, w)
              | (f, true) =>
                some ({ s with partition_updater := f,
                               remaining_count := s.header.arc_len / SPI_FLASH_SEC_SIZE,
                               phase := .phContent }, w)
      | .phContent =>
        match s.partition_updater.write_sector env w buffer with
        | none => none
        | some (f, w, false) =>
          some ({ s with partition_updater := f, status := .stCorrupted }, w)
        | some (f, w, true) =>
          let s := { s with partition_updater := f,
                            remaining_count := (s.remaining_count + U32 - 1) % U32 }
          if s.remaining_count = 0 then
            if !s.partition_updater.match_md5 s.header.md5 then
              some ({ s with status := .stCorrupted }, w)
            else
              let (w, _) := s.partition_updater.activate_new_code env w
              some ({ s with phase := .phHeader }, w)
          else some (s, w)

/-- The `while(size > 0)` loop of `updater_t::write_data`; `fuel` bounds the
number of iterations. -/
def write_data_loop (env : Env) : Nat → updater_t → World → List Nat →
    Option (updater_t × World)
  | fuel, s, w, buf =>
    if buf.length = 0 then some (s, w)
    else
      match fuel with
      | 0 => none
      | fuel + 1 =>
        match s.buffer with
        | none => none
        | some buffer =>
          let buffer_remain := (SPI_FLASH_SEC_SIZE + U32 - s.buffer_pos) % U32
          let one_size := min buffer_remain buf.length
          match memcpy_at buffer s.buffer_pos (buf.take one_size) with
          | none => none
          | some buffer =>
            let s := { s with buffer := some buffer, buffer_pos := s.buffer_pos + one_size }
            if s.buffer_pos = SPI_FLASH_SEC_SIZE then
              match updater_t.process_block env { s with buffer_pos := 0 } w with
              | none => none
              | some (s, w) =>
                if s.status ≠ .stNoError then some (s, w)
                else write_data_loop env fuel s w (buf.drop one_size)
            else write_data_loop env fuel s w (buf.drop one_size)

/-- The method `updater_t::write_data(buf, size)`.  Each iteration but the
first consumes at least one byte, so `size + 1` iterations always suffice. -/
def updater_t.write_data (env : Env) (s : updater_t) (w : World) (buf : List Nat) :
    Option (updater_t × World) :=
  if s.status ≠ .stNoError then some (s, w)
  else if s.buffer = none then some (s, w)
  else write_data_loop env (buf.length + 1) s w buf

/-- The method `updater_t::finish()`. -/
def updater_t.finish (s : updater_t) : updater_t × Bool :=
  let success :=
    if s.status ≠ .stNoError then false
    else if s.phase ≠ .phHeader then false
    else true
  ({ s with buffer := none }, success)

/-! ## Auxiliary definitions: invariants and test harnesses -/

/-- The receive-buffer part of the invariant `Inv`. -/
def BufInv (s : updater_t) : Prop :=
  s.buffer_pos < SPI_FLASH_SEC_SIZE ∧ ∀ b, s.buffer = some b → b.length = SPI_FLASH_SEC_SIZE

/-- Feeding `write_data` one byte per call. -/
def write_bytes (env : Env) : updater_t → World → List Nat → Option (updater_t × World)
  | s, w, [] => some (s, w)
  | s, w, x :: xs =>
    match updater_t.write_data env s w [x] with
    | none => none
    | some (s, w) => write_bytes env s w xs

/-- The copy of the block that `write_sector` hands to the flash write. -/
def flash_image (progress : Nat) (buf : List Nat) : List Nat :=
  if progress = 0 then (buf.take SPI_FLASH_SEC_SIZE).set 0 0xff else buf.take SPI_FLASH_SEC_SIZE

/-- The value of `_first_byte` after the first-sector test of `write_sector`. -/
def first_byte_of (f : partition_updater_t) (buf : List Nat) : Nat :=
  if f._progress = 0 then (buf.take SPI_FLASH_SEC_SIZE).getD 0 0 else f._first_byte

/-- The session state after a sector has been written and hashed. -/
def sector_done (f : partition_updater_t) (buf : List Nat) : partition_updater_t :=
  { f with _first_byte := first_byte_of f buf,
           _md5 := f._md5.add (buf.take SPI_FLASH_SEC_SIZE),
           _progress := (f._progress + SPI_FLASH_SEC_SIZE) % U32 }

/-- A storage operation (anything but a boot-partition switch). -/
def FlashOp.is_storage : FlashOp → Bool
  | .set_boot _ => false
  | _ => true

/-- The invariant of the stream processor between two blocks. -/
def Inv (s : updater_t) : Prop :=
  s.buffer_pos < SPI_FLASH_SEC_SIZE ∧
  (∀ b, s.buffer = some b → b.length = SPI_FLASH_SEC_SIZE) ∧
  (s.phase = .phContent → s.partition_updater._partition ≠ none)

/-- Feeding `write_data` one chunk after the other. -/
def write_chunks (env : Env) : updater_t → World → List (List Nat) → Option (updater_t × World)
  | s, w, [] => some (s, w)
  | s, w, c :: cs =>
    match updater_t.write_data env s w c with
    | none => none
    | some (s, w) => write_chunks env s w cs

/-- A platform on which every primitive succeeds. -/
def sample_env : Env :=
  { label_size := 8,
    md5sum := fun _ => List.replicate 16 0,
    running_label := STR_app0,
    esp_partition_find_first := fun _ _ _ => some ⟨0x10000, 0x100000⟩,
    io_ok := fun _ => true,
    malloc_ok := fun _ => true,
    heap_byte := fun _ _ => 0 }

/-- A platform state with an empty operation log. -/
def sample_world : World := { mem := fun _ => 0, boot := none, log := [], mallocs := 0 }

/-- A flasher on which `begin` has never been called. -/
def idle_flasher : partition_updater_t :=
  { _type := .utUnknown, _size := 0, _progress := 0, _partition := none, _first_byte := 0,
    _md5 := { ctx := [], buf := [] } }

/-- An updater on which `begin` has never been called. -/
def idle_updater : updater_t :=
  { buffer := none, remaining_count := 0, buffer_pos := 0, phase := .phBegin,
    status := .stNoError, header := { label := [], orig_len := 0, arc_len := 0, md5 := [] },
    partition_updater := idle_flasher }

/-- A target header block: marker, label, the two lengths and the digest,
padded with zeros to a full block (for a label field of 8 bytes). -/
def header_block (label : List Nat) (orig arc : List Nat) (md5 : List Nat) : List Nat :=
  FILE_BOUNDARY ++ label ++ orig ++ arc ++ md5 ++ List.replicate 4048 0

/-- Calling `write_sector` once per block, in order, as long as it succeeds. -/
def write_sectors (env : Env) :
    partition_updater_t → World → List (List Nat) → Option (partition_updater_t × World × Bool)
  | f, w, [] => some (f, w, true)
  | f, w, b :: bs =>
    match f.write_sector env w b with
    | none => none
    | some (f, w, false) => some (f, w, false)
    | some (f, w, true) => write_sectors env f w bs

/-- A block of 4096 bytes `0x42`. -/
def sample_block : List Nat := List.replicate 4096 0x42

/-- The session `begin(utCode, size)` opens on `sample_env` from `idle_flasher`. -/
def sample_session (size : Nat) : partition_updater_t :=
  { _type := .utCode, _size := size, _progress := 0,
    _partition := some { address := 0x10000, size := 0x100000 },
    _first_byte := 0, _md5 := { ctx := [], buf := List.replicate 16 0 } }

/-- The number of boot-partition switches in an operation log. -/
def boot_switches (log : List FlashOp) : Nat := log.countP (fun op => !op.is_storage)

/-- A well-formed target: a header block with a valid marker, a known label,
`original_length ≤ archived_length`, a positive block-aligned
`archived_length` that fits the resolved region `p`, followed by
`archived_length` content bytes whose MD5 digest is the header's
`content_hash`. -/
def ValidTarget (env : Env) (hdr c : List Nat) (p : esp_partition_t) : Prop :=
  hdr.length = SPI_FLASH_SEC_SIZE ∧ hdr.take 16 = FILE_BOUNDARY ∧
  type_of_label (read_header env hdr).label ≠ .utUnknown ∧
  (read_header env hdr).orig_len ≤ (read_header env hdr).arc_len ∧
  0 < (read_header env hdr).arc_len ∧
  (read_header env hdr).arc_len % SPI_FLASH_SEC_SIZE = 0 ∧
  c.length = (read_header env hdr).arc_len ∧
  next_partition_from_type env (type_of_label (read_header env hdr).label) = some p ∧
  (read_header env hdr).arc_len ≤ p.size ∧
  (read_header env hdr).md5.take 16 = (env.md5sum c).take 16

/-- Whether the label of a header block is exactly `"app"`. -/
def is_app (env : Env) (hdr : List Nat) : Prop := cstr (read_header env hdr).label = STR_app

instance (env : Env) (hdr : List Nat) : Decidable (is_app env hdr) := by
  unfold is_app; infer_instance

/-- A block that starts with the archive magic. -/
def sample_magic : List Nat := ARCHIVE_MAGIC ++ List.replicate 4064 0

/-- A header block for 4096 content bytes with an all-zero digest field. -/
def sample_header (label : List Nat) : List Nat :=
  header_block label [0, 16, 0, 0] [0, 16, 0, 0] (List.replicate 16 0)

/-- The label field `"app"`, NUL-padded to 8 bytes. -/
def LABEL_app : List Nat := [97, 112, 112, 0, 0, 0, 0, 0]

/-- The label field `"font"`, NUL-padded to 8 bytes. -/
def LABEL_font : List Nat := [102, 111, 110, 116, 0, 0, 0, 0]

/-- Block `j` of a byte stream. -/
def block_at (stream : List Nat) (j : Nat) : List Nat :=
  (stream.drop (SPI_FLASH_SEC_SIZE * j)).take SPI_FLASH_SEC_SIZE

/-- The `K` blocks that follow block `h` of a byte stream. -/
def content_of (stream : List Nat) (h K : Nat) : List Nat :=
  (stream.drop (SPI_FLASH_SEC_SIZE * (h + 1))).take (SPI_FLASH_SEC_SIZE * K)

/-- The state of the stream processor after the first `j` full blocks of a
stream (block-wise reading of `write_data`). -/
def run_blocks (env : Env) (s : updater_t) (w : World) (stream : List Nat) :
    Nat → Option (updater_t × World)
  | 0 => some (s, w)
  | j + 1 =>
    match run_blocks env s w stream j with
    | none => none
    | some (s1, w1) =>
      if s1.status ≠ .stNoError ∨ s1.buffer = none then some (s1, w1)
      else updater_t.process_block env { s1 with buffer := some (block_at stream j) } w1

/-- The two storage operations of `write_sector` for one block. -/
def sector_ops (part : esp_partition_t) (progress : Nat) (blk : List Nat) : List FlashOp :=
  [FlashOp.erase ((part.address + progress) % U32 / SPI_FLASH_SEC_SIZE),
   FlashOp.write ((part.address + progress) % U32) (flash_image progress blk)]

/-- The storage operations for the first `k` content blocks of the target
whose header is block `h` of the stream. -/
def content_ops (part : esp_partition_t) (stream : List Nat) (h : Nat) : Nat → List FlashOp
  | 0 => []
  | k + 1 => content_ops part stream h k ++
      sector_ops part (SPI_FLASH_SEC_SIZE * k) (block_at stream (h + 1 + k))

/-- The target whose header is block `h` of the stream is a complete,
verified `Code` target of `K` content blocks destined for region `part`. -/
def Verified (env : Env) (stream : List Nat) (h K : Nat) (part : esp_partition_t) : Prop :=
  1 ≤ K ∧ SPI_FLASH_SEC_SIZE * (h + 1 + K) ≤ stream.length ∧
  (block_at stream h).take 16 = FILE_BOUNDARY ∧
  cstr (read_header env (block_at stream h)).label = STR_app ∧
  (read_header env (block_at stream h)).arc_len = SPI_FLASH_SEC_SIZE * K ∧
  (read_header env (block_at stream h)).md5.take 16
    = (env.md5sum (content_of stream h K)).take 16 ∧
  next_partition_from_type env .utCode = some part

/-- A boot switch to `p` issued after the operations `pre` is justified by the
stream: `pre` ends with the successful erase/write pairs of all content blocks
of a verified `Code` target, followed by the first-byte patch. -/
def Justified (env : Env) (stream : List Nat) (pre : List FlashOp)
    (p : Option esp_partition_t) : Prop :=
  ∃ h K part patch before,
    Verified env stream h K part ∧ p = some part ∧
    pre = before ++ content_ops part stream h K
      ++ [FlashOp.read part.address 4, FlashOp.write part.address patch] ∧
    ∀ i, before.length ≤ i → i < pre.length → env.io_ok i = true

/-- The processor is inside the target whose header is block `h`: since that
header was accepted the boot pointer has not moved and only storage operations
were issued. -/
def InTarget (env : Env) (sb : updater_t) (wb : World) (stream : List Nat)
    (s : updater_t) (w : World) (h : Nat) : Prop :=
  ∃ sh wh, run_blocks env sb wb stream h = some (sh, wh) ∧
    sh.phase = .phHeader ∧ sh.status = .stNoError ∧
    (block_at stream h).take 16 = FILE_BOUNDARY ∧
    s.header = read_header env (block_at stream h) ∧
    w.boot = wh.boot ∧ ∃ ops, w.log = wh.log ++ ops ∧ ∀ op ∈ ops, op.is_storage = true

/-- The processor has received `k` content blocks of the target whose header is
block `h`, all written successfully (counter lockstep, accumulated hash input,
operations logged since the header). -/
def Receiving (env : Env) (stream : List Nat) (s : updater_t) (w : World) (h k : Nat)
    (before : List FlashOp) (part : esp_partition_t) : Prop :=
  (block_at stream h).take 16 = FILE_BOUNDARY ∧
  s.header = read_header env (block_at stream h) ∧
  s.partition_updater._type = type_of_label s.header.label ∧
  s.partition_updater._type ≠ .utUnknown ∧
  s.partition_updater._size = s.header.arc_len ∧
  s.partition_updater._progress = SPI_FLASH_SEC_SIZE * k ∧
  s.partition_updater._md5.ctx = content_of stream h k ∧
  s.remaining_count * SPI_FLASH_SEC_SIZE + s.partition_updater._progress
    = s.partition_updater._size ∧
  s.partition_updater._partition = some part ∧
  next_partition_from_type env s.partition_updater._type = some part ∧
  w.log = before ++ content_ops part stream h k ∧
  ∀ i, before.length ≤ i → i < w.log.length → env.io_ok i = true

/-- The invariant of the stream processor after `j` blocks of the stream. -/
def StreamInv (env : Env) (sb : updater_t) (wb : World) (stream : List Nat) (j : Nat)
    (s : updater_t) (w : World) : Prop :=
  (∀ i p, wb.log.length ≤ i → w.log[i]? = some (FlashOp.set_boot p) →
    Justified env stream (w.log.take i) p) ∧
  (s.phase = .phContent → ∃ h, h < j ∧ InTarget env sb wb stream s w h) ∧
  (s.status = .stNoError → s.buffer ≠ none → s.phase = .phContent →
    ∃ h k before part, j = h + 1 + k ∧ Receiving env stream s w h k before part)

/-- The platform `sample_env` with an exhausted heap: every storage and
boot-control primitive succeeds, every allocation fails. -/
def starved_env : Env := { sample_env with malloc_ok := fun _ => false }

/-- A `Code` session of one block on `sample_env` whose block has been written. -/
def done_session : partition_updater_t := { sample_session 4096 with _progress := 4096 }

/-- The session left behind by `begin(utCode, 0x200000)` on `sample_env`, whose
region holds only `0x100000` bytes: the call fails after `_type`, `_size`,
`_progress` and `_partition` have been assigned. -/
def oversized_session : partition_updater_t :=
  { _type := .utCode, _size := 0x200000, _progress := 0,
    _partition := some { address := 0x10000, size := 0x100000 },
    _first_byte := 0, _md5 := { ctx := [], buf := [] } }

/-- An updater that holds the full block `b` and awaits a target header. -/
def awaiting_header (b : List Nat) : updater_t :=
  { idle_updater with buffer := some b, phase := .phHeader }

/-- A header block whose `original_length` (4097) exceeds its
`archived_length` (4096). -/
def bad_length_header : List Nat :=
  header_block LABEL_app [1, 16, 0, 0] [0, 16, 0, 0] (List.replicate 16 0)

/-- The label field `"APP"`, NUL-padded to 8 bytes. -/
def LABEL_APP_upper : List Nat := [65, 80, 80, 0, 0, 0, 0, 0]

/-- A header block for 4096 content bytes whose digest field is
`01 01 .. 01`. -/
def mismatch_header : List Nat :=
  header_block LABEL_app [0, 16, 0, 0] [0, 16, 0, 0] (List.replicate 16 1)

/-- The stream processor after it accepted `mismatch_header` on `sample_env`,
holding the only content block of the target. -/
def mismatch_state : updater_t :=
  { idle_updater with
      buffer := some sample_block, phase := .phContent, remaining_count := 1,
      header := read_header sample_env mismatch_header,
      partition_updater := sample_session 4096 }

/-- The platform `sample_env` on which the second storage primitive (the first
flash write) fails. -/
def faulty_env : Env := { sample_env with io_ok := fun n => decide (n ≠ 1) }

/-- The stream processor can no longer succeed: either `status` is
`stCorrupted`, or it waits for content of a session that is already fully
written. -/
def Doomed (s : updater_t) : Prop :=
  s.status = .stCorrupted ∨
  (s.phase = .phContent ∧ s.partition_updater._size ≤ s.partition_updater._progress)

/-- A header block for a target of zero bytes. -/
def empty_target_header : List Nat :=
  header_block LABEL_app [0, 0, 0, 0] [0, 0, 0, 0] (List.replicate 16 0)

/-- The platform `sample_env` on which the fifth storage or boot-control
primitive (the boot switch after a one-block target) fails. -/
def boot_fail_env : Env := { sample_env with io_ok := fun n => decide (n ≠ 4) }

/-- The stream processor on `boot_fail_env`, holding the only content block of
an `app` target whose header announces the digest of the platform. -/
def last_block_state : updater_t :=
  { idle_updater with
      buffer := some sample_block, phase := .phContent, remaining_count := 1,
      header := read_header sample_env (sample_header LABEL_app),
      partition_updater := sample_session 4096 }

/-- A platform whose running partition is labelled `"factory"`. -/
def factory_env : Env :=
  { sample_env with running_label := [102, 97, 99, 116, 111, 114, 121] }

/-- The `n` bytes of flash that start at address `base`. -/
def flash_bytes (w : World) (base n : Nat) : List Nat :=
  (List.range n).map (fun i => w.mem (base + i))

/-- Calling `write_sector` once per buffer, whatever each call returns; the
results of the calls are collected in order. -/
def write_sector_calls (env : Env) :
    partition_updater_t → World → List (List Nat) →
      Option (partition_updater_t × World × List Bool)
  | f, w, [] => some (f, w, [])
  | f, w, b :: bs =>
    match f.write_sector env w b with
    | none => none
    | some (f1, w1, r) =>
      match write_sector_calls env f1 w1 bs with
      | none => none
      | some (f2, w2, rs) => some (f2, w2, r :: rs)

/-- The invariant of a flashing session on the region `p` with expected size
`size`: the region pointer and the size are those of `begin`, and the byte
counter is a multiple of the block size that does not exceed the size. -/
def SessionInv (p : esp_partition_t) (size : Nat) (f : partition_updater_t) : Prop :=
  f._partition = some p ∧ f._size = size ∧ f._progress % SPI_FLASH_SEC_SIZE = 0 ∧
  f._progress ≤ size

/-- Counter lockstep: while the processor receives the content of a target
with `arc_len > 0`, `remaining_count` counts the blocks that are still
missing from the session. -/
def Lockstep (s : updater_t) : Prop :=
  s.phase = .phContent → s.status = .stNoError →
    s.header.arc_len < U32 ∧
    (0 < s.header.arc_len →
      1 ≤ s.remaining_count ∧
      s.remaining_count * SPI_FLASH_SEC_SIZE + s.partition_updater._progress
        = s.partition_updater._size ∧
      s.partition_updater._size = s.header.arc_len)

/-- The bytes waiting in the receive buffer: the first `buffer_pos` bytes of
the allocation. -/
def pending (s : updater_t) : List Nat := (s.buffer.getD []).take s.buffer_pos

/-- The platform `sample_env` on which the fourth storage primitive (the flash
write of the second block of a session) fails. -/
def second_write_fail_env : Env := { sample_env with io_ok := fun n => decide (n ≠ 3) }

/-! ## Lemmas and theorems -/

theorem memcpy_at_eq (dst : List Nat) (pos : Nat) (src : List Nat)
    (h : pos + src.length ≤ dst.length) :
    memcpy_at dst pos src = some (dst.take pos ++ src ++ dst.drop (pos + src.length)) := by
  simp [memcpy_at, h]

theorem memcpy_at_length {dst : List Nat} {pos : Nat} {src r : List Nat}
    (h : memcpy_at dst pos src = some r) : r.length = dst.length := by
  unfold memcpy_at at h
  split at h
  · injection h with h
    subst h
    simp
    omega
  · cases h

theorem memcpy_at_cons (dst : List Nat) (pos : Nat) (x : Nat) (xs : List Nat)
    (h : pos + (xs.length + 1) ≤ dst.length) :
    memcpy_at (dst.take pos ++ [x] ++ dst.drop (pos + 1)) (pos + 1) xs
      = memcpy_at dst pos (x :: xs) := by
  have h1 : (dst.take pos ++ [x] ++ dst.drop (pos + 1)).length = dst.length := by
    simp; omega
  rw [memcpy_at_eq _ _ _ (by rw [h1]; omega), memcpy_at_eq _ _ _ (by simpa using h)]
  congr 1
  have e1 : (dst.take pos ++ [x] ++ dst.drop (pos + 1)).take (pos + 1) = dst.take pos ++ [x] := by
    rw [List.take_append_of_le_length (by simp; omega)]
    rw [List.take_of_length_le (by simp)]
  have e2 : (dst.take pos ++ [x] ++ dst.drop (pos + 1)).drop (pos + 1 + xs.length)
      = dst.drop (pos + (xs.length + 1)) := by
    have hl : (dst.take pos ++ [x]).length = pos + 1 := by simp; omega
    rw [show pos + 1 + xs.length = (dst.take pos ++ [x]).length + xs.length by rw [hl]]
    rw [List.drop_append]
    rw [List.drop_drop]
    congr 1
    omega
  rw [e1, e2]
  simp

theorem U32_remain (pos : Nat) (h : pos ≤ SPI_FLASH_SEC_SIZE) :
    (SPI_FLASH_SEC_SIZE + U32 - pos) % U32 = SPI_FLASH_SEC_SIZE - pos := by
  unfold SPI_FLASH_SEC_SIZE U32 at *
  omega

theorem process_block_frame {env : Env} {s s' : updater_t} {w w' : World}
    (h : updater_t.process_block env s w = some (s', w')) :
    s'.buffer = s.buffer ∧ s'.buffer_pos = s.buffer_pos := by
  unfold updater_t.process_block at h
  cases hb : s.buffer with
  | none => simp [hb] at h
  | some b =>
    simp only [hb] at h
    by_cases hl : b.length = SPI_FLASH_SEC_SIZE
    · simp only [hl, ne_eq, not_true_eq_false, ↓reduceIte] at h
      cases hp : s.phase
      · simp only [hp] at h
        split at h <;> (injection h with h; injection h with h1 h2; subst h1; exact ⟨rfl, rfl⟩)
      · simp only [hp] at h
        repeat' split at h
        all_goals (injection h with h; injection h with h1 h2; subst h1; exact ⟨rfl, rfl⟩)
      · simp only [hp] at h
        repeat' split at h
        all_goals first
          | (injection h with h; injection h with h1 h2; subst h1; exact ⟨rfl, rfl⟩)
          | cases h
    · simp [hl] at h

theorem write_data_single (env : Env) (s : updater_t) (w : World) (x : Nat) (b : List Nat)
    (hst : s.status = .stNoError) (hb : s.buffer = some b)
    (hlen : b.length = SPI_FLASH_SEC_SIZE) (hpos : s.buffer_pos < SPI_FLASH_SEC_SIZE) :
    updater_t.write_data env s w [x] =
      if s.buffer_pos + 1 = SPI_FLASH_SEC_SIZE then
        updater_t.process_block env
          { s with buffer := some (b.take s.buffer_pos ++ [x] ++ b.drop (s.buffer_pos + 1)),
                   buffer_pos := 0 } w
      else
        some ({ s with buffer := some (b.take s.buffer_pos ++ [x] ++ b.drop (s.buffer_pos + 1)),
                       buffer_pos := s.buffer_pos + 1 }, w) := by
  have hrem : (SPI_FLASH_SEC_SIZE + U32 - s.buffer_pos) % U32 = SPI_FLASH_SEC_SIZE - s.buffer_pos :=
    U32_remain _ (Nat.le_of_lt hpos)
  have hmin : min (SPI_FLASH_SEC_SIZE - s.buffer_pos) 1 = 1 := by omega
  have hcp : memcpy_at b s.buffer_pos [x]
      = some (b.take s.buffer_pos ++ [x] ++ b.drop (s.buffer_pos + 1)) :=
    memcpy_at_eq _ _ _ (by simp; omega)
  unfold updater_t.write_data
  simp only [hst, hb, ne_eq, not_true_eq_false, ↓reduceIte, List.length_singleton,
    reduceCtorEq]
  unfold write_data_loop
  simp only [List.length_singleton, one_ne_zero, ↓reduceIte, hb, hrem, hmin, List.take_succ_cons,
    List.take_zero, hcp, List.drop_succ_cons, List.drop_zero, hst, List.append_assoc,
    List.singleton_append]
  split
  · cases hp : updater_t.process_block env _ w with
    | none => simp
    | some r =>
      obtain ⟨s1, w1⟩ := r
      simp only
      split
      · rfl
      · unfold write_data_loop
        simp
  · unfold write_data_loop
    simp

theorem write_data_of_status {env : Env} {s : updater_t} (w : World) (buf : List Nat)
    (h : s.status ≠ .stNoError) : updater_t.write_data env s w buf = some (s, w) := by
  simp [updater_t.write_data, h]

theorem write_data_of_null {env : Env} {s : updater_t} (w : World) (buf : List Nat)
    (h : s.buffer = none) : updater_t.write_data env s w buf = some (s, w) := by
  simp [updater_t.write_data, h]

theorem write_bytes_of_status {env : Env} {s : updater_t} (w : World) (buf : List Nat)
    (h : s.status ≠ .stNoError) : write_bytes env s w buf = some (s, w) := by
  induction buf with
  | nil => rfl
  | cons x xs ih => simp only [write_bytes, write_data_of_status w [x] h, ih]

theorem write_bytes_of_null {env : Env} {s : updater_t} (w : World) (buf : List Nat)
    (h : s.buffer = none) : write_bytes env s w buf = some (s, w) := by
  induction buf with
  | nil => rfl
  | cons x xs ih => simp only [write_bytes, write_data_of_null w [x] h, ih]

theorem write_bytes_append (env : Env) (s : updater_t) (w : World) (a b : List Nat) :
    write_bytes env s w (a ++ b) =
      match write_bytes env s w a with
      | none => none
      | some (s1, w1) => write_bytes env s1 w1 b := by
  induction a generalizing s w with
  | nil => simp [write_bytes]
  | cons x xs ih =>
    simp only [List.cons_append, write_bytes]
    cases updater_t.write_data env s w [x] with
    | none => rfl
    | some r => exact ih r.1 r.2

/-- Feeding a chunk that fits into the free part of the receive buffer. -/
theorem write_bytes_chunk (env : Env) (c : List Nat) :
    ∀ (s : updater_t) (w : World) (b : List Nat),
      s.status = .stNoError → s.buffer = some b → b.length = SPI_FLASH_SEC_SIZE →
      c ≠ [] → s.buffer_pos + c.length ≤ SPI_FLASH_SEC_SIZE →
      write_bytes env s w c =
        if s.buffer_pos + c.length = SPI_FLASH_SEC_SIZE then
          updater_t.process_block env
            { s with buffer := some (b.take s.buffer_pos ++ c ++ b.drop (s.buffer_pos + c.length)),
                     buffer_pos := 0 } w
        else
          some ({ s with buffer := some (b.take s.buffer_pos ++ c ++ b.drop (s.buffer_pos + c.length)),
                         buffer_pos := s.buffer_pos + c.length }, w) := by
  induction c with
  | nil => intro s w b _ _ _ h; exact absurd rfl h
  | cons x xs ih =>
    intro s w b hst hb hlen _ hfit
    simp only [List.length_cons] at hfit
    have hpos : s.buffer_pos < SPI_FLASH_SEC_SIZE := by omega
    simp only [write_bytes, write_data_single env s w x b hst hb hlen hpos]
    by_cases hx : xs = []
    · subst hx
      by_cases h1 : s.buffer_pos + 1 = SPI_FLASH_SEC_SIZE
      · simp only [h1, ↓reduceIte, List.length_singleton]
        cases updater_t.process_block env _ w with
        | none => rfl
        | some r => rfl
      · simp only [h1, ↓reduceIte, List.length_singleton, write_bytes]
    · have hxl : 0 < xs.length := List.length_pos.mpr hx
      have h1 : ¬ s.buffer_pos + 1 = SPI_FLASH_SEC_SIZE := by omega
      simp only [h1, ↓reduceIte]
      have hlen1 : (b.take s.buffer_pos ++ [x] ++ b.drop (s.buffer_pos + 1)).length
          = SPI_FLASH_SEC_SIZE := by
        simp; omega
      rw [ih { s with buffer := some (b.take s.buffer_pos ++ [x] ++ b.drop (s.buffer_pos + 1)),
                      buffer_pos := s.buffer_pos + 1 } w _ hst rfl hlen1 hx
        (by simp only []; omega)]
      have hcp := memcpy_at_cons b s.buffer_pos x xs (by omega)
      rw [memcpy_at_eq _ _ _ (by rw [hlen1]; omega),
        memcpy_at_eq _ _ _ (by simp only [List.length_cons]; omega)] at hcp
      injection hcp with hcp
      simp only [List.length_cons]
      rw [hcp]
      simp only [List.length_cons, Nat.add_assoc, Nat.add_comm 1 xs.length]

theorem write_data_loop_nil (env : Env) (fuel : Nat) (s : updater_t) (w : World) :
    write_data_loop env fuel s w [] = some (s, w) := by
  unfold write_data_loop
  simp

theorem write_data_loop_eq (env : Env) :
    ∀ (fuel : Nat) (buf : List Nat) (s : updater_t) (w : World) (b : List Nat),
      buf.length ≤ fuel → s.status = .stNoError → s.buffer = some b →
      b.length = SPI_FLASH_SEC_SIZE → s.buffer_pos < SPI_FLASH_SEC_SIZE →
      write_data_loop env fuel s w buf = write_bytes env s w buf := by
  intro fuel
  induction fuel with
  | zero =>
    intro buf s w b hf _ _ _ _
    have : buf = [] := List.length_eq_zero.mp (Nat.le_zero.mp hf)
    subst this
    simp [write_data_loop, write_bytes]
  | succ fuel ih =>
    intro buf s w b hf hst hb hlen hpos
    by_cases hbuf : buf = []
    · subst hbuf
      simp [write_data_loop, write_bytes]
    · have hbl : 0 < buf.length := List.length_pos.mpr hbuf
      have hrem := U32_remain s.buffer_pos (Nat.le_of_lt hpos)
      unfold write_data_loop
      simp only [Nat.ne_of_gt hbl, ↓reduceIte, hb, hrem]
      generalize hk : min (SPI_FLASH_SEC_SIZE - s.buffer_pos) buf.length = k
      have hk1 : 1 ≤ k := by omega
      have hk2 : k ≤ buf.length := by omega
      have hk3 : s.buffer_pos + k ≤ SPI_FLASH_SEC_SIZE := by omega
      have htl : (buf.take k).length = k := by simp; omega
      have hne : buf.take k ≠ [] := by
        intro h0
        rw [h0] at htl
        simp at htl
        omega
      rw [memcpy_at_eq _ _ _ (by rw [htl, hlen]; exact hk3)]
      conv_rhs => rw [← List.take_append_drop k buf, write_bytes_append,
        write_bytes_chunk env _ s w b hst hb hlen hne (by rw [htl]; exact hk3)]
      simp only [htl]
      by_cases hfull : s.buffer_pos + k = SPI_FLASH_SEC_SIZE
      · simp only [hfull, ↓reduceIte]
        cases hp : updater_t.process_block env _ w with
        | none => rfl
        | some r =>
          obtain ⟨s1, w1⟩ := r
          simp only
          have hfr := process_block_frame hp
          by_cases hs1 : s1.status = .stNoError
          · simp only [hs1, ne_eq, not_true_eq_false, ↓reduceIte]
            have hb1 : s1.buffer = some (b.take s.buffer_pos ++ buf.take k
                ++ b.drop SPI_FLASH_SEC_SIZE) := hfr.1
            refine ih _ s1 w1 _ ?_ hs1 hb1 ?_ ?_
            · simp; omega
            · simp [htl]; omega
            · have h0 : s1.buffer_pos = 0 := hfr.2
              rw [h0]; decide
          · simp only [ne_eq, hs1, not_false_eq_true, ↓reduceIte]
            exact (write_bytes_of_status w1 _ hs1).symm
      · simp only [hfull, ↓reduceIte]
        have hall : k = buf.length := by omega
        have hd : buf.drop k = [] := by rw [hall]; simp
        rw [hd, write_data_loop_nil]
        simp [write_bytes]

/-- The loop of `write_data` consumes its input byte by byte. -/
theorem write_data_eq_write_bytes (env : Env) (s : updater_t) (w : World) (buf : List Nat)
    (hinv : BufInv s) : updater_t.write_data env s w buf = write_bytes env s w buf := by
  by_cases hst : s.status = .stNoError
  · cases hb : s.buffer with
    | none => rw [write_data_of_null w buf hb, write_bytes_of_null w buf hb]
    | some b =>
      unfold updater_t.write_data
      simp only [hst, ne_eq, not_true_eq_false, ↓reduceIte, hb, reduceCtorEq]
      exact write_data_loop_eq env _ buf s w b (Nat.le_succ _) hst hb (hinv.2 b hb) hinv.1
  · rw [write_data_of_status w buf hst, write_bytes_of_status w buf hst]

theorem set_set_getD (l : List Nat) (a : Nat) : (l.set 0 a).set 0 (l.getD 0 0) = l := by
  cases l <;> simp

theorem hash_image (f : partition_updater_t) (buf : List Nat) :
    (if f._progress = 0 then
        (if f._progress = 0 then (buf.take SPI_FLASH_SEC_SIZE).set 0 0xff
          else buf.take SPI_FLASH_SEC_SIZE).set 0
          (if f._progress = 0 then (buf.take SPI_FLASH_SEC_SIZE).getD 0 0 else f._first_byte)
      else (if f._progress = 0 then (buf.take SPI_FLASH_SEC_SIZE).set 0 0xff
          else buf.take SPI_FLASH_SEC_SIZE)) = buf.take SPI_FLASH_SEC_SIZE := by
  split
  · exact set_set_getD _ _
  · rfl

/-- What a `write_sector` call that returns `true` has done. -/
theorem write_sector_true {env : Env} {f f' : partition_updater_t} {w w' : World}
    {buf : List Nat}
    (h : f.write_sector env w buf = some (f', w', true)) :
    f._type ≠ .utUnknown ∧ f._progress < f._size ∧ SPI_FLASH_SEC_SIZE ≤ buf.length ∧
    env.malloc_ok w.mallocs = true ∧
    ∃ part w1 w2, f._partition = some part ∧
      flashEraseSector env { w with mallocs := w.mallocs + 1 }
        ((part.address + f._progress) % U32 / SPI_FLASH_SEC_SIZE) = (w1, true) ∧
      flashWrite env w1 ((part.address + f._progress) % U32) (flash_image f._progress buf)
        = (w2, true) ∧
      (((f._progress + SPI_FLASH_SEC_SIZE) % U32 < f._size ∧ w' = w2 ∧ f' = sector_done f buf) ∨
       (f._size ≤ (f._progress + SPI_FLASH_SEC_SIZE) % U32 ∧
        ∃ w3 buf4, flashRead env w2 part.address 4 = (w3, some buf4) ∧
          flashWrite env w3 part.address (buf4.set 0 (first_byte_of f buf)) = (w', true) ∧
          f' = { sector_done f buf with _md5 := (sector_done f buf)._md5.calculate env })) := by
  unfold partition_updater_t.write_sector write_sector_fail at h
  by_cases ht : f._type = .utUnknown
  · simp [ht] at h
  by_cases hp : f._progress ≥ f._size
  · simp [ht, hp] at h
  cases hm : env.malloc_ok w.mallocs
  · simp [ht, hp, malloc_sector, hm] at h
  by_cases hl : buf.length < SPI_FLASH_SEC_SIZE
  · simp [ht, hp, malloc_sector, hm, hl] at h
  cases hpart : f._partition with
  | none => simp [ht, hp, malloc_sector, hm, hl, hpart] at h
  | some part =>
    simp only [ht, hp, malloc_sector, hm, hl, hpart, ↓reduceIte, hash_image] at h
    refine ⟨ht, Nat.lt_of_not_ge hp, Nat.le_of_not_lt hl, rfl, part, ?_⟩
    split at h
    · simp at h
    rename_i w1 he
    split at h
    · simp at h
    rename_i w2 hw
    refine ⟨w1, w2, rfl, he, hw, ?_⟩
    by_cases hd : (f._progress + SPI_FLASH_SEC_SIZE) % U32 ≥ f._size
    · right
      simp only [hd, ↓reduceIte] at h
      refine ⟨hd, ?_⟩
      split at h
      · simp at h
      rename_i w3 buf4 hr
      split at h
      · simp at h
      rename_i w4 hw2
      simp only [Option.some.injEq, Prod.mk.injEq, and_true] at h
      obtain ⟨h1, h2⟩ := h
      subst h1; subst h2
      refine ⟨w3, buf4, hr, hw2, ?_⟩
      unfold sector_done first_byte_of MD5Builder.calculate
      simp only [hpart]
    · left
      simp only [hd, ↓reduceIte, Option.some.injEq, Prod.mk.injEq, and_true] at h
      obtain ⟨h1, h2⟩ := h
      subst h1; subst h2
      refine ⟨Nat.lt_of_not_ge hd, rfl, ?_⟩
      unfold sector_done first_byte_of
      simp only [hpart]

theorem flashEraseSector_eq {env : Env} {w w1 : World} {sec : Nat} {ok : Bool}
    (h : flashEraseSector env w sec = (w1, ok)) :
    ok = env.io_ok w.log.length ∧ w1.log = w.log ++ [FlashOp.erase sec] ∧ w1.boot = w.boot ∧
    w1.mallocs = w.mallocs ∧
    w1.mem = fun a => if ok = true ∧ a / SPI_FLASH_SEC_SIZE = sec then 0xFF else w.mem a := by
  unfold flashEraseSector at h
  simp only [Prod.mk.injEq] at h
  obtain ⟨h1, h2⟩ := h
  subst h1; subst h2
  exact ⟨rfl, rfl, rfl, rfl, rfl⟩

theorem flashWrite_eq {env : Env} {w w1 : World} {addr : Nat} {data : List Nat} {ok : Bool}
    (h : flashWrite env w addr data = (w1, ok)) :
    ok = env.io_ok w.log.length ∧ w1.log = w.log ++ [FlashOp.write addr data] ∧
    w1.boot = w.boot ∧ w1.mallocs = w.mallocs ∧
    w1.mem = fun a =>
      if ok = true ∧ addr ≤ a ∧ a < addr + data.length then w.mem a &&& data.getD (a - addr) 0xFF
      else w.mem a := by
  unfold flashWrite at h
  simp only [Prod.mk.injEq] at h
  obtain ⟨h1, h2⟩ := h
  subst h1; subst h2
  exact ⟨rfl, rfl, rfl, rfl, rfl⟩

theorem flashRead_eq {env : Env} {w w1 : World} {addr len : Nat} {r : Option (List Nat)}
    (h : flashRead env w addr len = (w1, r)) :
    w1.log = w.log ++ [FlashOp.read addr len] ∧ w1.boot = w.boot ∧ w1.mallocs = w.mallocs ∧
    w1.mem = w.mem ∧
    r = if env.io_ok w.log.length then some ((List.range len).map (fun i => w.mem (addr + i)))
        else none := by
  unfold flashRead at h
  simp only [Prod.mk.injEq] at h
  obtain ⟨h1, h2⟩ := h
  subst h1; subst h2
  exact ⟨rfl, rfl, rfl, rfl, rfl⟩

theorem set_boot_eq {env : Env} {w w1 : World} {p : Option esp_partition_t} {ok : Bool}
    (h : esp_ota_set_boot_partition env w p = (w1, ok)) :
    ok = (p.isSome && env.io_ok w.log.length) ∧ w1.log = w.log ++ [FlashOp.set_boot p] ∧
    w1.boot = (if ok then p else w.boot) ∧ w1.mallocs = w.mallocs ∧ w1.mem = w.mem := by
  unfold esp_ota_set_boot_partition at h
  simp only [Prod.mk.injEq] at h
  obtain ⟨h1, h2⟩ := h
  subst h1; subst h2
  exact ⟨rfl, rfl, rfl, rfl, rfl⟩

/-- Every outcome of `write_sector` leaves the session size, the region and
the boot pointer alone and issues storage operations only. -/
theorem write_sector_frame {env : Env} {f f' : partition_updater_t} {w w' : World}
    {buf : List Nat} {r : Bool}
    (h : f.write_sector env w buf = some (f', w', r)) :
    f'._size = f._size ∧ f'._partition = f._partition ∧ w'.boot = w.boot ∧
    (∃ ops, w'.log = w.log ++ ops ∧ ∀ op ∈ ops, op.is_storage = true) ∧
    (r = false → f'._type = .utUnknown ∨ f' = f) := by
  unfold partition_updater_t.write_sector write_sector_fail at h
  by_cases ht : f._type = .utUnknown
  · simp only [ht, ↓reduceIte, Option.some.injEq, Prod.mk.injEq] at h
    obtain ⟨h1, h2, h3⟩ := h
    subst h1; subst h2
    exact ⟨rfl, rfl, rfl, ⟨[], by simp, by simp⟩, fun _ => Or.inr rfl⟩
  by_cases hp : f._progress ≥ f._size
  · simp only [ht, hp, ↓reduceIte, Option.some.injEq, Prod.mk.injEq] at h
    obtain ⟨h1, h2, h3⟩ := h
    subst h1; subst h2
    exact ⟨rfl, rfl, rfl, ⟨[], by simp, by simp⟩, fun _ => Or.inr rfl⟩
  cases hm : env.malloc_ok w.mallocs
  · simp only [ht, hp, malloc_sector, hm, ↓reduceIte, Option.some.injEq, Prod.mk.injEq,
      Bool.false_eq_true] at h
    obtain ⟨h1, h2, h3⟩ := h
    subst h1; subst h2
    exact ⟨rfl, rfl, rfl, ⟨[], by simp, by simp⟩, fun _ => Or.inr rfl⟩
  by_cases hl : buf.length < SPI_FLASH_SEC_SIZE
  · simp [ht, hp, malloc_sector, hm, hl] at h
  cases hpart : f._partition with
  | none => simp [ht, hp, malloc_sector, hm, hl, hpart] at h
  | some part =>
    simp only [ht, hp, malloc_sector, hm, hl, hpart, ↓reduceIte, hash_image] at h
    split at h
    · rename_i w1 he
      have e := flashEraseSector_eq he
      simp only [Option.some.injEq, Prod.mk.injEq] at h
      obtain ⟨h1, h2, h3⟩ := h
      subst h1; subst h2
      exact ⟨rfl, rfl, e.2.2.1, ⟨_, e.2.1, by simp [FlashOp.is_storage]⟩, fun _ => Or.inl rfl⟩
    rename_i w1 he
    have e := flashEraseSector_eq he
    split at h
    · rename_i w2 hw
      have e2 := flashWrite_eq hw
      simp only [Option.some.injEq, Prod.mk.injEq] at h
      obtain ⟨h1, h2, h3⟩ := h
      subst h1; subst h2
      refine ⟨rfl, rfl, by rw [e2.2.2.1, e.2.2.1], ⟨_, by rw [e2.2.1, e.2.1, List.append_assoc], ?_⟩,
        fun _ => Or.inl rfl⟩
      simp [FlashOp.is_storage]
    rename_i w2 hw
    have e2 := flashWrite_eq hw
    by_cases hd : (f._progress + SPI_FLASH_SEC_SIZE) % U32 ≥ f._size
    · simp only [hd, ↓reduceIte] at h
      split at h
      · rename_i w3 hr
        have e3 := flashRead_eq hr
        simp only [Option.some.injEq, Prod.mk.injEq] at h
        obtain ⟨h1, h2, h3⟩ := h
        subst h1; subst h2
        refine ⟨rfl, rfl, by rw [e3.2.1, e2.2.2.1, e.2.2.1],
          ⟨_, by rw [e3.1, e2.2.1, e.2.1, List.append_assoc, List.append_assoc], ?_⟩,
          fun _ => Or.inl rfl⟩
        simp [FlashOp.is_storage]
      rename_i w3 buf4 hr
      have e3 := flashRead_eq hr
      split at h
      all_goals
        rename_i w4 hw2
        have e4 := flashWrite_eq hw2
        simp only [Option.some.injEq, Prod.mk.injEq] at h
        obtain ⟨h1, h2, h3⟩ := h
        subst h1; subst h2; subst h3
        refine ⟨rfl, rfl, by rw [e4.2.2.1, e3.2.1, e2.2.2.1, e.2.2.1],
          ⟨_, by rw [e4.2.1, e3.1, e2.2.1, e.2.1, List.append_assoc, List.append_assoc,
            List.append_assoc], ?_⟩, ?_⟩
        · simp [FlashOp.is_storage]
        · simp
    · simp only [hd, ↓reduceIte, Option.some.injEq, Prod.mk.injEq] at h
      obtain ⟨h1, h2, h3⟩ := h
      subst h1; subst h2; subst h3
      refine ⟨rfl, rfl, by rw [e2.2.2.1, e.2.2.1],
        ⟨_, by rw [e2.2.1, e.2.1, List.append_assoc], ?_⟩, by simp⟩
      simp [FlashOp.is_storage]

/-- `write_sector` has a defined result whenever the region pointer is valid
and the caller hands it a full block. -/
theorem write_sector_isSome (env : Env) (f : partition_updater_t) (w : World) (buf : List Nat)
    (hb : SPI_FLASH_SEC_SIZE ≤ buf.length) (hp : f._partition ≠ none) :
    ∃ r, f.write_sector env w buf = some r := by
  cases h : f.write_sector env w buf with
  | some r => exact ⟨r, rfl⟩
  | none =>
    exfalso
    unfold partition_updater_t.write_sector write_sector_fail at h
    have hl : ¬ buf.length < SPI_FLASH_SEC_SIZE := Nat.not_lt.mpr hb
    obtain ⟨part, hpart⟩ := Option.ne_none_iff_exists'.mp hp
    simp only [hl, hpart, ↓reduceIte] at h
    repeat' split at h
    all_goals cases h

theorem process_block_phBegin (env : Env) {s : updater_t} (w : World) {b : List Nat}
    (hb : s.buffer = some b) (hl : b.length = SPI_FLASH_SEC_SIZE) (hp : s.phase = .phBegin) :
    updater_t.process_block env s w =
      if b.take 32 ≠ ARCHIVE_MAGIC then some ({ s with status := .stCorrupted }, w)
      else some ({ s with phase := .phHeader }, w) := by
  unfold updater_t.process_block
  simp only [hb, hl, hp, ne_eq, not_true_eq_false, ↓reduceIte]

theorem process_block_phHeader (env : Env) {s : updater_t} (w : World) {b : List Nat}
    (hb : s.buffer = some b) (hl : b.length = SPI_FLASH_SEC_SIZE) (hp : s.phase = .phHeader) :
    updater_t.process_block env s w =
      if b.take 16 ≠ FILE_BOUNDARY then some ({ s with status := .stCorrupted }, w)
      else
        if (read_header env b).orig_len > (read_header env b).arc_len ∨
            (read_header env b).arc_len % SPI_FLASH_SEC_SIZE ≠ 0 then
          some ({ s with header := read_header env b, status := .stCorrupted }, w)
        else
          if type_of_label (read_header env b).label = .utUnknown then
            some ({ s with header := read_header env b, status := .stCorrupted }, w)
          else
            match s.partition_updater.begin env (type_of_label (read_header env b).label)
                (read_header env b).arc_len with
            | (f, false) =>
              some ({ s with header := read_header env b, partition_updater := f,
                             status := .stCorrupted }, w)
            | (f, true) =>
              some ({ s with header := read_header env b, partition_updater := f,
                             remaining_count := (read_header env b).arc_len / SPI_FLASH_SEC_SIZE,
                             phase := .phContent }, w) := by
  unfold updater_t.process_block
  simp only [hb, hl, hp, ne_eq, not_true_eq_false, ↓reduceIte]

theorem process_block_phContent (env : Env) {s : updater_t} (w : World) {b : List Nat}
    (hb : s.buffer = some b) (hl : b.length = SPI_FLASH_SEC_SIZE) (hp : s.phase = .phContent) :
    updater_t.process_block env s w =
      match s.partition_updater.write_sector env w b with
      | none => none
      | some (f, w, false) =>
        some ({ s with partition_updater := f, status := .stCorrupted }, w)
      | some (f, w, true) =>
        if (s.remaining_count + U32 - 1) % U32 = 0 then
          if !f.match_md5 s.header.md5 then
            some ({ s with partition_updater := f,
                           remaining_count := (s.remaining_count + U32 - 1) % U32,
                           status := .stCorrupted }, w)
          else
            some ({ s with partition_updater := f,
                           remaining_count := (s.remaining_count + U32 - 1) % U32,
                           phase := .phHeader }, (f.activate_new_code env w).1)
        else
          some ({ s with partition_updater := f,
                         remaining_count := (s.remaining_count + U32 - 1) % U32 }, w) := by
  unfold updater_t.process_block
  simp only [hb, hl, hp, ne_eq, not_true_eq_false, ↓reduceIte]

theorem sector_mask (n : Nat) : n &&& (SPI_FLASH_SEC_SIZE - 1) = n % SPI_FLASH_SEC_SIZE := by
  have h := Nat.and_pow_two_sub_one_eq_mod n 12
  simpa [SPI_FLASH_SEC_SIZE] using h

/-- What a `begin` call that returns `true` has established. -/
theorem begin_true {env : Env} {f f' : partition_updater_t} {type : update_type_t} {size : Nat}
    (h : f.begin env type size = (f', true)) :
    size % SPI_FLASH_SEC_SIZE = 0 ∧
    ∃ p, next_partition_from_type env type = some p ∧ size ≤ p.size ∧
      f' = { _type := type, _size := size, _progress := 0, _partition := some p,
             _first_byte := f._first_byte, _md5 := f._md5.begin } := by
  unfold partition_updater_t.begin at h
  simp only [sector_mask] at h
  by_cases ha : size % SPI_FLASH_SEC_SIZE = 0
  · simp only [ha, ne_eq, not_true_eq_false, ↓reduceIte] at h
    refine ⟨ha, ?_⟩
    cases hp : next_partition_from_type env type with
    | none => simp [hp] at h
    | some p =>
      simp only [hp] at h
      by_cases hs : p.size < size
      · simp [hs] at h
      · simp only [hs, ↓reduceIte, Prod.mk.injEq, and_true] at h
        exact ⟨p, rfl, Nat.le_of_not_lt hs, h.symm⟩
  · simp [ha] at h

/-- The forward direction of `begin_true`. -/
theorem begin_eq_true (env : Env) (f : partition_updater_t) {type : update_type_t} {size : Nat}
    {p : esp_partition_t}
    (ha : size % SPI_FLASH_SEC_SIZE = 0) (hp : next_partition_from_type env type = some p)
    (hs : size ≤ p.size) :
    f.begin env type size =
      ({ _type := type, _size := size, _progress := 0, _partition := some p,
         _first_byte := f._first_byte, _md5 := f._md5.begin }, true) := by
  unfold partition_updater_t.begin
  simp only [sector_mask, ha, ne_eq, not_true_eq_false, ↓reduceIte, hp, Nat.not_lt.mpr hs]

theorem Inv.bufInv {s : updater_t} (h : Inv s) : BufInv s := ⟨h.1, h.2.1⟩

theorem process_block_phase_partition {env : Env} {s s' : updater_t} {w w' : World}
    (h : updater_t.process_block env s w = some (s', w'))
    (hj : s.phase = .phContent → s.partition_updater._partition ≠ none) :
    s'.phase = .phContent → s'.partition_updater._partition ≠ none := by
  cases hb : s.buffer with
  | none => simp [updater_t.process_block, hb] at h
  | some b =>
    by_cases hl : b.length = SPI_FLASH_SEC_SIZE
    · cases hp : s.phase
      · rw [process_block_phBegin env w hb hl hp] at h
        split at h <;>
          (simp only [Option.some.injEq, Prod.mk.injEq] at h; obtain ⟨h1, -⟩ := h; subst h1
           simp [hp])
      · rw [process_block_phHeader env w hb hl hp] at h
        split at h
        · simp only [Option.some.injEq, Prod.mk.injEq] at h; obtain ⟨h1, -⟩ := h; subst h1
          simp [hp]
        split at h
        · simp only [Option.some.injEq, Prod.mk.injEq] at h; obtain ⟨h1, -⟩ := h; subst h1
          simp [hp]
        split at h
        · simp only [Option.some.injEq, Prod.mk.injEq] at h; obtain ⟨h1, -⟩ := h; subst h1
          simp [hp]
        split at h
        · simp only [Option.some.injEq, Prod.mk.injEq] at h; obtain ⟨h1, -⟩ := h; subst h1
          simp [hp]
        · rename_i f hbeg
          obtain ⟨-, p, -, -, hf⟩ := begin_true hbeg
          simp only [Option.some.injEq, Prod.mk.injEq] at h; obtain ⟨h1, -⟩ := h; subst h1
          intro _
          simp [hf]
      · rw [process_block_phContent env w hb hl hp] at h
        have hj' := hj hp
        split at h
        · cases h
        · rename_i f w1 hws
          have hfr := write_sector_frame hws
          simp only [Option.some.injEq, Prod.mk.injEq] at h; obtain ⟨h1, -⟩ := h; subst h1
          intro _
          simp only [hfr.2.1]
          exact hj'
        · rename_i f w1 hws
          have hfr := write_sector_frame hws
          repeat' split at h
          all_goals
            simp only [Option.some.injEq, Prod.mk.injEq] at h; obtain ⟨h1, -⟩ := h; subst h1
            intro _
            simp only [hfr.2.1]
            exact hj'
    · simp [updater_t.process_block, hb, hl] at h

theorem process_block_inv {env : Env} {s s' : updater_t} {w w' : World}
    (h : updater_t.process_block env s w = some (s', w')) (hi : Inv s) : Inv s' := by
  have hfr := process_block_frame h
  refine ⟨by rw [hfr.2]; exact hi.1, by rw [hfr.1]; exact hi.2.1,
    process_block_phase_partition h hi.2.2⟩

theorem process_block_isSome (env : Env) {s : updater_t} (w : World) {b : List Nat}
    (hb : s.buffer = some b) (hl : b.length = SPI_FLASH_SEC_SIZE)
    (hj : s.phase = .phContent → s.partition_updater._partition ≠ none) :
    ∃ r, updater_t.process_block env s w = some r := by
  cases hp : s.phase
  · rw [process_block_phBegin env w hb hl hp]
    split <;> exact ⟨_, rfl⟩
  · rw [process_block_phHeader env w hb hl hp]
    repeat' split
    all_goals exact ⟨_, rfl⟩
  · rw [process_block_phContent env w hb hl hp]
    obtain ⟨r, hr⟩ := write_sector_isSome env s.partition_updater w b (by rw [hl]) (hj hp)
    rw [hr]
    obtain ⟨f, w1, ok⟩ := r
    cases ok
    · exact ⟨_, rfl⟩
    · simp only
      repeat' split
      all_goals exact ⟨_, rfl⟩

theorem sec_pos : 0 < SPI_FLASH_SEC_SIZE := by decide

theorem write_data_single_total (env : Env) (s : updater_t) (w : World) (x : Nat) (hi : Inv s) :
    ∃ r, updater_t.write_data env s w [x] = some r ∧ Inv r.1 := by
  by_cases hst : s.status = .stNoError
  · cases hb : s.buffer with
    | none => exact ⟨(s, w), write_data_of_null w [x] hb, hi⟩
    | some b =>
      have hl := hi.2.1 b hb
      rw [write_data_single env s w x b hst hb hl hi.1]
      have hl1 : (b.take s.buffer_pos ++ [x] ++ b.drop (s.buffer_pos + 1)).length
          = SPI_FLASH_SEC_SIZE := by
        have := hi.1
        simp; omega
      split
      · obtain ⟨r, hr⟩ := process_block_isSome env
          (s := { s with buffer := some (b.take s.buffer_pos ++ [x] ++ b.drop (s.buffer_pos + 1)),
                         buffer_pos := 0 }) w rfl hl1 hi.2.2
        have hr2 : updater_t.process_block env _ w = some (r.1, r.2) := hr
        refine ⟨r, hr, process_block_inv hr2 ⟨?_, ?_, hi.2.2⟩⟩
        · exact sec_pos
        · intro b' hb'
          simp only [Option.some.injEq] at hb'
          rw [← hb']; exact hl1
      · refine ⟨_, rfl, ?_, ?_, hi.2.2⟩
        · have := hi.1
          simp only []
          omega
        · intro b' hb'
          simp only [Option.some.injEq] at hb'
          rw [← hb']; exact hl1
  · exact ⟨(s, w), write_data_of_status w [x] hst, hi⟩

theorem write_bytes_total (env : Env) (buf : List Nat) :
    ∀ (s : updater_t) (w : World), Inv s → ∃ r, write_bytes env s w buf = some r ∧ Inv r.1 := by
  induction buf with
  | nil => intro s w hi; exact ⟨(s, w), rfl, hi⟩
  | cons x xs ih =>
    intro s w hi
    obtain ⟨r, hr, hir⟩ := write_data_single_total env s w x hi
    obtain ⟨r2, hr2, hir2⟩ := ih r.1 r.2 hir
    exact ⟨r2, by simp only [write_bytes, hr, hr2], hir2⟩

/-- `write_data` always returns from a state that satisfies the invariant,
and re-establishes the invariant. -/
theorem write_data_total (env : Env) (s : updater_t) (w : World) (buf : List Nat) (hi : Inv s) :
    ∃ r, updater_t.write_data env s w buf = some r ∧ Inv r.1 := by
  rw [write_data_eq_write_bytes env s w buf hi.bufInv]
  exact write_bytes_total env buf s w hi

theorem write_chunks_eq_write_bytes (env : Env) (chunks : List (List Nat)) :
    ∀ (s : updater_t) (w : World), Inv s →
      write_chunks env s w chunks = write_bytes env s w chunks.flatten := by
  induction chunks with
  | nil => intro s w _; rfl
  | cons c cs ih =>
    intro s w hi
    simp only [write_chunks, List.flatten_cons, write_bytes_append]
    rw [write_data_eq_write_bytes env s w c hi.bufInv]
    obtain ⟨r, hr, hir⟩ := write_bytes_total env c s w hi
    rw [hr]
    exact ih r.1 r.2 hir

theorem begin_fields (env : Env) (s0 : updater_t) (w0 : World) :
    (updater_t.begin env s0 w0).1.buffer_pos = 0 ∧
    (updater_t.begin env s0 w0).1.remaining_count = 0 ∧
    (updater_t.begin env s0 w0).1.phase = .phBegin ∧
    (updater_t.begin env s0 w0).1.status = .stNoError ∧
    (updater_t.begin env s0 w0).1.header = s0.header ∧
    (updater_t.begin env s0 w0).1.partition_updater = s0.partition_updater ∧
    (updater_t.begin env s0 w0).2.log = w0.log ∧
    (updater_t.begin env s0 w0).2.boot = w0.boot ∧
    (updater_t.begin env s0 w0).2.mem = w0.mem ∧
    (updater_t.begin env s0 w0).1.buffer =
      (match s0.buffer with
       | some b => some b
       | none => if env.malloc_ok w0.mallocs then
           some ((List.range SPI_FLASH_SEC_SIZE).map (env.heap_byte w0.mallocs)) else none) := by
  unfold updater_t.begin
  cases s0.buffer <;> simp [malloc_sector]

theorem begin_inv (env : Env) (s0 : updater_t) (w0 : World)
    (h0 : ∀ b, s0.buffer = some b → b.length = SPI_FLASH_SEC_SIZE) :
    Inv (updater_t.begin env s0 w0).1 := by
  have hf := begin_fields env s0 w0
  refine ⟨by rw [hf.1]; exact sec_pos, ?_, by simp [hf.2.2.1]⟩
  intro b hb
  rw [hf.2.2.2.2.2.2.2.2.2] at hb
  cases hb0 : s0.buffer with
  | none =>
    simp only [hb0] at hb
    split at hb
    · simp only [Option.some.injEq] at hb
      rw [← hb]; simp
    · cases hb
  | some b0 =>
    simp only [hb0, Option.some.injEq] at hb
    rw [← hb]; exact h0 b0 hb0

/-- C1 (chunk-boundary independence).  After `updater_t::begin()`, feeding a
byte string to `write_data` chunk by chunk (chunks of any sizes, empty ones
included) and feeding the concatenation in a single call both return, with the
same updater state (phase, status, remaining count, buffer position, buffer
contents, flashing session) and the same platform state (flash contents, boot
pointer, sequence of storage and boot-control operations); `finish()` therefore
returns the same value. -/
theorem chunk_boundary_independence (env : Env) (s0 : updater_t) (w0 : World)
    (chunks : List (List Nat))
    (h0 : ∀ b, s0.buffer = some b → b.length = SPI_FLASH_SEC_SIZE) :
    ∃ s w,
      write_chunks env (updater_t.begin env s0 w0).1 (updater_t.begin env s0 w0).2 chunks
        = some (s, w) ∧
      updater_t.write_data env (updater_t.begin env s0 w0).1 (updater_t.begin env s0 w0).2
        chunks.flatten = some (s, w) := by
  have hi := begin_inv env s0 w0 h0
  obtain ⟨r, hr, -⟩ := write_data_total env _ (updater_t.begin env s0 w0).2 chunks.flatten hi
  refine ⟨r.1, r.2, ?_, hr⟩
  rw [write_chunks_eq_write_bytes env chunks _ _ hi,
    ← write_data_eq_write_bytes env _ _ _ hi.bufInv]
  exact hr

theorem process_block_status {env : Env} {s s' : updater_t} {w w' : World}
    (h : updater_t.process_block env s w = some (s', w')) :
    s'.status = s.status ∨ s'.status = .stCorrupted := by
  cases hb : s.buffer with
  | none => simp [updater_t.process_block, hb] at h
  | some b =>
    by_cases hl : b.length = SPI_FLASH_SEC_SIZE
    · cases hp : s.phase
      · rw [process_block_phBegin env w hb hl hp] at h
        split at h <;>
          (simp only [Option.some.injEq, Prod.mk.injEq] at h; obtain ⟨h1, -⟩ := h; subst h1
           simp)
      · rw [process_block_phHeader env w hb hl hp] at h
        repeat' split at h
        all_goals
          simp only [Option.some.injEq, Prod.mk.injEq] at h; obtain ⟨h1, -⟩ := h; subst h1
          simp
      · rw [process_block_phContent env w hb hl hp] at h
        repeat' split at h
        all_goals first
          | cases h; done
          | (simp only [Option.some.injEq, Prod.mk.injEq] at h; obtain ⟨h1, -⟩ := h; subst h1
             simp)
    · simp [updater_t.process_block, hb, hl] at h

theorem with_buffer_pos_zero (s : updater_t) (x : Option (List Nat)) (h : s.buffer_pos = 0) :
    ({ s with buffer := x, buffer_pos := 0 } : updater_t) = { s with buffer := x } := by
  cases s
  simp only [] at h
  subst h
  rfl

/-- From a block boundary, `write_data` hands the next 4096 bytes to
`process_block` and goes on with the rest. -/
theorem write_data_block (env : Env) {s : updater_t} (w : World) {b : List Nat}
    (blk rest : List Nat)
    (hst : s.status = .stNoError) (hb : s.buffer = some b)
    (hl : b.length = SPI_FLASH_SEC_SIZE) (hpos : s.buffer_pos = 0)
    (hblk : blk.length = SPI_FLASH_SEC_SIZE) :
    updater_t.write_data env s w (blk ++ rest) =
      match updater_t.process_block env { s with buffer := some blk } w with
      | none => none
      | some (s1, w1) => updater_t.write_data env s1 w1 rest := by
  have hbi : BufInv s := ⟨by rw [hpos]; exact sec_pos, fun b' hb' => by
    rw [hb] at hb'; injection hb' with hb'; rw [← hb']; exact hl⟩
  have hne : blk ≠ [] := by
    intro h0
    rw [h0] at hblk
    exact absurd hblk (by decide)
  rw [write_data_eq_write_bytes env s w _ hbi, write_bytes_append,
    write_bytes_chunk env blk s w b hst hb hl hne (by rw [hpos, hblk]; exact Nat.le_of_eq (Nat.zero_add _))]
  have hd : b.drop SPI_FLASH_SEC_SIZE = [] := List.drop_of_length_le (Nat.le_of_eq hl)
  simp only [hpos, hblk, Nat.zero_add, ↓reduceIte, List.take_zero, List.nil_append, hd,
    List.append_nil]
  rw [with_buffer_pos_zero s (some blk) hpos]
  cases hp : updater_t.process_block env { s with buffer := some blk } w with
  | none => rfl
  | some r =>
    obtain ⟨s1, w1⟩ := r
    have hfr := process_block_frame hp
    simp only
    refine (write_data_eq_write_bytes env s1 w1 rest ⟨?_, ?_⟩).symm
    · rw [hfr.2, hpos]; exact sec_pos
    · intro b' hb'
      rw [hfr.1] at hb'
      injection hb' with hb'
      rw [← hb']; exact hblk

/-- Bytes that do not complete a block are only copied into the buffer. -/
theorem write_data_tail (env : Env) {s : updater_t} (w : World) {b : List Nat} (t : List Nat)
    (hst : s.status = .stNoError) (hb : s.buffer = some b)
    (hl : b.length = SPI_FLASH_SEC_SIZE) (ht : s.buffer_pos + t.length < SPI_FLASH_SEC_SIZE) :
    ∃ b', updater_t.write_data env s w t =
      some ({ s with buffer := some b', buffer_pos := s.buffer_pos + t.length }, w) := by
  have hbi : BufInv s := ⟨by omega, fun b' hb' => by
    rw [hb] at hb'; injection hb' with hb'; rw [← hb']; exact hl⟩
  by_cases hne : t = []
  · subst hne
    refine ⟨b, ?_⟩
    rw [write_data_eq_write_bytes env s w _ hbi]
    simp only [write_bytes, List.length_nil, Nat.add_zero]
    rw [← hb]
  · refine ⟨b.take s.buffer_pos ++ t ++ b.drop (s.buffer_pos + t.length), ?_⟩
    rw [write_data_eq_write_bytes env s w _ hbi,
      write_bytes_chunk env t s w b hst hb hl hne (Nat.le_of_lt ht)]
    simp only [Nat.ne_of_lt ht, ↓reduceIte]

theorem write_chunks_eq_write_data (env : Env) (chunks : List (List Nat)) (s : updater_t)
    (w : World) (hi : Inv s) :
    write_chunks env s w chunks = updater_t.write_data env s w chunks.flatten := by
  rw [write_chunks_eq_write_bytes env chunks s w hi, write_data_eq_write_bytes env s w _ hi.bufInv]

theorem finish_false_of_status {s : updater_t} (h : s.status = .stCorrupted) :
    (updater_t.finish s).2 = false := by
  simp [updater_t.finish, h]

theorem finish_false_of_phase {s : updater_t} (h : s.phase ≠ .phHeader) :
    (updater_t.finish s).2 = false := by
  simp [updater_t.finish, h]

/-- C1, at a concrete input: three chunks, one of them empty. -/
theorem chunk_boundary_independence_witness :
    (∀ b, idle_updater.buffer = some b → b.length = SPI_FLASH_SEC_SIZE) ∧
    ∃ s w,
      write_chunks sample_env (updater_t.begin sample_env idle_updater sample_world).1
        (updater_t.begin sample_env idle_updater sample_world).2 [[77, 90], [], [53]]
        = some (s, w) ∧
      updater_t.write_data sample_env (updater_t.begin sample_env idle_updater sample_world).1
        (updater_t.begin sample_env idle_updater sample_world).2 [[77, 90], [], [53]].flatten
        = some (s, w) :=
  ⟨fun b hb => (by cases hb),
   chunk_boundary_independence sample_env idle_updater sample_world [[77, 90], [], [53]]
     (fun b hb => (by cases hb))⟩

/-- C5 (rejection of bad magic).  After `begin()`, for every stream (in any
chunking) whose first 32 bytes are not the archive magic: no storage or
boot-control operation is issued (log, flash contents and boot pointer are
those before `begin()`), `finish()` returns false whatever follows the first
block, and as soon as the stream holds a full first block the status is
`Corrupted` (provided the receive buffer could be allocated, without which no
block is ever processed). -/
theorem bad_magic_rejected (env : Env) (s0 : updater_t) (w0 : World) (chunks : List (List Nat))
    (h0 : ∀ b, s0.buffer = some b → b.length = SPI_FLASH_SEC_SIZE)
    (hbad : chunks.flatten.take 32 ≠ ARCHIVE_MAGIC) :
    ∃ s w,
      write_chunks env (updater_t.begin env s0 w0).1 (updater_t.begin env s0 w0).2 chunks
        = some (s, w) ∧
      (SPI_FLASH_SEC_SIZE ≤ chunks.flatten.length →
        (updater_t.begin env s0 w0).1.buffer ≠ none → s.status = .stCorrupted) ∧
      w.log = w0.log ∧ w.boot = w0.boot ∧ w.mem = w0.mem ∧
      (updater_t.finish s).2 = false := by
  have hi := begin_inv env s0 w0 h0
  have hf := begin_fields env s0 w0
  rw [write_chunks_eq_write_data env chunks _ _ hi]
  generalize chunks.flatten = stream at hbad ⊢
  rcases hr : updater_t.begin env s0 w0 with ⟨sb, wb⟩
  rw [hr] at hi hf
  simp only at hi hf ⊢
  obtain ⟨hpos, -, hph, hst, -, -, hlog, hboot, hmem, -⟩ := hf
  cases hb : sb.buffer with
  | none =>
    refine ⟨sb, wb, write_data_of_null wb stream hb, fun _ h => absurd rfl h, hlog, hboot, hmem, ?_⟩
    exact finish_false_of_phase (by rw [hph]; decide)
  | some b =>
    have hl := hi.2.1 b hb
    by_cases hlen : SPI_FLASH_SEC_SIZE ≤ stream.length
    · have hsplit : stream = stream.take SPI_FLASH_SEC_SIZE ++ stream.drop SPI_FLASH_SEC_SIZE :=
        (List.take_append_drop _ _).symm
      have hblk : (stream.take SPI_FLASH_SEC_SIZE).length = SPI_FLASH_SEC_SIZE := by
        rw [List.length_take]; omega
      have hmag : (stream.take SPI_FLASH_SEC_SIZE).take 32 ≠ ARCHIVE_MAGIC := by
        rw [List.take_take]
        exact hbad
      rw [hsplit, write_data_block env wb _ _ hst hb hl hpos hblk,
        process_block_phBegin env wb (s := { sb with buffer := some (stream.take SPI_FLASH_SEC_SIZE) })
          rfl hblk hph]
      simp only [hmag, ne_eq, not_false_eq_true, ↓reduceIte]
      refine ⟨_, wb, write_data_of_status wb _ (by simp), fun _ _ => rfl, hlog, hboot, hmem, ?_⟩
      exact finish_false_of_status rfl
    · obtain ⟨b', hb'⟩ := write_data_tail env wb stream hst hb hl (by rw [hpos]; omega)
      refine ⟨_, wb, hb', fun h => absurd h hlen, hlog, hboot, hmem, ?_⟩
      exact finish_false_of_phase (by simp only [hph]; decide)

/-- C5, at a concrete input: a first block of 4096 zero bytes. -/
theorem bad_magic_rejected_witness :
    (∀ b, idle_updater.buffer = some b → b.length = SPI_FLASH_SEC_SIZE) ∧
    [List.replicate 4096 0].flatten.take 32 ≠ ARCHIVE_MAGIC ∧
    ∃ s w,
      write_chunks sample_env (updater_t.begin sample_env idle_updater sample_world).1
        (updater_t.begin sample_env idle_updater sample_world).2 [List.replicate 4096 0]
        = some (s, w) ∧
      (SPI_FLASH_SEC_SIZE ≤ [List.replicate 4096 0].flatten.length →
        (updater_t.begin sample_env idle_updater sample_world).1.buffer ≠ none →
        s.status = .stCorrupted) ∧
      w.log = sample_world.log ∧ w.boot = sample_world.boot ∧ w.mem = sample_world.mem ∧
      (updater_t.finish s).2 = false :=
  ⟨fun b hb => (by cases hb), (by decide),
   bad_magic_rejected sample_env idle_updater sample_world [List.replicate 4096 0]
     (fun b hb => (by cases hb)) (by decide)⟩

/-- C6 (sticky `Corrupted` status).  Once the status is `Corrupted`, a
`write_data` call with any bytes returns with the updater state (phase, status,
remaining count, buffer position, buffer, flashing session) and the platform
state (hence the operation log) unchanged; `process_block`, `finish` and `end`
keep the status `Corrupted`; `begin()` sets it back to `NoError`. -/
theorem corrupted_is_sticky (env : Env) (s : updater_t) (w : World) (bytes : List Nat)
    (hc : s.status = .stCorrupted) :
    updater_t.write_data env s w bytes = some (s, w) ∧
    (∀ s' w', updater_t.process_block env s w = some (s', w') → s'.status = .stCorrupted) ∧
    (updater_t.finish s).1.status = .stCorrupted ∧
    (updater_t.end_ s).status = .stCorrupted ∧
    (updater_t.begin env s w).1.status = .stNoError := by
  refine ⟨write_data_of_status w bytes (by rw [hc]; decide), ?_, hc, hc,
    (begin_fields env s w).2.2.2.1⟩
  intro s' w' h
  rcases process_block_status h with h1 | h1
  · rw [h1, hc]
  · exact h1

/-- C6, at a concrete input. -/
theorem corrupted_is_sticky_witness :
    ({ idle_updater with status := .stCorrupted } : updater_t).status = .stCorrupted ∧
    updater_t.write_data sample_env { idle_updater with status := .stCorrupted } sample_world
      [1, 2, 3] = some ({ idle_updater with status := .stCorrupted }, sample_world) :=
  ⟨rfl, (corrupted_is_sticky sample_env { idle_updater with status := .stCorrupted }
    sample_world [1, 2, 3] rfl).1⟩

/-- C7 (result of `finish()`).  `finish()` returns true exactly when the
status is `NoError` and the phase is `phHeader`; in every case the receive
buffer is released (null afterwards) and nothing else of the state changes. -/
theorem finish_result (s : updater_t) :
    ((updater_t.finish s).2 = true ↔ s.status = .stNoError ∧ s.phase = .phHeader) ∧
    (updater_t.finish s).1.buffer = none ∧
    (updater_t.finish s).1 = { s with buffer := none } := by
  refine ⟨?_, rfl, rfl⟩
  unfold updater_t.finish
  by_cases h1 : s.status = .stNoError <;> by_cases h2 : s.phase = .phHeader <;> simp [h1, h2]

theorem begin_misaligned (env : Env) (f : partition_updater_t) (type : update_type_t)
    (size : Nat) (h : size % SPI_FLASH_SEC_SIZE ≠ 0) :
    f.begin env type size =
      ({ f with _type := type, _size := size, _progress := 0 }, false) := by
  unfold partition_updater_t.begin
  simp only [sector_mask, ne_eq, h, not_false_eq_true, ↓reduceIte]

/-- C10 (alignment invariant).  In phase `phHeader`, a block whose decoded
`archived_length` is not a multiple of 4096 makes `process_block` set the
status to `Corrupted` whatever marker, label, original length and hash it
carries; the flashing session is not touched (`partition_updater_t::begin` is
not called), the platform state is returned unchanged (no erase, write or any
other operation), later input is discarded, and `partition_updater_t::begin`
itself refuses such a size without a storage operation. -/
theorem misaligned_length_rejected (env : Env) (s : updater_t) (w : World) (b : List Nat)
    (hb : s.buffer = some b) (hl : b.length = SPI_FLASH_SEC_SIZE) (hp : s.phase = .phHeader)
    (hmis : (read_header env b).arc_len % SPI_FLASH_SEC_SIZE ≠ 0) :
    ∃ s', updater_t.process_block env s w = some (s', w) ∧
      s'.status = .stCorrupted ∧ s'.phase = .phHeader ∧
      s'.partition_updater = s.partition_updater ∧
      (∀ bytes, updater_t.write_data env s' w bytes = some (s', w)) ∧
      (∀ f type, (partition_updater_t.begin env f type (read_header env b).arc_len).2 = false) := by
  rw [process_block_phHeader env w hb hl hp]
  have hbeg : ∀ f type,
      (partition_updater_t.begin env f type (read_header env b).arc_len).2 = false := by
    intro f type
    rw [begin_misaligned env f type _ hmis]
  by_cases hm : b.take 16 ≠ FILE_BOUNDARY
  · simp only [hm, ne_eq, not_false_eq_true, ↓reduceIte]
    exact ⟨_, rfl, rfl, hp, rfl, fun bytes => write_data_of_status w bytes (by simp), hbeg⟩
  · simp only [hm, ↓reduceIte, ne_eq, hmis, not_false_eq_true, or_true]
    exact ⟨_, rfl, rfl, hp, rfl, fun bytes => write_data_of_status w bytes (by simp), hbeg⟩

/-- C10, at a concrete input: an `app` header announcing 4097 bytes. -/
theorem misaligned_length_rejected_witness :
    (header_block [97, 112, 112, 0, 0, 0, 0, 0] [1, 16, 0, 0] [1, 16, 0, 0]
      (List.replicate 16 0)).length = SPI_FLASH_SEC_SIZE ∧
    (read_header sample_env (header_block [97, 112, 112, 0, 0, 0, 0, 0] [1, 16, 0, 0]
      [1, 16, 0, 0] (List.replicate 16 0))).arc_len % SPI_FLASH_SEC_SIZE ≠ 0 ∧
    ∃ s', updater_t.process_block sample_env
        { idle_updater with
            buffer := some (header_block [97, 112, 112, 0, 0, 0, 0, 0] [1, 16, 0, 0]
              [1, 16, 0, 0] (List.replicate 16 0)),
            phase := .phHeader } sample_world = some (s', sample_world) ∧
      s'.status = .stCorrupted :=
  have hlen : (header_block [97, 112, 112, 0, 0, 0, 0, 0] [1, 16, 0, 0] [1, 16, 0, 0]
      (List.replicate 16 0)).length = SPI_FLASH_SEC_SIZE := by
    simp only [header_block, FILE_BOUNDARY, SPI_FLASH_SEC_SIZE, List.length_append,
      List.length_replicate, List.length_cons, List.length_nil]
  have hmis : (read_header sample_env (header_block [97, 112, 112, 0, 0, 0, 0, 0] [1, 16, 0, 0]
      [1, 16, 0, 0] (List.replicate 16 0))).arc_len % SPI_FLASH_SEC_SIZE ≠ 0 := by
    decide
  ⟨hlen, hmis,
   (misaligned_length_rejected sample_env
      { idle_updater with
          buffer := some (header_block [97, 112, 112, 0, 0, 0, 0, 0] [1, 16, 0, 0]
            [1, 16, 0, 0] (List.replicate 16 0)),
          phase := .phHeader }
      sample_world _ rfl hlen rfl hmis).imp fun _ h => ⟨h.1, h.2.1⟩⟩

/-- Why a `write_sector` call returns `false`. -/
theorem write_sector_false {env : Env} {f f' : partition_updater_t} {w w' : World}
    {buf : List Nat}
    (h : f.write_sector env w buf = some (f', w', false)) :
    f._type = .utUnknown ∨ f._size ≤ f._progress ∨ env.malloc_ok w.mallocs = false ∨
    env.io_ok w.log.length = false ∨ env.io_ok (w.log.length + 1) = false ∨
    env.io_ok (w.log.length + 2) = false ∨ env.io_ok (w.log.length + 3) = false := by
  unfold partition_updater_t.write_sector write_sector_fail at h
  by_cases ht : f._type = .utUnknown
  · exact Or.inl ht
  by_cases hp : f._progress ≥ f._size
  · exact Or.inr (Or.inl hp)
  cases hm : env.malloc_ok w.mallocs
  · exact Or.inr (Or.inr (Or.inl rfl))
  by_cases hl : buf.length < SPI_FLASH_SEC_SIZE
  · simp [ht, hp, malloc_sector, hm, hl] at h
  cases hpart : f._partition with
  | none => simp [ht, hp, malloc_sector, hm, hl, hpart] at h
  | some part =>
    simp only [ht, hp, malloc_sector, hm, hl, hpart, ↓reduceIte, hash_image] at h
    split at h
    · rename_i w1 he
      have e := flashEraseSector_eq he
      exact Or.inr (Or.inr (Or.inr (Or.inl e.1.symm)))
    rename_i w1 he
    have e := flashEraseSector_eq he
    have l1 : w1.log.length = w.log.length + 1 := by rw [e.2.1]; simp
    split at h
    · rename_i w2 hw
      have e2 := flashWrite_eq hw
      rw [l1] at e2
      exact Or.inr (Or.inr (Or.inr (Or.inr (Or.inl e2.1.symm))))
    rename_i w2 hw
    have e2 := flashWrite_eq hw
    have l2 : w2.log.length = w.log.length + 2 := by rw [e2.2.1]; simp [l1]
    by_cases hd : (f._progress + SPI_FLASH_SEC_SIZE) % U32 ≥ f._size
    · simp only [hd, ↓reduceIte] at h
      split at h
      · rename_i w3 hr
        have e3 := flashRead_eq hr
        rw [l2] at e3
        have h3 : env.io_ok (w.log.length + 2) = false := by
          cases hio : env.io_ok (w.log.length + 2)
          · rfl
          · rw [hio] at e3; simp at e3
        exact Or.inr (Or.inr (Or.inr (Or.inr (Or.inr (Or.inl h3)))))
      rename_i w3 buf4 hr
      have e3 := flashRead_eq hr
      have l3 : w3.log.length = w.log.length + 3 := by rw [e3.1]; simp [l2]
      split at h
      · rename_i w4 hw2
        have e4 := flashWrite_eq hw2
        rw [l3] at e4
        exact Or.inr (Or.inr (Or.inr (Or.inr (Or.inr (Or.inr e4.1.symm)))))
      · simp at h
    · simp [hd] at h

/-- `write_sector` succeeds when the session is open and the heap and the
storage primitives it needs do not fail. -/
theorem write_sector_ok (env : Env) (f : partition_updater_t) (w : World) (buf : List Nat)
    (ht : f._type ≠ .utUnknown) (hp : f._progress < f._size) (hpart : f._partition ≠ none)
    (hl : SPI_FLASH_SEC_SIZE ≤ buf.length) (hm : env.malloc_ok w.mallocs = true)
    (hio : ∀ i, i < 4 → env.io_ok (w.log.length + i) = true) :
    ∃ f' w', f.write_sector env w buf = some (f', w', true) := by
  obtain ⟨⟨f', w', r⟩, hr⟩ := write_sector_isSome env f w buf hl hpart
  cases r
  · exfalso
    have h0 := hio 0 (by decide)
    have h1 := hio 1 (by decide)
    have h2 := hio 2 (by decide)
    have h3 := hio 3 (by decide)
    rcases write_sector_false hr with h | h | h | h | h | h | h
    · exact ht h
    · exact absurd hp (Nat.not_lt.mpr h)
    · rw [hm] at h; cases h
    · rw [Nat.add_zero] at h0; rw [h0] at h; cases h
    · rw [h1] at h; cases h
    · rw [h2] at h; cases h
    · rw [h3] at h; cases h
  · exact ⟨f', w', hr⟩

theorem land_255 (x : Nat) : 255 &&& x = x % 256 := by
  rw [Nat.land_comm]
  exact Nat.and_pow_two_sub_one_eq_mod x 8

/-- The byte at the region's base address after a successful `write_sector`:
`0xFF` while the session is incomplete, masked with the true first byte by the
call that completes the session. -/
theorem write_sector_mem_base {env : Env} {f f' : partition_updater_t} {w w' : World}
    {buf : List Nat} {part : esp_partition_t}
    (h : f.write_sector env w buf = some (f', w', true))
    (hpart : f._partition = some part)
    (hal : f._progress % SPI_FLASH_SEC_SIZE = 0)
    (hwrap : part.address + f._progress < U32) :
    (f'._progress < f._size →
      w'.mem part.address = if f._progress = 0 then 0xFF else w.mem part.address) ∧
    (f._size ≤ f'._progress →
      w'.mem part.address =
        (if f._progress = 0 then 0xFF else w.mem part.address) &&& first_byte_of f buf) := by
  obtain ⟨-, -, hl, -, part', w1, w2, hp', he, hw, hcase⟩ := write_sector_true h
  rw [hpart] at hp'
  injection hp' with hp'
  subst hp'
  have e := flashEraseSector_eq he
  have e2 := flashWrite_eq hw
  have hmod : (part.address + f._progress) % U32 = part.address + f._progress :=
    Nat.mod_eq_of_lt hwrap
  have hm2 : w2.mem part.address = if f._progress = 0 then 0xFF else w.mem part.address := by
    rw [e2.2.2.2.2, e.2.2.2.2, hmod]
    by_cases h0 : f._progress = 0
    · have hlen : 0 < (flash_image f._progress buf).length := by
        simp only [flash_image, h0, ↓reduceIte, List.length_set, List.length_take]
        have := sec_pos
        omega
      have hg : (flash_image f._progress buf).getD 0 0xFF = 0xFF := by
        simp only [flash_image, h0, ↓reduceIte]
        cases hb : buf.take SPI_FLASH_SEC_SIZE with
        | nil =>
          have : (buf.take SPI_FLASH_SEC_SIZE).length = SPI_FLASH_SEC_SIZE := by
            rw [List.length_take]; omega
          rw [hb] at this
          exact absurd this (by decide)
        | cons x xs => rfl
      simp only [h0, Nat.add_zero, ↓reduceIte, true_and, Nat.le_refl, Nat.sub_self, hg]
      have hlt : part.address < part.address + (flash_image 0 buf).length := by
        rw [h0] at hlen; omega
      simp only [hlt, and_true, ↓reduceIte]
      rw [h0] at hg
      rw [hg]
      rfl
    · have hge : SPI_FLASH_SEC_SIZE ≤ f._progress := by
        have := sec_pos
        rcases Nat.lt_or_ge f._progress SPI_FLASH_SEC_SIZE with hlt | hge
        · rw [Nat.mod_eq_of_lt hlt] at hal; exact absurd hal h0
        · exact hge
      have hsec : ¬ part.address / SPI_FLASH_SEC_SIZE
          = (part.address + f._progress) / SPI_FLASH_SEC_SIZE := by
        unfold SPI_FLASH_SEC_SIZE at *
        omega
      have hlt : ¬ part.address + f._progress ≤ part.address := by
        unfold SPI_FLASH_SEC_SIZE at *
        omega
      simp only [h0, ↓reduceIte, hsec, and_false, hlt, false_and]
  rcases hcase with ⟨hlt, hw', -⟩ | ⟨hge, w3, buf4, hr, hw4, hf'⟩
  · have hprog : f'._progress = (f._progress + SPI_FLASH_SEC_SIZE) % U32 :=
      (write_sector_true h).2.2.2.2.elim fun _ hx => by
        obtain ⟨w1', w2', -, -, -, hc⟩ := hx
        rcases hc with ⟨-, -, hf⟩ | ⟨hge, -⟩
        · rw [hf]; rfl
        · exact absurd hlt (Nat.not_lt.mpr hge)
    refine ⟨fun _ => by rw [hw']; exact hm2, fun hge => ?_⟩
    rw [hprog] at hge
    exact absurd hlt (Nat.not_lt.mpr hge)
  · have hprog : f'._progress = (f._progress + SPI_FLASH_SEC_SIZE) % U32 := by rw [hf']; rfl
    refine ⟨fun hlt => ?_, fun _ => ?_⟩
    · rw [hprog] at hlt
      exact absurd hlt (Nat.not_lt.mpr hge)
    · have e3 := flashRead_eq hr
      have e4 := flashWrite_eq hw4
      have hb4 : buf4 = (List.range 4).map (fun i => w2.mem (part.address + i)) := by
        have := e3.2.2.2.2
        split at this
        · injection this
        · cases this
      rw [e4.2.2.2.2, e3.2.2.2.1]
      have hlen4 : (buf4.set 0 (first_byte_of f buf)).length = 4 := by
        rw [hb4]; simp
      have hg4 : (buf4.set 0 (first_byte_of f buf)).getD 0 0xFF = first_byte_of f buf := by
        rw [hb4]; rfl
      simp only [true_and, Nat.le_refl, hlen4, Nat.lt_add_of_pos_right (by decide : 0 < 4),
        and_self, ↓reduceIte, Nat.sub_self, hg4, hm2]

/-- The fields of the session after a successful `write_sector`. -/
theorem write_sector_true_fields {env : Env} {f f' : partition_updater_t} {w w' : World}
    {buf : List Nat}
    (h : f.write_sector env w buf = some (f', w', true)) :
    f'._type = f._type ∧ f'._size = f._size ∧ f'._partition = f._partition ∧
    f'._progress = (f._progress + SPI_FLASH_SEC_SIZE) % U32 ∧
    f'._first_byte = first_byte_of f buf ∧
    f'._md5.ctx = f._md5.ctx ++ buf.take SPI_FLASH_SEC_SIZE ∧
    (f._size ≤ f'._progress → f'._md5.buf = env.md5sum f'._md5.ctx) ∧
    (f'._progress < f._size → f'._md5.buf = f._md5.buf) := by
  obtain ⟨-, -, -, -, part, w1, w2, -, -, -, hcase⟩ := write_sector_true h
  rcases hcase with ⟨hlt, -, hf⟩ | ⟨hge, w3, buf4, -, -, hf⟩
  · have hpr : f'._progress = (f._progress + SPI_FLASH_SEC_SIZE) % U32 := by rw [hf, sector_done]
    refine ⟨by rw [hf, sector_done], by rw [hf, sector_done], by rw [hf, sector_done], hpr,
      by rw [hf, sector_done], by rw [hf, sector_done, MD5Builder.add], fun hge => ?_,
      fun _ => by rw [hf, sector_done, MD5Builder.add]⟩
    rw [hpr] at hge
    exact absurd hlt (Nat.not_lt.mpr hge)
  · have hpr : f'._progress = (f._progress + SPI_FLASH_SEC_SIZE) % U32 := by rw [hf, sector_done]
    refine ⟨by rw [hf, sector_done], by rw [hf, sector_done], by rw [hf, sector_done], hpr,
      by rw [hf, sector_done], by rw [hf, sector_done, MD5Builder.calculate, MD5Builder.add],
      fun _ => by rw [hf, sector_done, MD5Builder.calculate, MD5Builder.add], fun hlt => ?_⟩
    rw [hpr] at hlt
    exact absurd hlt (Nat.not_lt.mpr hge)

theorem write_sectors_cons_true {env : Env} {f f' : partition_updater_t} {w w' : World}
    {b : List Nat} {bs : List (List Nat)}
    (h : write_sectors env f w (b :: bs) = some (f', w', true)) :
    ∃ f1 w1, f.write_sector env w b = some (f1, w1, true) ∧
      write_sectors env f1 w1 bs = some (f', w', true) := by
  simp only [write_sectors] at h
  split at h
  · cases h
  · simp at h
  · rename_i f1 w1 h1
    exact ⟨f1, w1, h1, h⟩

theorem aligned_step {p s : Nat} (hp : p % SPI_FLASH_SEC_SIZE = 0)
    (hs : s % SPI_FLASH_SEC_SIZE = 0) (hlt : p < s) (hu : s < U32) :
    (p + SPI_FLASH_SEC_SIZE) % U32 = p + SPI_FLASH_SEC_SIZE ∧ p + SPI_FLASH_SEC_SIZE ≤ s ∧
    (p + SPI_FLASH_SEC_SIZE) % SPI_FLASH_SEC_SIZE = 0 := by
  unfold SPI_FLASH_SEC_SIZE U32 at *
  omega

/-- A run of successful `write_sector` calls inside one session. -/
theorem write_sectors_session (env : Env) (blocks : List (List Nat)) :
    ∀ (f f' : partition_updater_t) (w w' : World),
      write_sectors env f w blocks = some (f', w', true) →
      (∀ b ∈ blocks, b.length = SPI_FLASH_SEC_SIZE) →
      f._progress % SPI_FLASH_SEC_SIZE = 0 → f._size % SPI_FLASH_SEC_SIZE = 0 → f._size < U32 →
      f'._type = f._type ∧ f'._size = f._size ∧ f'._partition = f._partition ∧
      f'._progress = f._progress + SPI_FLASH_SEC_SIZE * blocks.length ∧
      f'._md5.ctx = f._md5.ctx ++ blocks.flatten ∧
      (blocks ≠ [] →
        f._type ≠ .utUnknown ∧ f'._progress ≤ f._size ∧
        f'._first_byte = (if f._progress = 0 then (blocks.headD []).getD 0 0 else f._first_byte) ∧
        (f'._progress = f._size → f'._md5.buf = env.md5sum f'._md5.ctx)) := by
  induction blocks with
  | nil =>
    intro f f' w w' h _ _ _ _
    simp only [write_sectors, Option.some.injEq, Prod.mk.injEq, and_true] at h
    obtain ⟨h1, -⟩ := h
    subst h1
    exact ⟨rfl, rfl, rfl, by simp, by simp, fun h => absurd rfl h⟩
  | cons b bs ih =>
    intro f f' w w' h hb hp hs hu
    obtain ⟨f1, w1, h1, h2⟩ := write_sectors_cons_true h
    obtain ⟨ht, hlt, -, -, -⟩ := write_sector_true h1
    obtain ⟨e1, e2, e3, e4, e5, e6, e7, -⟩ := write_sector_true_fields h1
    obtain ⟨a1, a2, a3⟩ := aligned_step hp hs hlt hu
    have hbl : b.length = SPI_FLASH_SEC_SIZE := hb b (List.mem_cons_self _ _)
    have htake : b.take SPI_FLASH_SEC_SIZE = b := List.take_of_length_le (Nat.le_of_eq hbl)
    rw [a1] at e4
    obtain ⟨i1, i2, i3, i4, i5, i6⟩ := ih f1 f' w1 w' h2
      (fun x hx => hb x (List.mem_cons_of_mem _ hx)) (by rw [e4]; exact a3) (by rw [e2]; exact hs)
      (by rw [e2]; exact hu)
    refine ⟨by rw [i1, e1], by rw [i2, e2], by rw [i3, e3], ?_, ?_, fun _ => ⟨ht, ?_, ?_, ?_⟩⟩
    · rw [i4, e4, List.length_cons]; unfold SPI_FLASH_SEC_SIZE; omega
    · rw [i5, e6, htake, List.flatten_cons, List.append_assoc]
    · by_cases hbs : bs = []
      · subst hbs
        simp only [List.length_nil, Nat.mul_zero, Nat.add_zero] at i4
        rw [i4, e4]; exact a2
      · have := (i6 hbs).2.1
        rw [e2] at this; exact this
    · by_cases hbs : bs = []
      · subst hbs
        simp only [write_sectors, Option.some.injEq, Prod.mk.injEq, and_true] at h2
        obtain ⟨h2a, -⟩ := h2
        subst h2a
        rw [e5]
        simp only [first_byte_of, htake, List.headD_cons]
      · have hfb := (i6 hbs).2.2.1
        have hne : f1._progress ≠ 0 := by
          rw [e4]; have := sec_pos; omega
        rw [hfb, if_neg hne, e5]
        simp only [first_byte_of, htake, List.headD_cons]
    · intro hfin
      by_cases hbs : bs = []
      · subst hbs
        simp only [write_sectors, Option.some.injEq, Prod.mk.injEq, and_true] at h2
        obtain ⟨h2a, -⟩ := h2
        subst h2a
        exact e7 (Nat.le_of_eq hfin.symm)
      · exact (i6 hbs).2.2.2 (by rw [hfin, e2])

/-- The byte at the base address over a run of successful `write_sector`
calls. -/
theorem write_sectors_mem_base (env : Env) (blocks : List (List Nat)) :
    ∀ (f f' : partition_updater_t) (w w' : World) (part : esp_partition_t),
      write_sectors env f w blocks = some (f', w', true) → blocks ≠ [] →
      (∀ b ∈ blocks, b.length = SPI_FLASH_SEC_SIZE) →
      f._partition = some part →
      f._progress % SPI_FLASH_SEC_SIZE = 0 → f._size % SPI_FLASH_SEC_SIZE = 0 → f._size < U32 →
      part.address + f._size ≤ U32 →
      (f'._progress < f._size →
        w'.mem part.address = if f._progress = 0 then 0xFF else w.mem part.address) ∧
      (f'._progress = f._size →
        w'.mem part.address =
          (if f._progress = 0 then 0xFF else w.mem part.address) &&& f'._first_byte) := by
  induction blocks with
  | nil => intro f f' w w' part _ h; exact absurd rfl h
  | cons b bs ih =>
    intro f f' w w' part h _ hb hpart hp hs hu hwrap
    obtain ⟨f1, w1, h1, h2⟩ := write_sectors_cons_true h
    obtain ⟨ht, hlt, -, -, -⟩ := write_sector_true h1
    obtain ⟨e1, e2, e3, e4, e5, e6, e7, -⟩ := write_sector_true_fields h1
    obtain ⟨a1, a2, a3⟩ := aligned_step hp hs hlt hu
    rw [a1] at e4
    have hm := write_sector_mem_base h1 hpart hp (by omega)
    by_cases hbs : bs = []
    · subst hbs
      simp only [write_sectors, Option.some.injEq, Prod.mk.injEq, and_true] at h2
      obtain ⟨h2a, h2b⟩ := h2
      subst h2a; subst h2b
      refine ⟨hm.1, fun hfin => ?_⟩
      rw [hm.2 (Nat.le_of_eq hfin.symm), e5]
    · have hex : ∃ f2 w2 b2, f1.write_sector env w1 b2 = some (f2, w2, true) := by
        cases bs with
        | nil => exact absurd rfl hbs
        | cons b2 bs2 =>
          obtain ⟨f2, w2, h3, -⟩ := write_sectors_cons_true h2
          exact ⟨f2, w2, b2, h3⟩
      obtain ⟨f2, w2, b2, h3⟩ := hex
      have hlt1 : f1._progress < f._size := by
        have := (write_sector_true h3).2.1
        rw [e2] at this; exact this
      have hne : f1._progress ≠ 0 := by
        rw [e4]; have := sec_pos; omega
      have hi := ih f1 f' w1 w' part h2 hbs (fun x hx => hb x (List.mem_cons_of_mem _ hx))
        (by rw [e3]; exact hpart) (by rw [e4]; exact a3) (by rw [e2]; exact hs)
        (by rw [e2]; exact hu) (by rw [e2]; exact hwrap)
      rw [e2, if_neg hne, hm.1 hlt1] at hi
      exact hi

theorem sample_begin (size : Nat) (ha : size % SPI_FLASH_SEC_SIZE = 0) (hs : size ≤ 0x100000) :
    idle_flasher.begin sample_env .utCode size = (sample_session size, true) :=
  begin_eq_true sample_env idle_flasher ha rfl hs

theorem sample_block_length : sample_block.length = SPI_FLASH_SEC_SIZE := by
  simp only [sample_block, List.length_replicate, SPI_FLASH_SEC_SIZE]

theorem sample_write_sector (size : Nat) (hs : 0 < size) :
    ∃ f' w', (sample_session size).write_sector sample_env sample_world sample_block
      = some (f', w', true) :=
  write_sector_ok sample_env (sample_session size) sample_world sample_block (by simp [sample_session])
    hs (by simp [sample_session]) (Nat.le_of_eq sample_block_length.symm) rfl (fun _ _ => rfl)

theorem write_sectors_single {env : Env} {f f' : partition_updater_t} {w w' : World}
    {b : List Nat} (h : f.write_sector env w b = some (f', w', true)) :
    write_sectors env f w [b] = some (f', w', true) := by
  simp only [write_sectors, h]

/-- C4 (hash correctness).  In a session opened by a successful
`begin(type, size)` (whatever state earlier sessions left behind), after `K ≥ 1`
blocks of 4096 bytes with `K * 4096 = size` have been written successfully, the
bytes fed to the MD5 accumulator are exactly the concatenation of the blocks
(true first byte included, not the `0xFF` placeholder), and `match_md5(h)`
returns true exactly when the 16-byte `h` is the MD5 digest of that
concatenation. -/
theorem hash_correctness (env : Env) (f0 f1 f' : partition_updater_t) (w0 w' : World)
    (type : update_type_t) (size : Nat) (blocks : List (List Nat)) (h : List Nat)
    (hbegin : f0.begin env type size = (f1, true)) (hsz : size < U32)
    (hblk : ∀ b ∈ blocks, b.length = SPI_FLASH_SEC_SIZE)
    (hK : 1 ≤ blocks.length) (hsize : blocks.length * SPI_FLASH_SEC_SIZE = size)
    (hrun : write_sectors env f1 w0 blocks = some (f', w', true))
    (hd : ∀ l, (env.md5sum l).length = 16) (hh : h.length = 16) :
    f'._md5.ctx = blocks.flatten ∧
    (f'.match_md5 h = true ↔ h = env.md5sum blocks.flatten) := by
  obtain ⟨ha, p, -, -, hf1⟩ := begin_true hbegin
  have hne : blocks ≠ [] := by
    intro h0; rw [h0] at hK; exact absurd hK (by decide)
  obtain ⟨e1, e2, -, e4, e5, e6⟩ := write_sectors_session env blocks f1 f' w0 w' hrun hblk
    (by rw [hf1]; rfl) (by rw [hf1]; exact ha) (by rw [hf1]; exact hsz)
  obtain ⟨e7, -, -, e8⟩ := e6 hne
  have hctx : f'._md5.ctx = blocks.flatten := by
    rw [e5, hf1]; rfl
  have hprog : f'._progress = f'._size := by
    rw [e4, e2, hf1]
    simp only [Nat.zero_add]
    rw [Nat.mul_comm]; exact hsize
  have hbuf : f'._md5.buf = env.md5sum blocks.flatten := by
    rw [← hctx]; exact e8 (by rw [hprog, e2])
  refine ⟨hctx, ?_⟩
  unfold partition_updater_t.match_md5 MD5Builder.getBytes
  rw [e1] 
  simp only [e7, ↓reduceIte, hprog, ne_eq, not_true_eq_false, hbuf, decide_eq_true_eq]
  rw [List.take_of_length_le (Nat.le_of_eq hh), List.take_of_length_le (Nat.le_of_eq (hd _))]

/-- C4, at a concrete input: a one-block session. -/
theorem hash_correctness_witness :
    idle_flasher.begin sample_env .utCode 4096 = (sample_session 4096, true) ∧
    ∃ f' w', write_sectors sample_env (sample_session 4096) sample_world [sample_block]
        = some (f', w', true) ∧
      f'._md5.ctx = [sample_block].flatten ∧
      (f'.match_md5 (List.replicate 16 0) = true ↔
        List.replicate 16 0 = sample_env.md5sum [sample_block].flatten) := by
  refine ⟨sample_begin 4096 (by decide) (by decide), ?_⟩
  obtain ⟨f', w', hw⟩ := sample_write_sector 4096 (by decide)
  exact ⟨f', w', write_sectors_single hw,
    hash_correctness sample_env idle_flasher (sample_session 4096) f' sample_world w' .utCode 4096
      [sample_block] (List.replicate 16 0) (sample_begin 4096 (by decide) (by decide)) (by decide)
      (fun b hb => by rw [List.mem_singleton.mp hb]; exact sample_block_length) (by decide)
      (by decide) (write_sectors_single hw) (fun _ => by simp [sample_env]) (by simp)⟩

/-- The byte on flash at the base address of the region after a run of
successful `write_sector` calls that follows a successful `begin`: `0xFF` as
long as the session is incomplete, the true first byte once the last block has
been written. -/
theorem write_sectors_first_byte (env : Env) (f0 f1 f' : partition_updater_t) (w0 w' : World)
    (type : update_type_t) (size : Nat) (blocks : List (List Nat)) (part : esp_partition_t)
    (hbegin : f0.begin env type size = (f1, true)) (hpart : f1._partition = some part)
    (hsz : size < U32) (hwrap : part.address + size ≤ U32)
    (hblk : ∀ b ∈ blocks, b.length = SPI_FLASH_SEC_SIZE) (hK : blocks ≠ [])
    (hrun : write_sectors env f1 w0 blocks = some (f', w', true)) :
    (blocks.length * SPI_FLASH_SEC_SIZE < size → w'.mem part.address = 0xFF) ∧
    (blocks.length * SPI_FLASH_SEC_SIZE = size →
      w'.mem part.address = (blocks.headD []).getD 0 0 % 256) := by
  obtain ⟨ha, p, -, -, hf1⟩ := begin_true hbegin
  have hp0 : f1._progress = 0 := by rw [hf1]
  have hs1 : f1._size = size := by rw [hf1]
  obtain ⟨-, -, -, e4, -, e6⟩ := write_sectors_session env blocks f1 f' w0 w' hrun hblk
    (by rw [hp0]; rfl) (by rw [hs1]; exact ha) (by rw [hs1]; exact hsz)
  obtain ⟨-, -, e7, -⟩ := e6 hK
  have hm := write_sectors_mem_base env blocks f1 f' w0 w' part hrun hK hblk hpart
    (by rw [hp0]; rfl) (by rw [hs1]; exact ha) (by rw [hs1]; exact hsz) (by rw [hs1]; exact hwrap)
  rw [hp0, hs1] at hm
  rw [hp0] at e4 e7
  simp only [↓reduceIte, Nat.zero_add] at hm e4 e7
  rw [Nat.mul_comm] at e4
  refine ⟨fun hlt => hm.1 (by rw [e4]; exact hlt), fun heq => ?_⟩
  rw [hm.2 (by rw [e4]; exact heq), e7]
  exact land_255 _

/-- C3 as stated fails: in a one-block session the `write_sector` call for
block 0 itself leaves the true first byte `0x42` (not `0xFF`) at the base
address `0x10000`, although `match_md5` has not been called at all. -/
theorem first_byte_restored_before_match_md5 :
    idle_flasher.begin sample_env .utCode 4096 = (sample_session 4096, true) ∧
    (sample_session 4096)._partition = some { address := 0x10000, size := 0x100000 } ∧
    sample_block.getD 0 0 = 0x42 ∧
    ∃ f' w', (sample_session 4096).write_sector sample_env sample_world sample_block
        = some (f', w', true) ∧
      w'.mem 0x10000 = 0x42 ∧ w'.mem 0x10000 ≠ 0xFF := by
  refine ⟨sample_begin 4096 (by decide) (by decide), rfl, by decide, ?_⟩
  obtain ⟨f', w', hw⟩ := sample_write_sector 4096 (by decide)
  have hm := (write_sector_mem_base hw (rfl : (sample_session 4096)._partition = some _)
    (by decide) (by decide)).2
  have hprog := (write_sector_true_fields hw).2.2.2.1
  have h42 : w'.mem 0x10000 = 0x42 := by
    have := hm (by rw [hprog]; decide)
    rw [this]
    decide
  exact ⟨f', w', hw, h42, by rw [h42]; decide⟩

theorem rc_dec (n : Nat) (h : n + 1 < U32) : (n + 1 + U32 - 1) % U32 = n := by
  unfold U32 at *
  omega

theorem le32_lt (bs : List Nat) : le32 bs < U32 := by
  unfold le32 U32
  omega

theorem boot_switches_append (a b : List FlashOp) :
    boot_switches (a ++ b) = boot_switches a + boot_switches b := by
  simp [boot_switches, List.countP_append]

theorem boot_switches_storage (ops : List FlashOp) (h : ∀ op ∈ ops, op.is_storage = true) :
    boot_switches ops = 0 := by
  simp only [boot_switches, List.countP_eq_zero, Bool.not_eq_true', Bool.not_eq_false]
  exact h

theorem match_md5_eq (f : partition_updater_t) (md5 : List Nat)
    (ht : f._type ≠ .utUnknown) (hp : f._progress = f._size) :
    f.match_md5 md5 = decide (md5.take 16 = f._md5.buf.take 16) := by
  simp [partition_updater_t.match_md5, ht, hp, MD5Builder.getBytes]

theorem activate_code (env : Env) (f : partition_updater_t) (w : World)
    (ht : f._type = .utCode) (hp : f._progress = f._size) :
    f.activate_new_code env w = esp_ota_set_boot_partition env w f._partition := by
  simp [partition_updater_t.activate_new_code, ht, hp]

theorem activate_not_code (env : Env) (f : partition_updater_t) (w : World)
    (ht : f._type ≠ .utCode) : f.activate_new_code env w = (w, false) := by
  simp [partition_updater_t.activate_new_code, ht]

theorem set_boot_log (env : Env) (w : World) (p : Option esp_partition_t) :
    (esp_ota_set_boot_partition env w p).1.log = w.log ++ [FlashOp.set_boot p] := rfl

theorem set_boot_boot (env : Env) (w : World) (p : Option esp_partition_t) :
    (esp_ota_set_boot_partition env w p).1.boot =
      if (p.isSome && env.io_ok w.log.length) = true then p else w.boot := rfl

/-- Receiving the content of a target when no primitive fails: after the last
block the digest is compared, a `Code` target is activated and the processor
is back in `phHeader`. -/
theorem content_run_ok (env : Env) (hio : ∀ i, env.io_ok i = true)
    (hmal : ∀ i, env.malloc_ok i = true) (n : Nat) :
    ∀ (s : updater_t) (w : World) (b c : List Nat) (part : esp_partition_t),
      s.status = .stNoError → s.buffer = some b → b.length = SPI_FLASH_SEC_SIZE →
      s.buffer_pos = 0 → s.phase = .phContent → s.remaining_count = n + 1 →
      s.partition_updater._type ≠ .utUnknown → s.partition_updater._partition = some part →
      s.partition_updater._progress % SPI_FLASH_SEC_SIZE = 0 →
      s.partition_updater._size % SPI_FLASH_SEC_SIZE = 0 →
      s.partition_updater._size < U32 →
      s.partition_updater._progress + SPI_FLASH_SEC_SIZE * (n + 1) = s.partition_updater._size →
      c.length = SPI_FLASH_SEC_SIZE * (n + 1) →
      s.header.md5.take 16 = (env.md5sum (s.partition_updater._md5.ctx ++ c)).take 16 →
      ∃ s' w',
        (∀ rest, updater_t.write_data env s w (c ++ rest) = updater_t.write_data env s' w' rest) ∧
        s'.status = .stNoError ∧ s'.phase = .phHeader ∧ s'.buffer_pos = 0 ∧
        (∃ b', s'.buffer = some b' ∧ b'.length = SPI_FLASH_SEC_SIZE) ∧
        boot_switches w'.log = boot_switches w.log +
          (if s.partition_updater._type = .utCode then 1 else 0) ∧
        w'.boot = (if s.partition_updater._type = .utCode then some part else w.boot) := by
  induction n with
  | zero =>
    intro s w b c part hst hb hl hpos hph hrc ht hpart hpa hsa hsu hps hc hmd5
    have hclen : c.length = SPI_FLASH_SEC_SIZE := by rw [hc]; simp
    have hlt : s.partition_updater._progress < s.partition_updater._size := by
      have := sec_pos; omega
    obtain ⟨f1, w1, hws⟩ := write_sector_ok env s.partition_updater w c ht hlt
      (by rw [hpart]; simp) (Nat.le_of_eq hclen.symm) (hmal _) (fun _ _ => hio _)
    obtain ⟨e1, e2, e3, e4, -, e6, e7, -⟩ := write_sector_true_fields hws
    obtain ⟨a1, -, -⟩ := aligned_step hpa hsa hlt hsu
    rw [a1] at e4
    have hdone : f1._progress = f1._size := by rw [e4, e2]; simpa using hps
    have htake : c.take SPI_FLASH_SEC_SIZE = c := List.take_of_length_le (Nat.le_of_eq hclen)
    have hbuf : f1._md5.buf = env.md5sum (s.partition_updater._md5.ctx ++ c) := by
      rw [e7 (by rw [← e2, hdone]), e6, htake]
    have hmatch : f1.match_md5 s.header.md5 = true := by
      rw [match_md5_eq f1 _ (by rw [e1]; exact ht) hdone, hbuf]
      exact decide_eq_true hmd5
    obtain ⟨-, -, hboot1, ⟨ops, hlog1, hops⟩, -⟩ := write_sector_frame hws
    have hstep : updater_t.process_block env { s with buffer := some c } w =
        some ({ s with buffer := some c, partition_updater := f1,
                       remaining_count := 0, phase := .phHeader },
              (f1.activate_new_code env w1).1) := by
      rw [process_block_phContent env w (s := { s with buffer := some c }) rfl hclen hph, hws]
      have hrc0 : (s.remaining_count + U32 - 1) % U32 = 0 := by
        rw [hrc]; exact rc_dec 0 (by decide)
      simp only [hrc0, ↓reduceIte, hmatch, Bool.not_true, Bool.false_eq_true]
    refine ⟨{ s with buffer := some c, partition_updater := f1,
                     remaining_count := 0, phase := .phHeader },
      (f1.activate_new_code env w1).1, fun rest => ?_, hst, rfl, hpos, ⟨c, rfl, hclen⟩, ?_, ?_⟩
    · rw [write_data_block env w c rest hst hb hl hpos hclen, hstep]
    · by_cases hcode : s.partition_updater._type = .utCode
      · rw [activate_code env f1 w1 (by rw [e1]; exact hcode) hdone]
        rw [set_boot_log, hlog1, boot_switches_append, boot_switches_append,
          boot_switches_storage ops hops, if_pos hcode]
        rfl
      · rw [activate_not_code env f1 w1 (by rw [e1]; exact hcode), hlog1, boot_switches_append,
          boot_switches_storage ops hops, if_neg hcode]
    · by_cases hcode : s.partition_updater._type = .utCode
      · rw [activate_code env f1 w1 (by rw [e1]; exact hcode) hdone]
        rw [set_boot_boot, if_pos hcode, e3, hpart]
        simp [hio]
      · rw [activate_not_code env f1 w1 (by rw [e1]; exact hcode), if_neg hcode]
        exact hboot1
  | succ n ih =>
    intro s w b c part hst hb hl hpos hph hrc ht hpart hpa hsa hsu hps hc hmd5
    have hsp := sec_pos
    have hlen1 : SPI_FLASH_SEC_SIZE ≤ c.length := by
      rw [hc]; exact Nat.le_mul_of_pos_right _ (Nat.succ_pos _)
    have hblk : (c.take SPI_FLASH_SEC_SIZE).length = SPI_FLASH_SEC_SIZE := by
      rw [List.length_take]; omega
    have hlt : s.partition_updater._progress < s.partition_updater._size := by
      rw [← hps]; exact Nat.lt_add_of_pos_right (Nat.mul_pos hsp (Nat.succ_pos _))
    obtain ⟨f1, w1, hws⟩ := write_sector_ok env s.partition_updater w (c.take SPI_FLASH_SEC_SIZE)
      ht hlt (by rw [hpart]; simp) (Nat.le_of_eq hblk.symm) (hmal _) (fun _ _ => hio _)
    obtain ⟨e1, e2, e3, e4, -, e6, -, -⟩ := write_sector_true_fields hws
    obtain ⟨a1, -, a3⟩ := aligned_step hpa hsa hlt hsu
    rw [a1] at e4
    rw [List.take_take, Nat.min_self] at e6
    obtain ⟨-, -, hboot1, ⟨ops, hlog1, hops⟩, -⟩ := write_sector_frame hws
    have hrcu : n + 1 + 1 < U32 := by
      have : SPI_FLASH_SEC_SIZE * (n + 1 + 1) < U32 := by omega
      unfold SPI_FLASH_SEC_SIZE at this
      omega
    have hstep : updater_t.process_block env { s with buffer := some (c.take SPI_FLASH_SEC_SIZE) } w
        = some ({ s with buffer := some (c.take SPI_FLASH_SEC_SIZE), partition_updater := f1,
                         remaining_count := n + 1 }, w1) := by
      rw [process_block_phContent env w
        (s := { s with buffer := some (c.take SPI_FLASH_SEC_SIZE) }) rfl hblk hph, hws]
      have hrc1 : (s.remaining_count + U32 - 1) % U32 = n + 1 := by
        rw [hrc]; exact rc_dec (n + 1) hrcu
      simp only [hrc1, Nat.add_one_ne_zero, ↓reduceIte]
    obtain ⟨s', w', hrun, h1, h2, h3, h4, h5, h6⟩ := ih
      { s with buffer := some (c.take SPI_FLASH_SEC_SIZE), partition_updater := f1,
               remaining_count := n + 1 } w1 (c.take SPI_FLASH_SEC_SIZE)
      (c.drop SPI_FLASH_SEC_SIZE) part hst rfl hblk hpos hph rfl (by simp only [e1]; exact ht)
      (by simp only [e3]; exact hpart) (by simp only [e4]; exact a3) (by simp only [e2]; exact hsa)
      (by simp only [e2]; exact hsu)
      (by simp only [e4, e2]; rw [← hps]; simp only [Nat.mul_add, Nat.mul_one]; omega)
      (by rw [List.length_drop, hc]; simp only [Nat.mul_add, Nat.mul_one]; omega)
      (by simp only [e6, List.append_assoc, List.take_append_drop]; exact hmd5)
    refine ⟨s', w', fun rest => ?_, h1, h2, h3, h4, ?_, ?_⟩
    · rw [← List.take_append_drop SPI_FLASH_SEC_SIZE c, List.append_assoc,
        write_data_block env w _ _ hst hb hl hpos hblk, hstep]
      exact hrun rest
    · rw [h5, hlog1, boot_switches_append, boot_switches_storage ops hops]
      simp only [e1, Nat.add_zero]
    · rw [h6]
      simp only [e1, hboot1]

theorem type_of_label_code (label : List Nat) :
    type_of_label label = .utCode ↔ cstr label = STR_app := by
  unfold type_of_label
  by_cases h1 : cstr label = STR_font
  · rw [if_pos h1, h1]
    exact ⟨fun h => (by cases h), fun h => absurd h (by decide)⟩
  rw [if_neg h1]
  by_cases h2 : cstr label = STR_spiffs
  · rw [if_pos h2, h2]
    exact ⟨fun h => (by cases h), fun h => absurd h (by decide)⟩
  rw [if_neg h2]
  by_cases h3 : cstr label = STR_app
  · rw [if_pos h3]
    exact ⟨fun _ => h3, fun _ => rfl⟩
  · rw [if_neg h3]
    exact ⟨fun h => (by cases h), fun h => absurd h h3⟩

theorem read_header_arc_len_lt (env : Env) (b : List Nat) : (read_header env b).arc_len < U32 :=
  le32_lt _

/-- Receiving a whole well-formed target when no primitive fails. -/
theorem target_run_ok (env : Env) (hio : ∀ i, env.io_ok i = true)
    (hmal : ∀ i, env.malloc_ok i = true) (s : updater_t) (w : World) (b hdr c : List Nat)
    (p : esp_partition_t)
    (hst : s.status = .stNoError) (hb : s.buffer = some b) (hl : b.length = SPI_FLASH_SEC_SIZE)
    (hpos : s.buffer_pos = 0) (hph : s.phase = .phHeader) (hv : ValidTarget env hdr c p) :
    ∃ s' w',
      (∀ rest, updater_t.write_data env s w (hdr ++ c ++ rest)
        = updater_t.write_data env s' w' rest) ∧
      s'.status = .stNoError ∧ s'.phase = .phHeader ∧ s'.buffer_pos = 0 ∧
      (∃ b', s'.buffer = some b' ∧ b'.length = SPI_FLASH_SEC_SIZE) ∧
      boot_switches w'.log = boot_switches w.log + (if is_app env hdr then 1 else 0) ∧
      w'.boot = (if is_app env hdr then some p else w.boot) := by
  obtain ⟨v1, v2, v3, v4, v5, v6, v7, v8, v9, v10⟩ := hv
  have hsp := sec_pos
  obtain ⟨n, hn⟩ : ∃ n, (read_header env hdr).arc_len = SPI_FLASH_SEC_SIZE * (n + 1) := by
    obtain ⟨k, hk⟩ := Nat.dvd_of_mod_eq_zero v6
    cases k with
    | zero => rw [hk] at v5; simp at v5
    | succ n => exact ⟨n, hk⟩
  have hstep : updater_t.process_block env { s with buffer := some hdr } w =
      some ({ s with buffer := some hdr, header := read_header env hdr,
                     partition_updater :=
                       { _type := type_of_label (read_header env hdr).label,
                         _size := (read_header env hdr).arc_len, _progress := 0,
                         _partition := some p,
                         _first_byte := s.partition_updater._first_byte,
                         _md5 := s.partition_updater._md5.begin },
                     remaining_count := n + 1, phase := .phContent }, w) := by
    rw [process_block_phHeader env w (s := { s with buffer := some hdr }) rfl v1 hph]
    have hdiv : (read_header env hdr).arc_len / SPI_FLASH_SEC_SIZE = n + 1 := by
      rw [hn]; exact Nat.mul_div_cancel_left _ hsp
    simp only [v2, ne_eq, not_true_eq_false, ↓reduceIte, gt_iff_lt, Nat.not_lt.mpr v4, v6,
      or_self, v3, begin_eq_true env s.partition_updater v6 v8 v9, hdiv]
  obtain ⟨s', w', hrun, h1, h2, h3, h4, h5, h6⟩ := content_run_ok env hio hmal n
    { s with buffer := some hdr, header := read_header env hdr,
             partition_updater :=
               { _type := type_of_label (read_header env hdr).label,
                 _size := (read_header env hdr).arc_len, _progress := 0,
                 _partition := some p,
                 _first_byte := s.partition_updater._first_byte,
                 _md5 := s.partition_updater._md5.begin },
             remaining_count := n + 1, phase := .phContent } w hdr c p
    hst rfl v1 hpos rfl rfl v3 rfl rfl v6 (read_header_arc_len_lt env hdr)
    (by simp only [Nat.zero_add]; exact hn.symm) (by rw [v7, hn])
    (by simpa [MD5Builder.begin] using v10)
  refine ⟨s', w', fun rest => ?_, h1, h2, h3, h4, ?_, ?_⟩
  · rw [List.append_assoc, write_data_block env w hdr (c ++ rest) hst hb hl hpos v1, hstep]
    exact hrun rest
  · rw [h5]
    simp only [type_of_label_code, is_app]
  · rw [h6]
    simp only [type_of_label_code, is_app]

theorem begin_buffer_some (env : Env) (s0 : updater_t) (w0 : World)
    (hmal : ∀ i, env.malloc_ok i = true) :
    (updater_t.begin env s0 w0).1.buffer ≠ none := by
  rw [(begin_fields env s0 w0).2.2.2.2.2.2.2.2.2]
  cases s0.buffer with
  | none => simp [hmal]
  | some b => simp

theorem write_data_of_nil (env : Env) (s : updater_t) (w : World) :
    updater_t.write_data env s w [] = some (s, w) := by
  unfold updater_t.write_data
  split
  · rfl
  · split
    · rfl
    · exact write_data_loop_nil env _ s w

/-- C9 as amended (multi-target continuation).  After `begin()`, for a stream (in any
chunking) made of a block that starts with the archive magic followed by two
well-formed targets, on a platform where no allocation, storage or
boot-control primitive fails: the processor ends in phase `phHeader` with
status `NoError`, `finish()` returns true, and the boot partition has been
switched exactly once for each target whose label is `"app"` (the boot pointer
ends on the region of the last such target). -/
theorem multi_target_continuation (env : Env) (s0 : updater_t) (w0 : World)
    (chunks : List (List Nat)) (magic hdr1 c1 hdr2 c2 : List Nat) (p1 p2 : esp_partition_t)
    (h0 : ∀ b, s0.buffer = some b → b.length = SPI_FLASH_SEC_SIZE)
    (hio : ∀ i, env.io_ok i = true) (hmal : ∀ i, env.malloc_ok i = true)
    (hstream : chunks.flatten = magic ++ hdr1 ++ c1 ++ hdr2 ++ c2)
    (hm : magic.length = SPI_FLASH_SEC_SIZE) (hmagic : magic.take 32 = ARCHIVE_MAGIC)
    (hv1 : ValidTarget env hdr1 c1 p1) (hv2 : ValidTarget env hdr2 c2 p2) :
    ∃ s w,
      write_chunks env (updater_t.begin env s0 w0).1 (updater_t.begin env s0 w0).2 chunks
        = some (s, w) ∧
      s.phase = .phHeader ∧ s.status = .stNoError ∧ (updater_t.finish s).2 = true ∧
      boot_switches w.log = boot_switches w0.log + (if is_app env hdr1 then 1 else 0)
        + (if is_app env hdr2 then 1 else 0) ∧
      w.boot = (if is_app env hdr2 then some p2
                else if is_app env hdr1 then some p1 else w0.boot) := by
  have hi := begin_inv env s0 w0 h0
  have hf := begin_fields env s0 w0
  have hbuf := begin_buffer_some env s0 w0 hmal
  have hstream2 : chunks.flatten = magic ++ (hdr1 ++ c1 ++ (hdr2 ++ c2 ++ [])) := by
    rw [hstream]
    simp only [List.append_assoc, List.append_nil]
  rw [write_chunks_eq_write_data env chunks _ _ hi, hstream2]
  rcases hr : updater_t.begin env s0 w0 with ⟨sb, wb⟩
  rw [hr] at hi hf hbuf
  simp only at hi hf hbuf ⊢
  obtain ⟨hpos, -, hph, hst, -, -, hlog, hboot, -, -⟩ := hf
  obtain ⟨b, hb⟩ := Option.ne_none_iff_exists'.mp hbuf
  have hl := hi.2.1 b hb
  have hstep : updater_t.process_block env { sb with buffer := some magic } wb =
      some ({ sb with buffer := some magic, phase := .phHeader }, wb) := by
    rw [process_block_phBegin env wb (s := { sb with buffer := some magic }) rfl hm hph]
    simp only [hmagic, ne_eq, not_true_eq_false, ↓reduceIte]
  obtain ⟨s1, w1, hrun1, a1, a2, a3, ⟨b1, a4, a5⟩, a6, a7⟩ := target_run_ok env hio hmal
    { sb with buffer := some magic, phase := .phHeader } wb magic hdr1 c1 p1 hst rfl hm hpos rfl hv1
  obtain ⟨s2, w2, hrun2, c1', c2', c3', -, c6, c7⟩ := target_run_ok env hio hmal
    s1 w1 b1 hdr2 c2 p2 a1 a4 a5 a3 a2 hv2
  refine ⟨s2, w2, ?_, c2', c1', ?_, ?_, ?_⟩
  · rw [write_data_block env wb magic _ hst hb hl hpos hm, hstep]
    simp only
    rw [hrun1, hrun2]
    exact write_data_of_nil env s2 w2
  · simp [updater_t.finish, c1', c2']
  · rw [c6, a6, hlog]
  · rw [c7, a7, hboot]


theorem sample_header_length (label : List Nat) (h : label.length = 8) :
    (sample_header label).length = SPI_FLASH_SEC_SIZE := by
  simp only [sample_header, header_block, FILE_BOUNDARY, SPI_FLASH_SEC_SIZE, List.length_append,
    List.length_replicate, List.length_cons, List.length_nil, h]

theorem sample_magic_length : sample_magic.length = SPI_FLASH_SEC_SIZE := by
  simp only [sample_magic, ARCHIVE_MAGIC, SPI_FLASH_SEC_SIZE, List.length_append,
    List.length_replicate, List.length_cons, List.length_nil]

theorem sample_target_app :
    ValidTarget sample_env (sample_header LABEL_app) sample_block
      { address := 0x10000, size := 0x100000 } :=
  ⟨sample_header_length LABEL_app rfl, by decide, by decide, by decide, by decide, by decide,
    by rw [sample_block_length]; decide, by decide, by decide, by decide⟩

theorem sample_target_font :
    ValidTarget sample_env (sample_header LABEL_font) sample_block
      { address := 0x10000, size := 0x100000 } :=
  ⟨sample_header_length LABEL_font rfl, by decide, by decide, by decide, by decide, by decide,
    by rw [sample_block_length]; decide, by decide, by decide, by decide⟩

/-- C9 as amended, at a concrete input: an `app` target followed by a `font` target,
fed in two chunks; exactly one boot switch. -/
theorem multi_target_continuation_witness :
    ∃ s w,
      write_chunks sample_env (updater_t.begin sample_env idle_updater sample_world).1
        (updater_t.begin sample_env idle_updater sample_world).2
        [sample_magic ++ sample_header LABEL_app,
         sample_block ++ sample_header LABEL_font ++ sample_block] = some (s, w) ∧
      s.phase = .phHeader ∧ s.status = .stNoError ∧ (updater_t.finish s).2 = true ∧
      boot_switches w.log = 1 ∧
      w.boot = some { address := 0x10000, size := 0x100000 } := by
  obtain ⟨s, w, h1, h2, h3, h4, h5, h6⟩ :=
    multi_target_continuation sample_env idle_updater sample_world
      [sample_magic ++ sample_header LABEL_app,
       sample_block ++ sample_header LABEL_font ++ sample_block]
      sample_magic (sample_header LABEL_app) sample_block (sample_header LABEL_font) sample_block
      { address := 0x10000, size := 0x100000 } { address := 0x10000, size := 0x100000 }
      (fun b hb => (by cases hb)) (fun _ => rfl) (fun _ => rfl)
      (by simp only [List.flatten_cons, List.flatten_nil, List.append_assoc, List.append_nil])
      sample_magic_length (by decide) sample_target_app sample_target_font
  refine ⟨s, w, h1, h2, h3, h4, ?_, ?_⟩
  · rw [h5]
    have ha : is_app sample_env (sample_header LABEL_app) := by decide
    have hf : ¬ is_app sample_env (sample_header LABEL_font) := by decide
    simp only [ha, hf, ↓reduceIte]
    rfl
  · rw [h6]
    have ha : is_app sample_env (sample_header LABEL_app) := by decide
    have hf : ¬ is_app sample_env (sample_header LABEL_font) := by decide
    simp only [ha, hf, ↓reduceIte]

theorem block_at_length (stream : List Nat) (j : Nat)
    (h : SPI_FLASH_SEC_SIZE * (j + 1) ≤ stream.length) :
    (block_at stream j).length = SPI_FLASH_SEC_SIZE := by
  unfold block_at
  rw [List.length_take, List.length_drop]
  rw [Nat.mul_add, Nat.mul_one] at h
  omega

theorem take_succ_block (stream : List Nat) (j : Nat) :
    stream.take (SPI_FLASH_SEC_SIZE * (j + 1)) =
      stream.take (SPI_FLASH_SEC_SIZE * j) ++ block_at stream j := by
  unfold block_at
  rw [Nat.mul_add, Nat.mul_one, List.take_add]

theorem content_of_succ (stream : List Nat) (h k : Nat) :
    content_of stream h (k + 1) = content_of stream h k ++ block_at stream (h + 1 + k) := by
  unfold content_of block_at
  rw [Nat.mul_add SPI_FLASH_SEC_SIZE k 1, Nat.mul_one, List.take_add, List.drop_drop]
  have e : SPI_FLASH_SEC_SIZE * (h + 1) + SPI_FLASH_SEC_SIZE * k
      = SPI_FLASH_SEC_SIZE * (h + 1 + k) := by
    rw [← Nat.mul_add]
  rw [e]

theorem content_of_zero (stream : List Nat) (h : Nat) : content_of stream h 0 = [] := by
  unfold content_of
  simp

theorem write_data_append (env : Env) (s : updater_t) (w : World) (a b : List Nat)
    (hi : Inv s) :
    updater_t.write_data env s w (a ++ b) =
      match updater_t.write_data env s w a with
      | none => none
      | some (s1, w1) => updater_t.write_data env s1 w1 b := by
  rw [write_data_eq_write_bytes env s w _ hi.bufInv, write_bytes_append,
    ← write_data_eq_write_bytes env s w a hi.bufInv]
  obtain ⟨r, hr, hir⟩ := write_data_total env s w a hi
  rw [hr]
  exact (write_data_eq_write_bytes env r.1 r.2 b hir.bufInv).symm

/-- Block-wise reading of `write_data`: after a whole number of blocks the
buffer position is back at 0 and the state is the one of `run_blocks`. -/
theorem run_blocks_eq (env : Env) (s : updater_t) (w : World) (stream : List Nat)
    (hi : Inv s) (hpos : s.buffer_pos = 0) :
    ∀ j, SPI_FLASH_SEC_SIZE * j ≤ stream.length →
      ∃ sj wj, run_blocks env s w stream j = some (sj, wj) ∧
        updater_t.write_data env s w (stream.take (SPI_FLASH_SEC_SIZE * j)) = some (sj, wj) ∧
        Inv sj ∧ sj.buffer_pos = 0 := by
  intro j
  induction j with
  | zero =>
    intro _
    exact ⟨s, w, rfl, by simpa using write_data_of_nil env s w, hi, hpos⟩
  | succ j ih =>
    intro hj
    obtain ⟨sj, wj, h1, h2, h3, h4⟩ := ih (by rw [Nat.mul_add] at hj; omega)
    have hbl := block_at_length stream j hj
    rw [take_succ_block, write_data_append env s w _ _ hi, h2]
    simp only [run_blocks, h1]
    by_cases hcond : sj.status ≠ .stNoError ∨ sj.buffer = none
    · rw [if_pos hcond]
      rcases hcond with hst | hb
      · exact ⟨sj, wj, rfl, write_data_of_status wj _ hst, h3, h4⟩
      · exact ⟨sj, wj, rfl, write_data_of_null wj _ hb, h3, h4⟩
    · rw [if_neg hcond]
      have hst : sj.status = .stNoError := by
        by_contra hx; exact hcond (Or.inl hx)
      obtain ⟨b, hb⟩ : ∃ b, sj.buffer = some b := by
        cases hx : sj.buffer with
        | none => exact absurd (Or.inr hx) hcond
        | some b => exact ⟨b, rfl⟩
      rw [← List.append_nil (block_at stream j),
        write_data_block env wj (block_at stream j) [] hst hb (h3.2.1 b hb) h4 hbl]
      simp only [List.append_nil]
      obtain ⟨r, hr⟩ := process_block_isSome env (s := { sj with buffer := some (block_at stream j) })
        wj rfl hbl h3.2.2
      have hr2 : updater_t.process_block env { sj with buffer := some (block_at stream j) } wj
          = some (r.1, r.2) := hr
      have hir := process_block_inv hr2 ⟨h3.1, fun b' hb' => by
        simp only [Option.some.injEq] at hb'; rw [← hb']; exact hbl, h3.2.2⟩
      have hfr := process_block_frame hr2
      rw [hr]
      exact ⟨r.1, r.2, rfl, write_data_of_nil env r.1 r.2, hir, by rw [hfr.2]; exact h4⟩

/-- The bytes after the last full block change neither the platform state nor
anything of the updater state but the receive buffer. -/
theorem write_data_whole (env : Env) (s : updater_t) (w : World) (stream : List Nat)
    (hi : Inv s) (hpos : s.buffer_pos = 0) :
    ∃ sj wj sf, run_blocks env s w stream (stream.length / SPI_FLASH_SEC_SIZE) = some (sj, wj) ∧
      updater_t.write_data env s w stream = some (sf, wj) ∧
      sf.phase = sj.phase ∧ sf.status = sj.status ∧ sf.remaining_count = sj.remaining_count ∧
      sf.header = sj.header ∧ sf.partition_updater = sj.partition_updater := by
  have hsp := sec_pos
  have hJ : SPI_FLASH_SEC_SIZE * (stream.length / SPI_FLASH_SEC_SIZE) ≤ stream.length :=
    Nat.mul_div_le _ _
  obtain ⟨sj, wj, h1, h2, h3, h4⟩ := run_blocks_eq env s w stream hi hpos _ hJ
  have htl : (stream.drop (SPI_FLASH_SEC_SIZE * (stream.length / SPI_FLASH_SEC_SIZE))).length
      < SPI_FLASH_SEC_SIZE := by
    rw [List.length_drop]
    have := Nat.mod_lt stream.length hsp
    have := Nat.div_add_mod stream.length SPI_FLASH_SEC_SIZE
    omega
  have hsplit := (List.take_append_drop (SPI_FLASH_SEC_SIZE * (stream.length / SPI_FLASH_SEC_SIZE))
    stream).symm
  refine ⟨sj, wj, ?_⟩
  rw [hsplit, write_data_append env s w _ _ hi, h2]
  rw [← hsplit]
  simp only
  by_cases hst : sj.status = .stNoError
  · cases hb : sj.buffer with
    | none => exact ⟨sj, h1, write_data_of_null wj _ hb, rfl, rfl, rfl, rfl, rfl⟩
    | some b =>
      obtain ⟨b', hb'⟩ := write_data_tail env wj
        (stream.drop (SPI_FLASH_SEC_SIZE * (stream.length / SPI_FLASH_SEC_SIZE))) hst hb
        (h3.2.1 b hb) (by rw [h4]; omega)
      exact ⟨_, h1, hb', rfl, rfl, rfl, rfl, rfl⟩
  · exact ⟨sj, h1, write_data_of_status wj _ hst, rfl, rfl, rfl, rfl, rfl⟩

/-- The operations a successful `write_sector` appends to the log. -/
theorem write_sector_true_log {env : Env} {f f' : partition_updater_t} {w w' : World}
    {buf : List Nat} {part : esp_partition_t}
    (h : f.write_sector env w buf = some (f', w', true)) (hpart : f._partition = some part) :
    env.io_ok w.log.length = true ∧ env.io_ok (w.log.length + 1) = true ∧
    (f'._progress < f._size → w'.log = w.log ++ sector_ops part f._progress buf) ∧
    (f._size ≤ f'._progress →
      env.io_ok (w.log.length + 2) = true ∧ env.io_ok (w.log.length + 3) = true ∧
      ∃ patch, w'.log = w.log ++ sector_ops part f._progress buf
        ++ [FlashOp.read part.address 4, FlashOp.write part.address patch]) := by
  obtain ⟨-, -, hl, -, part', w1, w2, hp', he, hw, hcase⟩ := write_sector_true h
  rw [hpart] at hp'
  injection hp' with hp'
  subst hp'
  have e := flashEraseSector_eq he
  have e2 := flashWrite_eq hw
  have l1 : w1.log = w.log ++ [FlashOp.erase ((part.address + f._progress) % U32
      / SPI_FLASH_SEC_SIZE)] := e.2.1
  have l2 : w2.log = w.log ++ sector_ops part f._progress buf := by
    rw [e2.2.1, l1, List.append_assoc]; rfl
  have n1 : w1.log.length = w.log.length + 1 := by rw [l1]; simp
  have n2 : w2.log.length = w.log.length + 2 := by rw [l2]; simp [sector_ops]
  have hprog := (write_sector_true_fields h).2.2.2.1
  refine ⟨e.1.symm, by rw [← n1]; exact e2.1.symm, ?_, ?_⟩
  · intro hlt
    rcases hcase with ⟨-, hw', -⟩ | ⟨hge, -⟩
    · rw [hw']; exact l2
    · rw [hprog] at hlt; exact absurd hlt (Nat.not_lt.mpr hge)
  · intro hge
    rcases hcase with ⟨hlt, -, -⟩ | ⟨-, w3, buf4, hr, hw4, -⟩
    · rw [hprog] at hge; exact absurd hlt (Nat.not_lt.mpr hge)
    · have e3 := flashRead_eq hr
      have e4 := flashWrite_eq hw4
      have n3 : w3.log.length = w.log.length + 3 := by rw [e3.1]; simp [n2]
      have hio2 : env.io_ok (w.log.length + 2) = true := by
        have := e3.2.2.2.2
        rw [n2] at this
        cases hio : env.io_ok (w.log.length + 2)
        · rw [hio] at this; simp at this
        · rfl
      refine ⟨hio2, by rw [← n3]; exact e4.1.symm, buf4.set 0 (first_byte_of f buf), ?_⟩
      rw [e4.2.1, e3.1, l2, List.append_assoc]
      rfl

/-- The outcomes of `process_block` in phase `phHeader`. -/
theorem header_step_cases {env : Env} {s s' : updater_t} {w w' : World} {blk : List Nat}
    (hb : s.buffer = some blk) (hl : blk.length = SPI_FLASH_SEC_SIZE) (hp : s.phase = .phHeader)
    (h : updater_t.process_block env s w = some (s', w')) :
    w' = w ∧
    ((s'.status = .stCorrupted ∧ s'.phase = .phHeader) ∨
     (blk.take 16 = FILE_BOUNDARY ∧ (read_header env blk).arc_len % SPI_FLASH_SEC_SIZE = 0 ∧
      (read_header env blk).orig_len ≤ (read_header env blk).arc_len ∧
      type_of_label (read_header env blk).label ≠ .utUnknown ∧
      ∃ f1, s.partition_updater.begin env (type_of_label (read_header env blk).label)
          (read_header env blk).arc_len = (f1, true) ∧
        s' = { s with header := read_header env blk, partition_updater := f1,
                      remaining_count := (read_header env blk).arc_len / SPI_FLASH_SEC_SIZE,
                      phase := .phContent })) := by
  rw [process_block_phHeader env w hb hl hp] at h
  split at h
  · simp only [Option.some.injEq, Prod.mk.injEq] at h
    obtain ⟨h1, h2⟩ := h
    subst h1; subst h2
    exact ⟨rfl, Or.inl ⟨rfl, hp⟩⟩
  rename_i hm
  split at h
  · simp only [Option.some.injEq, Prod.mk.injEq] at h
    obtain ⟨h1, h2⟩ := h
    subst h1; subst h2
    exact ⟨rfl, Or.inl ⟨rfl, hp⟩⟩
  rename_i hsz
  split at h
  · simp only [Option.some.injEq, Prod.mk.injEq] at h
    obtain ⟨h1, h2⟩ := h
    subst h1; subst h2
    exact ⟨rfl, Or.inl ⟨rfl, hp⟩⟩
  rename_i hty
  split at h
  · simp only [Option.some.injEq, Prod.mk.injEq] at h
    obtain ⟨h1, h2⟩ := h
    subst h1; subst h2
    exact ⟨rfl, Or.inl ⟨rfl, hp⟩⟩
  · rename_i f1 hbeg
    simp only [Option.some.injEq, Prod.mk.injEq] at h
    obtain ⟨h1, h2⟩ := h
    subst h1; subst h2
    refine ⟨rfl, Or.inr ⟨by simpa using hm, ?_, ?_, hty, f1, hbeg, rfl⟩⟩
    · by_contra hx; exact hsz (Or.inr hx)
    · by_contra hx; exact hsz (Or.inl (Nat.lt_of_not_le hx))

/-- The outcomes of `process_block` in phase `phContent`. -/
theorem content_step_cases {env : Env} {s s' : updater_t} {w w' : World} {blk : List Nat}
    (hb : s.buffer = some blk) (hl : blk.length = SPI_FLASH_SEC_SIZE) (hp : s.phase = .phContent)
    (h : updater_t.process_block env s w = some (s', w')) :
    (∃ f1, s.partition_updater.write_sector env w blk = some (f1, w', false) ∧
      s' = { s with partition_updater := f1, status := .stCorrupted }) ∨
    (∃ f1, s.partition_updater.write_sector env w blk = some (f1, w', true) ∧
      (s.remaining_count + U32 - 1) % U32 ≠ 0 ∧
      s' = { s with partition_updater := f1,
                    remaining_count := (s.remaining_count + U32 - 1) % U32 }) ∨
    (∃ f1, s.partition_updater.write_sector env w blk = some (f1, w', true) ∧
      (s.remaining_count + U32 - 1) % U32 = 0 ∧ f1.match_md5 s.header.md5 = false ∧
      s' = { s with partition_updater := f1,
                    remaining_count := (s.remaining_count + U32 - 1) % U32,
                    status := .stCorrupted }) ∨
    (∃ f1 w1, s.partition_updater.write_sector env w blk = some (f1, w1, true) ∧
      (s.remaining_count + U32 - 1) % U32 = 0 ∧ f1.match_md5 s.header.md5 = true ∧
      w' = (f1.activate_new_code env w1).1 ∧
      s' = { s with partition_updater := f1,
                    remaining_count := (s.remaining_count + U32 - 1) % U32,
                    phase := .phHeader }) := by
  rw [process_block_phContent env w hb hl hp] at h
  split at h
  · cases h
  · rename_i f1 w1 hws
    simp only [Option.some.injEq, Prod.mk.injEq] at h
    obtain ⟨h1, h2⟩ := h
    subst h1; subst h2
    exact Or.inl ⟨f1, hws, rfl⟩
  · rename_i f1 w1 hws
    split at h
    · rename_i hrc
      split at h
      · rename_i hm
        simp only [Option.some.injEq, Prod.mk.injEq] at h
        obtain ⟨h1, h2⟩ := h
        subst h1; subst h2
        refine Or.inr (Or.inr (Or.inl ⟨f1, hws, hrc, ?_, rfl⟩))
        simpa using hm
      · rename_i hm
        simp only [Option.some.injEq, Prod.mk.injEq] at h
        obtain ⟨h1, h2⟩ := h
        subst h1; subst h2
        refine Or.inr (Or.inr (Or.inr ⟨f1, w1, hws, hrc, ?_, rfl, rfl⟩))
        simpa using hm
    · rename_i hrc
      simp only [Option.some.injEq, Prod.mk.injEq] at h
      obtain ⟨h1, h2⟩ := h
      subst h1; subst h2
      exact Or.inr (Or.inl ⟨f1, hws, hrc, rfl⟩)

theorem justified_extend_storage {env : Env} {stream : List Nat} {n : Nat}
    {log ops : List FlashOp}
    (hJ : ∀ i p, n ≤ i → log[i]? = some (FlashOp.set_boot p) →
      Justified env stream (log.take i) p)
    (hops : ∀ op ∈ ops, op.is_storage = true) :
    ∀ i p, n ≤ i → (log ++ ops)[i]? = some (FlashOp.set_boot p) →
      Justified env stream ((log ++ ops).take i) p := by
  intro i p hn hi
  by_cases hlt : i < log.length
  · rw [List.getElem?_append_left hlt] at hi
    rw [List.take_append_of_le_length (Nat.le_of_lt hlt)]
    exact hJ i p hn hi
  · rw [List.getElem?_append_right (Nat.le_of_not_lt hlt)] at hi
    have hmem : FlashOp.set_boot p ∈ ops := List.mem_iff_getElem?.mpr ⟨_, hi⟩
    have := hops _ hmem
    simp [FlashOp.is_storage] at this

theorem justified_extend_boot {env : Env} {stream : List Nat} {n : Nat}
    {log : List FlashOp} {q : Option esp_partition_t}
    (hJ : ∀ i p, n ≤ i → log[i]? = some (FlashOp.set_boot p) →
      Justified env stream (log.take i) p)
    (hq : Justified env stream log q) :
    ∀ i p, n ≤ i → (log ++ [FlashOp.set_boot q])[i]? = some (FlashOp.set_boot p) →
      Justified env stream ((log ++ [FlashOp.set_boot q]).take i) p := by
  intro i p hn hi
  by_cases hlt : i < log.length
  · rw [List.getElem?_append_left hlt] at hi
    rw [List.take_append_of_le_length (Nat.le_of_lt hlt)]
    exact hJ i p hn hi
  · have hge := Nat.le_of_not_lt hlt
    rw [List.getElem?_append_right hge] at hi
    have hidx : i - log.length = 0 := by
      by_contra hne
      have : ([FlashOp.set_boot q] : List FlashOp)[i - log.length]? = none :=
        List.getElem?_eq_none (by simp; omega)
      rw [this] at hi
      cases hi
    rw [hidx] at hi
    simp only [List.getElem?_cons_zero, Option.some.injEq, FlashOp.set_boot.injEq] at hi
    have hil : i = log.length := by omega
    rw [hil, List.take_left, ← hi]
    exact hq

theorem stream_inv_keep {env : Env} {sb : updater_t} {wb : World} {stream : List Nat} {j : Nat}
    {s : updater_t} {w : World} (h : StreamInv env sb wb stream j s w)
    (hc : s.status ≠ .stNoError ∨ s.buffer = none) :
    StreamInv env sb wb stream (j + 1) s w := by
  refine ⟨h.1, fun hp => ?_, fun hst hb _ => ?_⟩
  · obtain ⟨h0, hlt, hin⟩ := h.2.1 hp
    exact ⟨h0, Nat.lt_succ_of_lt hlt, hin⟩
  · rcases hc with hc | hc
    · exact absurd hst hc
    · exact absurd hc hb

theorem lockstep_arith {rc P S k : Nat} (h8 : rc * SPI_FLASH_SEC_SIZE + P = S)
    (h6 : P = SPI_FLASH_SEC_SIZE * k) (hlt : P < S) (hu : S < U32) :
    P % SPI_FLASH_SEC_SIZE = 0 ∧ S % SPI_FLASH_SEC_SIZE = 0 ∧
    ((rc + U32 - 1) % U32 = 0 → P + SPI_FLASH_SEC_SIZE = S) ∧
    ((rc + U32 - 1) % U32 ≠ 0 → P + SPI_FLASH_SEC_SIZE < S) ∧
    (rc + U32 - 1) % U32 * SPI_FLASH_SEC_SIZE + (P + SPI_FLASH_SEC_SIZE) = S ∧
    P + SPI_FLASH_SEC_SIZE = SPI_FLASH_SEC_SIZE * (k + 1) := by
  unfold SPI_FLASH_SEC_SIZE U32 at *
  omega

/-- One block preserves the stream invariant. -/
theorem stream_inv_step {env : Env} {sb : updater_t} {wb : World} {stream : List Nat} {j : Nat}
    {sj s' : updater_t} {wj w' : World}
    (hj : SPI_FLASH_SEC_SIZE * (j + 1) ≤ stream.length)
    (hrun : run_blocks env sb wb stream j = some (sj, wj))
    (hinv : StreamInv env sb wb stream j sj wj)
    (hst : sj.status = .stNoError) (hbne : sj.buffer ≠ none)
    (hstep : updater_t.process_block env { sj with buffer := some (block_at stream j) } wj
      = some (s', w')) :
    StreamInv env sb wb stream (j + 1) s' w' := by
  have hbl := block_at_length stream j hj
  have hbuf : ({ sj with buffer := some (block_at stream j) } : updater_t).buffer
      = some (block_at stream j) := rfl
  cases hp : sj.phase with
  | phBegin =>
    rw [process_block_phBegin env wj hbuf hbl hp] at hstep
    split at hstep <;>
      (simp only [Option.some.injEq, Prod.mk.injEq] at hstep
       obtain ⟨h1, h2⟩ := hstep
       subst h1; subst h2
       refine ⟨hinv.1, fun h => ?_, fun _ _ h => ?_⟩
       · simp only [hp] at h; cases h
       · simp only [hp] at h; cases h)
  | phHeader =>
    obtain ⟨hw, hcase⟩ := header_step_cases hbuf hbl hp hstep
    subst hw
    rcases hcase with ⟨-, hph⟩ | ⟨hm, ha, -, hty, f1, hbeg, hs'⟩
    · refine ⟨hinv.1, fun h => ?_, fun _ _ h => ?_⟩
      · rw [hph] at h; cases h
      · rw [hph] at h; cases h
    · subst hs'
      obtain ⟨-, p, hnp, -, hf1⟩ := begin_true hbeg
      refine ⟨hinv.1, fun _ => ⟨j, Nat.lt_succ_self j, sj, w', hrun, hp, hst, hm, rfl, rfl, [],
        by simp, by simp⟩, fun _ _ _ => ⟨j, 0, w'.log, p, rfl, hm, rfl, ?_, ?_, ?_, ?_, ?_, ?_, ?_,
        ?_, ?_, ?_⟩⟩
      · simp only [hf1]
      · simp only [hf1]; exact hty
      · simp only [hf1]
      · simp only [hf1, Nat.mul_zero]
      · simp only [hf1, content_of_zero]; rfl
      · simp only [hf1, Nat.add_zero]
        exact Nat.div_mul_cancel (Nat.dvd_of_mod_eq_zero ha)
      · simp only [hf1]
      · simp only [hf1]; exact hnp
      · simp only [content_ops, List.append_nil]
      · intro i h1 h2; omega
  | phContent =>
    obtain ⟨h0, hlt0, sh, wh, t1, t2, t3, t4, t5, t6, ops0, t7, t8⟩ := hinv.2.1 hp
    have hframe : ∀ {f1 : partition_updater_t} {w1 : World} {r : Bool},
        sj.partition_updater.write_sector env wj (block_at stream j) = some (f1, w1, r) →
        ∀ s1 : updater_t, s1.header = sj.header →
          (∀ i p, wb.log.length ≤ i → w1.log[i]? = some (FlashOp.set_boot p) →
            Justified env stream (w1.log.take i) p) ∧
          (∃ h, h < j + 1 ∧ InTarget env sb wb stream s1 w1 h) := by
      intro f1 w1 r hws s1 hhdr
      obtain ⟨-, -, hboot, ⟨ops, hlog, hops⟩, -⟩ := write_sector_frame hws
      refine ⟨?_, h0, Nat.lt_succ_of_lt hlt0, sh, wh, t1, t2, t3, t4, by rw [hhdr]; exact t5,
        by rw [hboot]; exact t6, ops0 ++ ops, by rw [hlog, t7, List.append_assoc], ?_⟩
      · rw [hlog]
        exact justified_extend_storage hinv.1 hops
      · intro op hop
        rcases List.mem_append.mp hop with h | h
        · exact t8 op h
        · exact hops op h
    obtain ⟨h, k, before, part, hjk, r1, r2, r3, r4, r5, r6, r7, r8, r9, r10, r11, r12⟩ :=
      hinv.2.2 hst hbne hp
    have hsu : sj.partition_updater._size < U32 := by
      rw [r5, r2]; exact read_header_arc_len_lt env _
    have hblk : block_at stream (h + 1 + k) = block_at stream j := by rw [hjk]
    have htake : (block_at stream j).take SPI_FLASH_SEC_SIZE = block_at stream j :=
      List.take_of_length_le (Nat.le_of_eq hbl)
    rcases content_step_cases hbuf hbl hp hstep with
      ⟨f1, hws, hs'⟩ | ⟨f1, hws, hrc, hs'⟩ | ⟨f1, hws, hrc, -, hs'⟩ | ⟨f1, w1, hws, hrc, hmd, hw', hs'⟩
    · subst hs'
      obtain ⟨hJ, hT⟩ := hframe hws _ rfl
      exact ⟨hJ, fun _ => hT, fun h _ _ => by cases h⟩
    · subst hs'
      obtain ⟨hJ, hT⟩ := hframe hws _ rfl
      refine ⟨hJ, fun _ => hT, fun _ _ _ => ?_⟩
      simp only at hrc
      obtain ⟨-, hlt, -⟩ := write_sector_true hws
      obtain ⟨e1, e2, e3, e4, -, e6, -, -⟩ := write_sector_true_fields hws
      obtain ⟨q1, q2, -, q4, q5, q6⟩ := lockstep_arith r8 r6 hlt hsu
      obtain ⟨a1, -, -⟩ := aligned_step q1 q2 hlt hsu
      rw [a1] at e4
      obtain ⟨io1, io2, hlog, -⟩ := write_sector_true_log hws r9
      have hlog1 := hlog (by rw [e4]; exact q4 hrc)
      refine ⟨h, k + 1, before, part, by omega, r1, r2, ?_, ?_, ?_, ?_, ?_, ?_, ?_, ?_, ?_, ?_⟩
      · simp only [e1]; exact r3
      · simp only [e1]; exact r4
      · simp only [e2]; exact r5
      · simp only [e4]; exact q6
      · simp only [e6, htake, r7, content_of_succ, hblk]
      · simp only [e4, e2]; exact q5
      · simp only [e3]; exact r9
      · simp only [e1]; exact r10
      · rw [hlog1, r11, content_ops, hblk, r6, List.append_assoc]
      · intro i h1 h2
        rw [hlog1] at h2
        simp only [sector_ops, List.length_append, List.length_cons, List.length_nil] at h2
        by_cases hi : i < wj.log.length
        · exact r12 i h1 hi
        · have : i = wj.log.length ∨ i = wj.log.length + 1 := by omega
          rcases this with h | h
          · rw [h]; exact io1
          · rw [h]; exact io2
    · subst hs'
      obtain ⟨hJ, hT⟩ := hframe hws _ rfl
      exact ⟨hJ, fun _ => hT, fun h _ _ => by cases h⟩
    · subst hs'
      subst hw'
      obtain ⟨hJ, -⟩ := hframe hws sj rfl
      refine ⟨?_, fun h => (by cases h), fun _ _ h => (by cases h)⟩
      simp only at hrc
      obtain ⟨-, hlt, -⟩ := write_sector_true hws
      obtain ⟨e1, e2, e3, e4, -, e6, e7, -⟩ := write_sector_true_fields hws
      obtain ⟨q1, q2, q3, -, -, q6⟩ := lockstep_arith r8 r6 hlt hsu
      obtain ⟨a1, -, -⟩ := aligned_step q1 q2 hlt hsu
      rw [a1] at e4
      have hdone : f1._progress = f1._size := by rw [e4, e2]; exact q3 hrc
      by_cases hcode : f1._type = .utCode
      · rw [activate_code env f1 w1 hcode hdone, set_boot_log]
        refine justified_extend_boot hJ ?_
        obtain ⟨io1, io2, -, hlog⟩ := write_sector_true_log hws r9
        obtain ⟨io3, io4, patch, hlog1⟩ := hlog (by rw [hdone, e2])
        have hbuf1 : f1._md5.buf = env.md5sum (content_of stream h (k + 1)) := by
          rw [e7 (by rw [hdone, e2]), e6, htake, r7, content_of_succ, hblk]
        have hmd5 := hmd
        rw [match_md5_eq f1 _ (by rw [e1]; exact r4) hdone, hbuf1, decide_eq_true_eq, r2] at hmd5
        refine ⟨h, k + 1, part, patch, before, ⟨Nat.succ_le_succ (Nat.zero_le k), ?_, r1, ?_, ?_,
          hmd5, ?_⟩, by rw [e3]; exact r9, ?_, ?_⟩
        · have : h + 1 + (k + 1) = j + 1 := by omega
          rw [this]; exact hj
        · rw [← r2, ← type_of_label_code, ← r3, ← e1]; exact hcode
        · rw [← r2, ← r5, ← e2, ← hdone, e4]; exact q6
        · rw [← hcode, e1]; exact r10
        · rw [hlog1, r11, content_ops, hblk, r6]
          simp only [List.append_assoc]
        · intro i h1 h2
          rw [hlog1] at h2
          simp only [sector_ops, List.length_append, List.length_cons, List.length_nil] at h2
          by_cases hi : i < wj.log.length
          · exact r12 i h1 hi
          · have : i = wj.log.length ∨ i = wj.log.length + 1 ∨ i = wj.log.length + 2
                ∨ i = wj.log.length + 3 := by omega
            rcases this with h | h | h | h
            · rw [h]; exact io1
            · rw [h]; exact io2
            · rw [h]; exact io3
            · rw [h]; exact io4
      · rw [activate_not_code env f1 w1 hcode]
        exact hJ

/-- The stream invariant holds after every whole number of blocks. -/
theorem stream_inv (env : Env) (sb : updater_t) (wb : World) (stream : List Nat)
    (hi : Inv sb) (hpos : sb.buffer_pos = 0) (hph : sb.phase = .phBegin) :
    ∀ j, SPI_FLASH_SEC_SIZE * j ≤ stream.length →
      ∀ sj wj, run_blocks env sb wb stream j = some (sj, wj) →
        StreamInv env sb wb stream j sj wj := by
  intro j
  induction j with
  | zero =>
    intro _ sj wj h
    simp only [run_blocks, Option.some.injEq, Prod.mk.injEq] at h
    obtain ⟨h1, h2⟩ := h
    subst h1; subst h2
    refine ⟨fun i p hle hget => ?_, fun h => ?_, fun _ _ h => ?_⟩
    · rw [List.getElem?_eq_none hle] at hget; cases hget
    · rw [hph] at h; cases h
    · rw [hph] at h; cases h
  | succ j ih =>
    intro hj sj wj h
    have hj' : SPI_FLASH_SEC_SIZE * j ≤ stream.length := by
      rw [Nat.mul_add] at hj; omega
    obtain ⟨s1, w1, h1, -, -, -⟩ := run_blocks_eq env sb wb stream hi hpos j hj'
    have hinv := ih hj' s1 w1 h1
    simp only [run_blocks, h1] at h
    by_cases hc : s1.status ≠ .stNoError ∨ s1.buffer = none
    · rw [if_pos hc] at h
      simp only [Option.some.injEq, Prod.mk.injEq] at h
      obtain ⟨h2, h3⟩ := h
      subst h2; subst h3
      exact stream_inv_keep hinv hc
    · rw [if_neg hc] at h
      have hst : s1.status = .stNoError := by
        by_contra hx; exact hc (Or.inl hx)
      have hb : s1.buffer ≠ none := fun hx => hc (Or.inr hx)
      exact stream_inv_step hj h1 hinv hst hb h

/-- The state `write_chunks` returns from `begin()`, read block-wise. -/
theorem write_chunks_blocks (env : Env) (s0 : updater_t) (w0 : World) (chunks : List (List Nat))
    (h0 : ∀ b, s0.buffer = some b → b.length = SPI_FLASH_SEC_SIZE) {s : updater_t} {w : World}
    (hrun : write_chunks env (updater_t.begin env s0 w0).1 (updater_t.begin env s0 w0).2 chunks
      = some (s, w)) :
    ∃ sj, run_blocks env (updater_t.begin env s0 w0).1 (updater_t.begin env s0 w0).2
        chunks.flatten (chunks.flatten.length / SPI_FLASH_SEC_SIZE) = some (sj, w) ∧
      s.phase = sj.phase ∧ s.status = sj.status ∧ s.header = sj.header ∧
      StreamInv env (updater_t.begin env s0 w0).1 (updater_t.begin env s0 w0).2 chunks.flatten
        (chunks.flatten.length / SPI_FLASH_SEC_SIZE) sj w := by
  have hi := begin_inv env s0 w0 h0
  have hf := begin_fields env s0 w0
  rw [write_chunks_eq_write_data env chunks _ _ hi] at hrun
  obtain ⟨sj, wj, sf, h1, h2, h3, h4, -, h6, -⟩ :=
    write_data_whole env _ (updater_t.begin env s0 w0).2 chunks.flatten hi hf.1
  rw [hrun] at h2
  simp only [Option.some.injEq, Prod.mk.injEq] at h2
  obtain ⟨e1, e2⟩ := h2
  subst e1; subst e2
  exact ⟨sj, h1, h3, h4, h6,
    stream_inv env _ _ chunks.flatten hi hf.1 hf.2.2.1 _ (Nat.mul_div_le _ _) sj w h1⟩

/-- C2 (activation only after verification).  After `begin()`, for every
stream in every chunking, every boot-partition switch recorded in the operation
log is justified by the stream: the stream contains a header block with a
valid marker whose label is `"app"`, followed by exactly
`archived_length / 4096 ≥ 1` content blocks whose MD5 digest equals the
header's `content_hash`; the operations issued right before the switch are the
erase/write pairs of all these blocks in order and the first-byte patch, every
one of them successful; and the switch targets the region resolved for
`Code`.  Hence no switch is ever issued for an incomplete, mismatched or
non-`Code` target. -/
theorem activation_only_after_verification (env : Env) (s0 : updater_t) (w0 : World)
    (chunks : List (List Nat)) (s : updater_t) (w : World)
    (h0 : ∀ b, s0.buffer = some b → b.length = SPI_FLASH_SEC_SIZE)
    (hrun : write_chunks env (updater_t.begin env s0 w0).1 (updater_t.begin env s0 w0).2 chunks
      = some (s, w)) :
    ∀ i p, w0.log.length ≤ i → w.log[i]? = some (FlashOp.set_boot p) →
      Justified env chunks.flatten (w.log.take i) p := by
  obtain ⟨sj, -, -, -, -, hinv⟩ := write_chunks_blocks env s0 w0 chunks h0 hrun
  intro i p hi hget
  exact hinv.1 i p (by rw [(begin_fields env s0 w0).2.2.2.2.2.2.1]; exact hi) hget

/-- C8 (premature truncation).  After `begin()`, for every stream in every
chunking that ends in phase `phContent` (in particular with
`remaining_count > 0`): `finish()` returns false, and for the header block `h`
of the target being received, which was accepted in phase `phHeader`, the boot
pointer is the one the platform had before that header was processed and only
storage operations (no boot-partition switch) were issued since. -/
theorem premature_truncation (env : Env) (s0 : updater_t) (w0 : World)
    (chunks : List (List Nat)) (s : updater_t) (w : World)
    (h0 : ∀ b, s0.buffer = some b → b.length = SPI_FLASH_SEC_SIZE)
    (hrun : write_chunks env (updater_t.begin env s0 w0).1 (updater_t.begin env s0 w0).2 chunks
      = some (s, w))
    (hph : s.phase = .phContent) :
    (updater_t.finish s).2 = false ∧
    ∃ h sh wh, SPI_FLASH_SEC_SIZE * (h + 1) ≤ chunks.flatten.length ∧
      updater_t.write_data env (updater_t.begin env s0 w0).1 (updater_t.begin env s0 w0).2
        (chunks.flatten.take (SPI_FLASH_SEC_SIZE * h)) = some (sh, wh) ∧
      sh.phase = .phHeader ∧ sh.status = .stNoError ∧
      (block_at chunks.flatten h).take 16 = FILE_BOUNDARY ∧
      s.header = read_header env (block_at chunks.flatten h) ∧
      w.boot = wh.boot ∧
      ∃ ops, w.log = wh.log ++ ops ∧ ∀ op ∈ ops, op.is_storage = true := by
  obtain ⟨sj, -, e1, -, e3, hinv⟩ := write_chunks_blocks env s0 w0 chunks h0 hrun
  refine ⟨finish_false_of_phase (by rw [hph]; decide), ?_⟩
  obtain ⟨h, hlt, sh, wh, t1, t2, t3, t4, t5, t6, t7⟩ := hinv.2.1 (by rw [← e1]; exact hph)
  have hle : SPI_FLASH_SEC_SIZE * (h + 1) ≤ chunks.flatten.length :=
    Nat.le_trans (Nat.mul_le_mul_left _ hlt) (Nat.mul_div_le _ _)
  have hle' : SPI_FLASH_SEC_SIZE * h ≤ chunks.flatten.length := by
    rw [Nat.mul_add] at hle; omega
  obtain ⟨sh', wh', u1, u2, -, -⟩ := run_blocks_eq env _ (updater_t.begin env s0 w0).2
    chunks.flatten (begin_inv env s0 w0 h0) (begin_fields env s0 w0).1 h hle'
  rw [t1] at u1
  simp only [Option.some.injEq, Prod.mk.injEq] at u1
  obtain ⟨v1, v2⟩ := u1
  subst v1; subst v2
  exact ⟨h, sh, wh, hle, u2, t2, t3, t4, by rw [e3]; exact t5, t6, t7⟩

/-- From `begin()` on a platform whose heap does not fail, a first block with
the archive magic takes the processor to `phHeader`. -/
theorem magic_accept (env : Env) (s0 : updater_t) (w0 : World) (magic rest : List Nat)
    (h0 : ∀ b, s0.buffer = some b → b.length = SPI_FLASH_SEC_SIZE)
    (hmal : ∀ i, env.malloc_ok i = true)
    (hm : magic.length = SPI_FLASH_SEC_SIZE) (hmagic : magic.take 32 = ARCHIVE_MAGIC) :
    updater_t.write_data env (updater_t.begin env s0 w0).1 (updater_t.begin env s0 w0).2
        (magic ++ rest) =
      updater_t.write_data env
        { (updater_t.begin env s0 w0).1 with buffer := some magic, phase := .phHeader }
        (updater_t.begin env s0 w0).2 rest := by
  have hi := begin_inv env s0 w0 h0
  have hf := begin_fields env s0 w0
  obtain ⟨b, hb⟩ := Option.ne_none_iff_exists'.mp (begin_buffer_some env s0 w0 hmal)
  rw [write_data_block env _ magic rest hf.2.2.2.1 hb (hi.2.1 b hb) hf.1 hm,
    process_block_phBegin env _ (s := { (updater_t.begin env s0 w0).1 with buffer := some magic })
      rfl hm hf.2.2.1]
  simp only [hmagic, ne_eq, not_true_eq_false, ↓reduceIte]

/-- A well-formed header is accepted: the session is opened and the processor
enters `phContent`. -/
theorem header_accept (env : Env) (s : updater_t) (w : World) (hdr c : List Nat)
    (p : esp_partition_t) (hph : s.phase = .phHeader) (hv : ValidTarget env hdr c p) :
    updater_t.process_block env { s with buffer := some hdr } w =
      some ({ s with buffer := some hdr, header := read_header env hdr,
                     partition_updater :=
                       { _type := type_of_label (read_header env hdr).label,
                         _size := (read_header env hdr).arc_len, _progress := 0,
                         _partition := some p,
                         _first_byte := s.partition_updater._first_byte,
                         _md5 := s.partition_updater._md5.begin },
                     remaining_count := (read_header env hdr).arc_len / SPI_FLASH_SEC_SIZE,
                     phase := .phContent }, w) := by
  obtain ⟨v1, v2, v3, v4, -, v6, -, v8, v9, -⟩ := hv
  rw [process_block_phHeader env w (s := { s with buffer := some hdr }) rfl v1 hph]
  simp only [v2, ne_eq, not_true_eq_false, ↓reduceIte, gt_iff_lt, Nat.not_lt.mpr v4, v6,
    or_self, v3, begin_eq_true env s.partition_updater v6 v8 v9]

theorem exists_set_boot_of_switches {log : List FlashOp} (h : 0 < boot_switches log) :
    ∃ (i : Nat) (p : Option esp_partition_t), log[i]? = some (FlashOp.set_boot p) := by
  unfold boot_switches at h
  obtain ⟨op, hmem, hop⟩ := List.countP_pos_iff.mp h
  obtain ⟨i, hi⟩ := List.mem_iff_getElem?.mp hmem
  cases op with
  | set_boot p => exact ⟨i, p, hi⟩
  | erase _ => simp [FlashOp.is_storage] at hop
  | write _ _ => simp [FlashOp.is_storage] at hop
  | read _ _ => simp [FlashOp.is_storage] at hop

theorem sample_single_target_run :
    ∃ s w,
      write_chunks sample_env (updater_t.begin sample_env idle_updater sample_world).1
        (updater_t.begin sample_env idle_updater sample_world).2
        [sample_magic ++ sample_header LABEL_app, sample_block] = some (s, w) ∧
      boot_switches w.log = 1 := by
  have h0 : ∀ b, idle_updater.buffer = some b → b.length = SPI_FLASH_SEC_SIZE :=
    fun b hb => (by cases hb)
  have hi := begin_inv sample_env idle_updater sample_world h0
  have hf := begin_fields sample_env idle_updater sample_world
  obtain ⟨s1, w1, hrun1, -, -, -, -, a6, -⟩ := target_run_ok sample_env (fun _ => rfl)
    (fun _ => rfl)
    { (updater_t.begin sample_env idle_updater sample_world).1 with
        buffer := some sample_magic, phase := .phHeader }
    (updater_t.begin sample_env idle_updater sample_world).2 sample_magic
    (sample_header LABEL_app) sample_block { address := 0x10000, size := 0x100000 }
    hf.2.2.2.1 rfl sample_magic_length hf.1 rfl sample_target_app
  refine ⟨s1, w1, ?_, ?_⟩
  · rw [write_chunks_eq_write_data sample_env _ _ _ hi]
    have hfl : [sample_magic ++ sample_header LABEL_app, sample_block].flatten
        = sample_magic ++ (sample_header LABEL_app ++ sample_block ++ []) := by
      simp only [List.flatten_cons, List.flatten_nil, List.append_assoc, List.append_nil]
    rw [hfl, magic_accept sample_env idle_updater sample_world sample_magic _ h0 (fun _ => rfl)
      sample_magic_length (by decide), hrun1]
    exact write_data_of_nil sample_env s1 w1
  · rw [a6, hf.2.2.2.2.2.2.1]
    have ha : is_app sample_env (sample_header LABEL_app) := by decide
    simp only [ha, ↓reduceIte]
    rfl

/-- C2, at a concrete input: one `app` target of one block; the log holds a
boot switch, which is justified by the stream. -/
theorem activation_only_after_verification_witness :
    (∀ b, idle_updater.buffer = some b → b.length = SPI_FLASH_SEC_SIZE) ∧
    ∃ s w i p,
      write_chunks sample_env (updater_t.begin sample_env idle_updater sample_world).1
        (updater_t.begin sample_env idle_updater sample_world).2
        [sample_magic ++ sample_header LABEL_app, sample_block] = some (s, w) ∧
      sample_world.log.length ≤ i ∧ w.log[i]? = some (FlashOp.set_boot p) ∧
      Justified sample_env [sample_magic ++ sample_header LABEL_app, sample_block].flatten
        (w.log.take i) p := by
  refine ⟨fun b hb => (by cases hb), ?_⟩
  obtain ⟨s, w, hrun, hbs⟩ := sample_single_target_run
  obtain ⟨i, p, hget⟩ := exists_set_boot_of_switches (by rw [hbs]; decide : 0 < boot_switches w.log)
  exact ⟨s, w, i, p, hrun, Nat.zero_le i, hget,
    activation_only_after_verification sample_env idle_updater sample_world _ s w
      (fun b hb => (by cases hb)) hrun i p (Nat.zero_le i) hget⟩

theorem sample_truncated_run :
    ∃ s w,
      write_chunks sample_env (updater_t.begin sample_env idle_updater sample_world).1
        (updater_t.begin sample_env idle_updater sample_world).2
        [sample_magic ++ sample_header LABEL_app, [1, 2, 3]] = some (s, w) ∧
      s.phase = .phContent ∧ s.remaining_count = 1 := by
  have h0 : ∀ b, idle_updater.buffer = some b → b.length = SPI_FLASH_SEC_SIZE :=
    fun b hb => (by cases hb)
  have hi := begin_inv sample_env idle_updater sample_world h0
  have hf := begin_fields sample_env idle_updater sample_world
  have hhl := sample_header_length LABEL_app rfl
  rw [write_chunks_eq_write_data sample_env _ _ _ hi]
  have hfl : [sample_magic ++ sample_header LABEL_app, [1, 2, 3]].flatten
      = sample_magic ++ (sample_header LABEL_app ++ [1, 2, 3]) := by
    simp only [List.flatten_cons, List.flatten_nil, List.append_assoc, List.append_nil]
  rw [hfl, magic_accept sample_env idle_updater sample_world sample_magic _ h0 (fun _ => rfl)
      sample_magic_length (by decide),
    write_data_block sample_env _
      (s := { (updater_t.begin sample_env idle_updater sample_world).1 with
        buffer := some sample_magic, phase := .phHeader })
      (sample_header LABEL_app) [1, 2, 3] hf.2.2.2.1 rfl sample_magic_length hf.1 hhl]
  have hacc := header_accept sample_env
    { (updater_t.begin sample_env idle_updater sample_world).1 with
        buffer := some sample_magic, phase := .phHeader }
    (updater_t.begin sample_env idle_updater sample_world).2 (sample_header LABEL_app)
    sample_block { address := 0x10000, size := 0x100000 } rfl sample_target_app
  simp only at hacc
  rw [hacc]
  simp only
  obtain ⟨b', hb'⟩ := write_data_tail sample_env (updater_t.begin sample_env idle_updater sample_world).2
    (s := { (updater_t.begin sample_env idle_updater sample_world).1 with
        buffer := some (sample_header LABEL_app),
        header := read_header sample_env (sample_header LABEL_app),
        partition_updater :=
          { _type := type_of_label (read_header sample_env (sample_header LABEL_app)).label,
            _size := (read_header sample_env (sample_header LABEL_app)).arc_len, _progress := 0,
            _partition := some { address := 0x10000, size := 0x100000 },
            _first_byte := (updater_t.begin sample_env idle_updater sample_world).1.partition_updater._first_byte,
            _md5 := (updater_t.begin sample_env idle_updater sample_world).1.partition_updater._md5.begin },
        remaining_count :=
          (read_header sample_env (sample_header LABEL_app)).arc_len / SPI_FLASH_SEC_SIZE,
        phase := .phContent })
    [1, 2, 3] hf.2.2.2.1 rfl hhl (by simp only [hf.1]; decide)
  refine ⟨_, _, hb', rfl, ?_⟩
  show (read_header sample_env (sample_header LABEL_app)).arc_len / SPI_FLASH_SEC_SIZE = 1
  decide

/-- C8, at a concrete input: the stream stops three bytes into the content of
an `app` target. -/
theorem premature_truncation_witness :
    (∀ b, idle_updater.buffer = some b → b.length = SPI_FLASH_SEC_SIZE) ∧
    ∃ s w,
      write_chunks sample_env (updater_t.begin sample_env idle_updater sample_world).1
        (updater_t.begin sample_env idle_updater sample_world).2
        [sample_magic ++ sample_header LABEL_app, [1, 2, 3]] = some (s, w) ∧
      s.phase = .phContent ∧ 0 < s.remaining_count ∧
      (updater_t.finish s).2 = false := by
  refine ⟨fun b hb => (by cases hb), ?_⟩
  obtain ⟨s, w, hrun, hph, hrc⟩ := sample_truncated_run
  exact ⟨s, w, hrun, hph, by rw [hrc]; decide,
    (premature_truncation sample_env idle_updater sample_world _ s w
      (fun b hb => (by cases hb)) hrun hph).1⟩

theorem starved_target_app :
    ValidTarget starved_env (sample_header LABEL_app) sample_block
      { address := 0x10000, size := 0x100000 } :=
  ⟨sample_header_length LABEL_app rfl, by decide, by decide, by decide, by decide, by decide,
    by rw [sample_block_length]; decide, by decide, by decide, by decide⟩

theorem starved_target_font :
    ValidTarget starved_env (sample_header LABEL_font) sample_block
      { address := 0x10000, size := 0x100000 } :=
  ⟨sample_header_length LABEL_font rfl, by decide, by decide, by decide, by decide, by decide,
    by rw [sample_block_length]; decide, by decide, by decide, by decide⟩

/-- C9 as stated fails: on a platform where every storage and boot-control
primitive succeeds but the heap is exhausted, `begin()` leaves the receive
buffer null, `write_data` discards the stream (a magic block and two
well-formed targets), the processor stays in `phBegin`, no boot switch is made
and `finish()` returns false. -/
theorem multi_target_fails_on_exhausted_heap :
    (∀ i, starved_env.io_ok i = true) ∧
    sample_magic.take 32 = ARCHIVE_MAGIC ∧
    ValidTarget starved_env (sample_header LABEL_app) sample_block
      { address := 0x10000, size := 0x100000 } ∧
    ValidTarget starved_env (sample_header LABEL_font) sample_block
      { address := 0x10000, size := 0x100000 } ∧
    ∃ s w,
      write_chunks starved_env (updater_t.begin starved_env idle_updater sample_world).1
        (updater_t.begin starved_env idle_updater sample_world).2
        [sample_magic ++ sample_header LABEL_app ++ sample_block
          ++ sample_header LABEL_font ++ sample_block] = some (s, w) ∧
      s.phase = .phBegin ∧ (updater_t.finish s).2 = false ∧ boot_switches w.log = 0 := by
  refine ⟨fun _ => rfl, by decide, starved_target_app, starved_target_font, ?_⟩
  have h0 : ∀ b, idle_updater.buffer = some b → b.length = SPI_FLASH_SEC_SIZE :=
    fun b hb => (by cases hb)
  have hi := begin_inv starved_env idle_updater sample_world h0
  have hf := begin_fields starved_env idle_updater sample_world
  have hnull : (updater_t.begin starved_env idle_updater sample_world).1.buffer = none := by
    rw [hf.2.2.2.2.2.2.2.2.2]
    rfl
  refine ⟨(updater_t.begin starved_env idle_updater sample_world).1,
    (updater_t.begin starved_env idle_updater sample_world).2, ?_, hf.2.2.1, ?_, ?_⟩
  · rw [write_chunks_eq_write_data starved_env _ _ _ hi]
    exact write_data_of_null _ _ hnull
  · exact finish_false_of_phase (by rw [hf.2.2.1]; decide)
  · rw [hf.2.2.2.2.2.2.1]
    rfl

theorem begin_result_iff (env : Env) (f : partition_updater_t) (type : update_type_t)
    (size : Nat) :
    (f.begin env type size).2 = true ↔
      size % SPI_FLASH_SEC_SIZE = 0 ∧
      ∃ p, next_partition_from_type env type = some p ∧ size ≤ p.size := by
  constructor
  · intro h
    have h2 : f.begin env type size = ((f.begin env type size).1, true) := by
      rw [← h]
    obtain ⟨ha, p, hp, hs, -⟩ := begin_true h2
    exact ⟨ha, p, hp, hs⟩
  · rintro ⟨ha, p, hp, hs⟩
    rw [begin_eq_true env f ha hp hs]

theorem process_block_header_world {env : Env} {s s' : updater_t} {w w' : World}
    (hp : s.phase = .phHeader) (h : updater_t.process_block env s w = some (s', w')) :
    w' = w := by
  cases hb : s.buffer with
  | none => simp [updater_t.process_block, hb] at h
  | some b =>
    by_cases hl : b.length = SPI_FLASH_SEC_SIZE
    · rw [process_block_phHeader env w hb hl hp] at h
      repeat' split at h
      all_goals (injection h with h; injection h with h1 h2; exact h2.symm)
    · simp [updater_t.process_block, hb, hl] at h

/-- C11: `partition_updater_t::begin(type, size)` returns true exactly when
`size` is a multiple of the block size, a region is resolved for `type` and the
capacity of that region is at least `size`; in particular it returns false
whenever `size` exceeds the capacity of the resolved region.  `begin` has no
access to the storage primitives: the step of the stream processor that calls
it (a block received in phase `phHeader`) leaves the platform state, and with
it the operation log and the flash contents, exactly as it was. -/
theorem begin_contract (env : Env) (f : partition_updater_t) (type : update_type_t)
    (size : Nat) :
    ((f.begin env type size).2 = true ↔
      size % SPI_FLASH_SEC_SIZE = 0 ∧
      ∃ p, next_partition_from_type env type = some p ∧ size ≤ p.size) ∧
    (∀ p, next_partition_from_type env type = some p → p.size < size →
      (f.begin env type size).2 = false) ∧
    (∀ (s s' : updater_t) (w w' : World), s.phase = .phHeader →
      updater_t.process_block env s w = some (s', w') → w' = w) := by
  refine ⟨begin_result_iff env f type size, ?_, ?_⟩
  · intro p hp hlt
    cases hr : (f.begin env type size).2 with
    | false => rfl
    | true =>
      obtain ⟨-, q, hq, hs⟩ := (begin_result_iff env f type size).mp hr
      rw [hp] at hq
      injection hq with hq
      subst hq
      omega
  · intro s s' w w' hp h
    exact process_block_header_world hp h

/-- C13: `write_sector` on a session that is already fully written
(`_progress >= _size`) returns false and gives back the session and the
platform state it was called with: no erase, write or read is issued, and
`_progress`, the hash accumulator and `_type` are unchanged. -/
theorem write_sector_already_done (env : Env) (f : partition_updater_t) (w : World)
    (buf : List Nat) (h : f._size ≤ f._progress) :
    f.write_sector env w buf = some (f, w, false) := by
  unfold partition_updater_t.write_sector
  by_cases ht : f._type = .utUnknown
  · simp [ht]
  · simp [ht, h]

/-- C13 at a concrete input: a one-block session whose block has been written. -/
theorem write_sector_already_done_witness :
    done_session.write_sector sample_env sample_world sample_block
      = some (done_session, sample_world, false) :=
  write_sector_already_done sample_env done_session sample_world sample_block (by decide)

/-- C12, evaluated on the code: on `sample_env` the call `begin(utCode, 0x200000)`
returns false (the region holds `0x100000` bytes), and the `write_sector` call
that follows it nevertheless erases sector 16, writes the block at `0x10000`
and returns true.  A session on which `begin` was never called, or whose last
`write_sector` failed on a primitive (`_type == utUnknown`), is refused without
any operation. -/
theorem write_sector_after_failed_begin :
    idle_flasher.begin sample_env .utCode 0x200000 = (oversized_session, false) ∧
    (∃ f w, oversized_session.write_sector sample_env sample_world sample_block
        = some (f, w, true) ∧
      w.log = [FlashOp.erase 16, FlashOp.write 0x10000 (flash_image 0 sample_block)]) ∧
    (∀ (env : Env) (f : partition_updater_t) (w : World) (buf : List Nat),
      f._type = .utUnknown → f.write_sector env w buf = some (f, w, false)) := by
  refine ⟨by decide, ?_, ?_⟩
  · obtain ⟨f, w, h⟩ := write_sector_ok sample_env oversized_session sample_world sample_block
      (by decide) (by decide) (by decide) (Nat.le_of_eq sample_block_length.symm) rfl
      (fun _ _ => rfl)
    refine ⟨f, w, h, ?_⟩
    have hf := write_sector_true_fields h
    have hl := write_sector_true_log h
      (show oversized_session._partition = some { address := 0x10000, size := 0x100000 } from rfl)
    have hp : f._progress < oversized_session._size := by
      rw [hf.2.2.2.1]; decide
    rw [hl.2.2.1 hp]
    rfl
  · intro env f w buf ht
    unfold partition_updater_t.write_sector
    simp [ht]

theorem take_eq_take_iff (n : Nat) (a b : List Nat) :
    a.take n = b.take n ↔ ∀ i, i < n → a[i]? = b[i]? := by
  constructor
  · intro h i hi
    have := congrArg (fun l => l[i]?) h
    simpa [List.getElem?_take, hi] using this
  · intro h
    apply List.ext_getElem?
    intro i
    by_cases hi : i < n
    · simp [List.getElem?_take, hi, h i hi]
    · simp [List.getElem?_take, hi]

/-- C14: `match_md5` fails closed.  It returns false for every expected hash
when the session is not begun (`_type == utUnknown`) or when the number of
bytes written differs from the expected size (`_progress != _size`).  On a
begun and complete session it returns true exactly when each of the 16 bytes
of the expected hash equals the corresponding byte of the digest buffer; and
when the session was completed by a `write_sector` call, that buffer holds the
MD5 digest of all the bytes fed to the session. -/
theorem match_md5_fail_closed (f : partition_updater_t) (md5 : List Nat) :
    (f._type = .utUnknown → f.match_md5 md5 = false) ∧
    (f._progress ≠ f._size → f.match_md5 md5 = false) ∧
    (f._type ≠ .utUnknown → f._progress = f._size →
      (f.match_md5 md5 = true ↔ ∀ i, i < 16 → md5[i]? = f._md5.getBytes[i]?)) ∧
    (∀ (env : Env) (f0 : partition_updater_t) (w0 w1 : World) (buf : List Nat),
      f0.write_sector env w0 buf = some (f, w1, true) → f._progress = f._size →
      (f.match_md5 md5 = true ↔ ∀ i, i < 16 → md5[i]? = (env.md5sum f._md5.ctx)[i]?)) := by
  refine ⟨?_, ?_, ?_, ?_⟩
  · intro ht
    simp [partition_updater_t.match_md5, ht]
  · intro hp
    simp [partition_updater_t.match_md5, hp]
  · intro ht hp
    rw [match_md5_eq f md5 ht hp, decide_eq_true_iff, take_eq_take_iff]
    rfl
  · intro env f0 w0 w1 buf h hp
    have hf := write_sector_true_fields h
    have ht0 := (write_sector_true h).1
    have ht : f._type ≠ .utUnknown := by rw [hf.1]; exact ht0
    have hbuf : f._md5.buf = env.md5sum f._md5.ctx :=
      hf.2.2.2.2.2.2.1 (by rw [← hf.2.1, hp])
    rw [match_md5_eq f md5 ht hp, decide_eq_true_iff, take_eq_take_iff, hbuf]

theorem process_block_content_boot {env : Env} {s s' : updater_t} {w w' : World}
    (hp : s.phase = .phContent)
    (h : updater_t.process_block env s w = some (s', w'))
    (hsw : w'.boot ≠ w.boot ∨ boot_switches w'.log ≠ boot_switches w.log) :
    s'.partition_updater.match_md5 s.header.md5 = true ∧
    s'.partition_updater._type = .utCode := by
  cases hb : s.buffer with
  | none => simp [updater_t.process_block, hb] at h
  | some b =>
    by_cases hl : b.length = SPI_FLASH_SEC_SIZE
    · rw [process_block_phContent env w hb hl hp] at h
      have key : ∀ (f : partition_updater_t) (w1 : World) (r : Bool),
          s.partition_updater.write_sector env w b = some (f, w1, r) →
          w1.boot = w.boot ∧ boot_switches w1.log = boot_switches w.log := by
        intro f w1 r hws
        obtain ⟨-, -, hboot, ⟨ops, hlog, hops⟩, -⟩ := write_sector_frame hws
        refine ⟨hboot, ?_⟩
        rw [hlog, boot_switches_append, boot_switches_storage ops hops]
        rfl
      cases hws : s.partition_updater.write_sector env w b with
      | none => simp [hws] at h
      | some r =>
        obtain ⟨f, w1, r⟩ := r
        have hk := key f w1 r hws
        cases r with
        | false =>
          simp only [hws] at h
          injection h with h; injection h with h1 h2
          subst h2
          exact absurd hk.1 (by rcases hsw with h | h <;> [exact h; exact absurd hk.2 h] )
        | true =>
          simp only [hws] at h
          split at h
          · split at h
            · injection h with h; injection h with h1 h2
              subst h2
              rcases hsw with h | h
              · exact absurd hk.1 h
              · exact absurd hk.2 h
            · rename_i hm
              injection h with h; injection h with h1 h2
              subst h1
              have hm2 : f.match_md5 s.header.md5 = true := by
                simpa using hm
              refine ⟨hm2, ?_⟩
              by_contra hc
              rw [activate_not_code env f w1 hc] at h2
              subst h2
              rcases hsw with h | h
              · exact absurd hk.1 h
              · exact absurd hk.2 h
          · injection h with h; injection h with h1 h2
            subst h2
            rcases hsw with h | h
            · exact absurd hk.1 h
            · exact absurd hk.2 h
    · simp [updater_t.process_block, hb, hl] at h

/-- C15 as amended: `activate_new_code` returns false and leaves the platform
state untouched unless the session type is `utCode` and the session is
complete (`_progress == _size`); the class keeps no record of a verification.
When both hold it calls `esp_ota_set_boot_partition` with the region of the
session and returns true exactly when that call succeeds, in which case the
boot pointer is that region (otherwise the boot pointer keeps its value).
Verification is enforced by the caller: a content block processed by
`process_block` moves the boot pointer or logs a boot switch only when
`match_md5` returned true on a `utCode` session. -/
theorem activate_contract (env : Env) (f : partition_updater_t) (w : World) :
    (f._type ≠ .utCode ∨ f._progress ≠ f._size → f.activate_new_code env w = (w, false)) ∧
    (f._type = .utCode → f._progress = f._size →
      f.activate_new_code env w = esp_ota_set_boot_partition env w f._partition ∧
      ((f.activate_new_code env w).2 = true ↔
        f._partition ≠ none ∧ env.io_ok w.log.length = true) ∧
      ((f.activate_new_code env w).2 = true →
        (f.activate_new_code env w).1.boot = f._partition) ∧
      ((f.activate_new_code env w).2 = false → (f.activate_new_code env w).1.boot = w.boot)) ∧
    (∀ (s s' : updater_t) (w' : World), s.phase = .phContent →
      updater_t.process_block env s w = some (s', w') →
      w'.boot ≠ w.boot ∨ boot_switches w'.log ≠ boot_switches w.log →
      s'.partition_updater.match_md5 s.header.md5 = true ∧
      s'.partition_updater._type = .utCode) := by
  refine ⟨?_, ?_, ?_⟩
  · intro h
    unfold partition_updater_t.activate_new_code
    by_cases ht : f._type = .utCode
    · rcases h with h | h
      · exact absurd ht h
      · simp [ht, h]
    · simp [ht]
  · intro ht hp
    rw [activate_code env f w ht hp]
    refine ⟨rfl, ?_, ?_, ?_⟩
    · simp [esp_ota_set_boot_partition, Option.isSome_iff_ne_none]
    · intro h
      rw [set_boot_boot]
      have : (f._partition.isSome && env.io_ok w.log.length) = true := h
      rw [if_pos this]
    · intro h
      rw [set_boot_boot]
      have : (f._partition.isSome && env.io_ok w.log.length) = false := h
      rw [if_neg (by rw [this]; decide)]
  · intro s s' w' hp h hsw
    exact process_block_content_boot hp h hsw

/-- C15 as stated fails: the one-block `Code` session of `sample_env`, begun
and written, does not pass verification against the expected hash
`01 01 .. 01` (`match_md5` returns false), and `activate_new_code` on it
nevertheless returns true and moves the boot pointer to the written region. -/
theorem activation_without_verification :
    idle_flasher.begin sample_env .utCode 4096 = (sample_session 4096, true) ∧
    ∃ f w, (sample_session 4096).write_sector sample_env sample_world sample_block
        = some (f, w, true) ∧
      f.match_md5 (List.replicate 16 1) = false ∧
      (f.activate_new_code sample_env w).2 = true ∧
      w.boot = none ∧
      (f.activate_new_code sample_env w).1.boot = some { address := 0x10000, size := 0x100000 } := by
  refine ⟨sample_begin 4096 (by decide) (by decide), ?_⟩
  obtain ⟨f, w, h⟩ := sample_write_sector 4096 (by decide)
  have hf := write_sector_true_fields h
  have hfr := write_sector_frame h
  have ht : f._type = .utCode := hf.1
  have hp : f._progress = f._size := by rw [hf.2.2.2.1, hf.2.1]; decide
  have hpart : f._partition = some { address := 0x10000, size := 0x100000 } := hf.2.2.1
  have hbuf : f._md5.buf = sample_env.md5sum f._md5.ctx :=
    hf.2.2.2.2.2.2.1 (by rw [← hf.2.1, hp])
  refine ⟨f, w, h, ?_, ?_, hfr.2.2.1, ?_⟩
  · rw [match_md5_eq f _ (by rw [ht]; decide) hp, hbuf]
    rw [decide_eq_false_iff_not]
    show ¬ List.take 16 (List.replicate 16 1) = List.take 16 (List.replicate 16 0)
    decide
  · rw [activate_code sample_env f w ht hp, hpart]
    rfl
  · rw [activate_code sample_env f w ht hp, hpart]
    rfl

/-- C16: slot resolution.  The active slot is 0 exactly when the running
partition is labelled `"app0"` and 1 when it is labelled `"app1"`.  With slot 0
active `next_partition_from_type` looks up `OTA_1`, `"spiffs1"` and font
subtype 1; with slot 1 active it looks up `OTA_0`, `"spiffs0"` and font
subtype 0; for `utUnknown` it returns no region. -/
theorem slot_resolution (env : Env) :
    (get_current_active_partition_number env = 0 ↔ env.running_label = STR_app0) ∧
    (get_current_active_partition_number env = 1 ↔ env.running_label = STR_app1) ∧
    (get_current_active_partition_number env = 0 →
      next_partition_from_type env .utCode =
        env.esp_partition_find_first ESP_PARTITION_TYPE_APP ESP_PARTITION_SUBTYPE_APP_OTA_1
          none ∧
      next_partition_from_type env .utSPIFFS =
        env.esp_partition_find_first ESP_PARTITION_TYPE_DATA ESP_PARTITION_SUBTYPE_DATA_SPIFFS
          (some STR_spiffs1) ∧
      next_partition_from_type env .utFont = env.esp_partition_find_first 0x40 1 none) ∧
    (get_current_active_partition_number env = 1 →
      next_partition_from_type env .utCode =
        env.esp_partition_find_first ESP_PARTITION_TYPE_APP ESP_PARTITION_SUBTYPE_APP_OTA_0
          none ∧
      next_partition_from_type env .utSPIFFS =
        env.esp_partition_find_first ESP_PARTITION_TYPE_DATA ESP_PARTITION_SUBTYPE_DATA_SPIFFS
          (some STR_spiffs0) ∧
      next_partition_from_type env .utFont = env.esp_partition_find_first 0x40 0 none) ∧
    next_partition_from_type env .utUnknown = none := by
  have h01 : STR_app0 ≠ STR_app1 := by decide
  refine ⟨?_, ?_, ?_, ?_, rfl⟩
  · unfold get_current_active_partition_number
    by_cases h0 : env.running_label = STR_app0
    · simp [h0]
    · by_cases h1 : env.running_label = STR_app1 <;> simp [h0, h1, h01.symm]
  · unfold get_current_active_partition_number
    by_cases h0 : env.running_label = STR_app0
    · simp [h0, h01]
    · by_cases h1 : env.running_label = STR_app1 <;> simp [h0, h1, h01.symm]
  · intro h
    simp [next_partition_from_type, next_partition_query, h]
  · intro h
    simp [next_partition_from_type, next_partition_query, h]

/-- C17: in phase `phHeader`, a block whose first 16 bytes are not the
boundary marker, or whose decoded `orig_len` exceeds `arc_len`, sets `status`
to `stCorrupted`; the flasher session is left as it was (`begin` is not
called), the platform state is untouched, the phase stays `phHeader` and
`finish()` returns false. -/
theorem header_validation (env : Env) (s : updater_t) (w : World) (b : List Nat)
    (hp : s.phase = .phHeader) (hb : s.buffer = some b) (hl : b.length = SPI_FLASH_SEC_SIZE)
    (hbad : b.take 16 ≠ FILE_BOUNDARY ∨
      (read_header env b).orig_len > (read_header env b).arc_len) :
    ∃ s', updater_t.process_block env s w = some (s', w) ∧
      s'.status = .stCorrupted ∧ s'.phase = .phHeader ∧
      s'.partition_updater = s.partition_updater ∧ (updater_t.finish s').2 = false := by
  rw [process_block_phHeader env w hb hl hp]
  by_cases hm : b.take 16 = FILE_BOUNDARY
  · have hgt : (read_header env b).orig_len > (read_header env b).arc_len := by
      rcases hbad with h | h
      · exact absurd hm h
      · exact h
    rw [if_neg (by simpa using hm), if_pos (Or.inl hgt)]
    exact ⟨_, rfl, rfl, hp, rfl, finish_false_of_status rfl⟩
  · rw [if_pos hm]
    exact ⟨_, rfl, rfl, hp, rfl, finish_false_of_status rfl⟩

theorem bad_length_header_length : bad_length_header.length = SPI_FLASH_SEC_SIZE := by
  simp only [bad_length_header, header_block, LABEL_app, FILE_BOUNDARY, List.length_append,
    List.length_replicate, List.length_cons, List.length_nil, SPI_FLASH_SEC_SIZE]

/-- C17 at a concrete input: a header that announces 4097 original bytes in
4096 archived bytes. -/
theorem header_validation_witness :
    ∃ s', updater_t.process_block sample_env (awaiting_header bad_length_header) sample_world
        = some (s', sample_world) ∧
      s'.status = .stCorrupted ∧ s'.phase = .phHeader ∧
      s'.partition_updater = idle_flasher ∧ (updater_t.finish s').2 = false :=
  header_validation sample_env (awaiting_header bad_length_header) sample_world
    bad_length_header rfl rfl bad_length_header_length (Or.inr (by decide))

theorem type_of_label_spiffs (label : List Nat) :
    type_of_label label = .utSPIFFS ↔ cstr label = STR_spiffs := by
  unfold type_of_label
  by_cases h1 : cstr label = STR_font
  · rw [if_pos h1, h1]
    exact ⟨fun h => (by cases h), fun h => absurd h (by decide)⟩
  rw [if_neg h1]
  by_cases h2 : cstr label = STR_spiffs
  · rw [if_pos h2]
    exact ⟨fun _ => h2, fun _ => rfl⟩
  rw [if_neg h2]
  by_cases h3 : cstr label = STR_app
  · rw [if_pos h3]
    exact ⟨fun h => (by cases h), fun h => absurd h h2⟩
  · rw [if_neg h3]
    exact ⟨fun h => (by cases h), fun h => absurd h h2⟩

theorem type_of_label_font (label : List Nat) :
    type_of_label label = .utFont ↔ cstr label = STR_font := by
  unfold type_of_label
  by_cases h1 : cstr label = STR_font
  · rw [if_pos h1]
    exact ⟨fun _ => h1, fun _ => rfl⟩
  rw [if_neg h1]
  by_cases h2 : cstr label = STR_spiffs
  · rw [if_pos h2]
    exact ⟨fun h => (by cases h), fun h => absurd h h1⟩
  rw [if_neg h2]
  by_cases h3 : cstr label = STR_app
  · rw [if_pos h3]
    exact ⟨fun h => (by cases h), fun h => absurd h h1⟩
  · rw [if_neg h3]
    exact ⟨fun h => (by cases h), fun h => absurd h h1⟩

theorem type_of_label_unknown (label : List Nat) :
    type_of_label label = .utUnknown ↔
      cstr label ≠ STR_app ∧ cstr label ≠ STR_spiffs ∧ cstr label ≠ STR_font := by
  unfold type_of_label
  by_cases h1 : cstr label = STR_font
  · rw [if_pos h1]
    exact ⟨fun h => (by cases h), fun h => absurd h1 h.2.2⟩
  rw [if_neg h1]
  by_cases h2 : cstr label = STR_spiffs
  · rw [if_pos h2]
    exact ⟨fun h => (by cases h), fun h => absurd h2 h.2.1⟩
  rw [if_neg h2]
  by_cases h3 : cstr label = STR_app
  · rw [if_pos h3]
    exact ⟨fun h => (by cases h), fun h => absurd h3 h.1⟩
  · rw [if_neg h3]
    exact ⟨fun _ => ⟨h3, h2, h1⟩, fun _ => rfl⟩

theorem read_header_label_terminated (env : Env) (b : List Nat) :
    (read_header env b).label.getD (env.label_size - 1) 0 = 0 := by
  simp only [read_header, List.getD_eq_getElem?_getD, List.getElem?_set]
  rw [if_pos trivial]
  split <;> rfl

/-- C18: label resolution.  The last byte of the label field read from the
header is NUL.  The label resolves to `utCode` exactly when its C string is
`"app"`, to `utSPIFFS` exactly when it is `"spiffs"`, to `utFont` exactly when
it is `"font"`; the empty string, `"APP"`, `"app0"` and `"fonts"` resolve to
`utUnknown`.  For a header block that passed the marker and length checks, a
known label hands its kind to `begin`, and every other label sets `status` to
`stCorrupted` without calling `begin` (the flasher session and the platform
state are left as they were). -/
theorem label_resolution (env : Env) (s : updater_t) (w : World) (b : List Nat)
    (hp : s.phase = .phHeader) (hb : s.buffer = some b) (hl : b.length = SPI_FLASH_SEC_SIZE)
    (hm : b.take 16 = FILE_BOUNDARY)
    (hlen : (read_header env b).orig_len ≤ (read_header env b).arc_len)
    (ha : (read_header env b).arc_len % SPI_FLASH_SEC_SIZE = 0) :
    (read_header env b).label.getD (env.label_size - 1) 0 = 0 ∧
    (∀ l, (type_of_label l = .utCode ↔ cstr l = STR_app) ∧
      (type_of_label l = .utSPIFFS ↔ cstr l = STR_spiffs) ∧
      (type_of_label l = .utFont ↔ cstr l = STR_font)) ∧
    type_of_label [] = .utUnknown ∧ type_of_label [0, 97, 112, 112] = .utUnknown ∧
    type_of_label [65, 80, 80, 0] = .utUnknown ∧
    type_of_label [97, 112, 112, 48, 0] = .utUnknown ∧
    type_of_label [102, 111, 110, 116, 115, 0] = .utUnknown ∧
    (type_of_label (read_header env b).label ≠ .utUnknown →
      ∃ s', updater_t.process_block env s w = some (s', w) ∧
        s'.partition_updater =
          (s.partition_updater.begin env (type_of_label (read_header env b).label)
            (read_header env b).arc_len).1) ∧
    (cstr (read_header env b).label ≠ STR_app → cstr (read_header env b).label ≠ STR_spiffs →
      cstr (read_header env b).label ≠ STR_font →
      ∃ s', updater_t.process_block env s w = some (s', w) ∧
        s'.status = .stCorrupted ∧ s'.phase = .phHeader ∧
        s'.partition_updater = s.partition_updater) := by
  have hchk : ¬ ((read_header env b).orig_len > (read_header env b).arc_len ∨
      (read_header env b).arc_len % SPI_FLASH_SEC_SIZE ≠ 0) := by
    rintro (h | h)
    · omega
    · exact h ha
  refine ⟨read_header_label_terminated env b,
    fun l => ⟨type_of_label_code l, type_of_label_spiffs l, type_of_label_font l⟩,
    by decide, by decide, by decide, by decide, by decide, ?_, ?_⟩
  · intro hk
    rw [process_block_phHeader env w hb hl hp, if_neg (by simpa using hm), if_neg hchk,
      if_neg hk]
    cases hbg : s.partition_updater.begin env (type_of_label (read_header env b).label)
        (read_header env b).arc_len with
    | mk f r =>
      cases r
      · exact ⟨_, rfl, rfl⟩
      · exact ⟨_, rfl, rfl⟩
  · intro h1 h2 h3
    have hu := (type_of_label_unknown (read_header env b).label).mpr ⟨h1, h2, h3⟩
    rw [process_block_phHeader env w hb hl hp, if_neg (by simpa using hm), if_neg hchk,
      if_pos hu]
    exact ⟨_, rfl, rfl, hp, rfl⟩

theorem sample_header_upper_length :
    (sample_header LABEL_APP_upper).length = SPI_FLASH_SEC_SIZE :=
  sample_header_length LABEL_APP_upper rfl

/-- C18 at a concrete input: a well-formed header whose label is `"APP"`. -/
theorem label_resolution_witness :
    ∃ s', updater_t.process_block sample_env (awaiting_header (sample_header LABEL_APP_upper))
        sample_world = some (s', sample_world) ∧
      s'.status = .stCorrupted ∧ s'.phase = .phHeader ∧
      s'.partition_updater = idle_flasher :=
  (label_resolution sample_env (awaiting_header (sample_header LABEL_APP_upper)) sample_world
    (sample_header LABEL_APP_upper) rfl rfl sample_header_upper_length (by decide) (by decide)
    (by decide)).2.2.2.2.2.2.2.2 (by decide) (by decide) (by decide)

theorem write_chunks_of_status {env : Env} {s : updater_t} (w : World)
    (h : s.status ≠ .stNoError) (chunks : List (List Nat)) :
    write_chunks env s w chunks = some (s, w) := by
  induction chunks with
  | nil => rfl
  | cons c cs ih =>
    unfold write_chunks
    rw [write_data_of_status w c h]
    exact ih

theorem write_sector_false_log {env : Env} {f f' : partition_updater_t} {w w' : World}
    {buf : List Nat}
    (h : f.write_sector env w buf = some (f', w', false)) :
    (w'.log = w.log ∧ f' = f) ∨ f'._type = .utUnknown := by
  unfold partition_updater_t.write_sector write_sector_fail at h
  by_cases ht : f._type = .utUnknown
  · simp only [ht, ↓reduceIte, Option.some.injEq, Prod.mk.injEq] at h
    obtain ⟨h1, h2, -⟩ := h
    subst h1; subst h2
    exact Or.inl ⟨rfl, rfl⟩
  by_cases hp : f._progress ≥ f._size
  · simp only [ht, hp, ↓reduceIte, Option.some.injEq, Prod.mk.injEq] at h
    obtain ⟨h1, h2, -⟩ := h
    subst h1; subst h2
    exact Or.inl ⟨rfl, rfl⟩
  cases hm : env.malloc_ok w.mallocs
  · simp only [ht, hp, malloc_sector, hm, ↓reduceIte, Option.some.injEq, Prod.mk.injEq,
      Bool.false_eq_true] at h
    obtain ⟨h1, h2, -⟩ := h
    subst h1; subst h2
    exact Or.inl ⟨rfl, rfl⟩
  by_cases hl : buf.length < SPI_FLASH_SEC_SIZE
  · simp [ht, hp, malloc_sector, hm, hl] at h
  cases hpart : f._partition with
  | none => simp [ht, hp, malloc_sector, hm, hl, hpart] at h
  | some part =>
    simp only [ht, hp, malloc_sector, hm, hl, hpart, ↓reduceIte] at h
    split at h
    · simp only [Option.some.injEq, Prod.mk.injEq] at h
      obtain ⟨h1, -, -⟩ := h
      subst h1
      exact Or.inr rfl
    split at h
    · simp only [Option.some.injEq, Prod.mk.injEq] at h
      obtain ⟨h1, -, -⟩ := h
      subst h1
      exact Or.inr rfl
    by_cases hd : (f._progress + SPI_FLASH_SEC_SIZE) % U32 ≥ f._size
    · simp only [hd, ↓reduceIte] at h
      split at h
      · simp only [Option.some.injEq, Prod.mk.injEq] at h
        obtain ⟨h1, -, -⟩ := h
        subst h1
        exact Or.inr rfl
      split at h
      · simp only [Option.some.injEq, Prod.mk.injEq] at h
        obtain ⟨h1, -, -⟩ := h
        subst h1
        exact Or.inr rfl
      · simp at h
    · simp [hd] at h

theorem write_sector_true_io {env : Env} {f f' : partition_updater_t} {w w' : World}
    {buf : List Nat}
    (h : f.write_sector env w buf = some (f', w', true)) :
    ∀ i, w.log.length ≤ i → i < w'.log.length → env.io_ok i = true := by
  obtain ⟨-, -, -, -, part, -, -, hpart, -⟩ := write_sector_true h
  obtain ⟨h0, h1, hlt, hge⟩ := write_sector_true_log h hpart
  have hf := write_sector_true_fields h
  intro i hi1 hi2
  by_cases hd : f'._progress < f._size
  · rw [hlt hd] at hi2
    simp only [sector_ops, List.length_append, List.length_cons, List.length_nil] at hi2
    have : i = w.log.length ∨ i = w.log.length + 1 := by omega
    rcases this with e | e <;> rw [e] <;> assumption
  · obtain ⟨h2, h3, patch, hlog⟩ := hge (by omega)
    rw [hlog] at hi2
    simp only [sector_ops, List.length_append, List.length_cons, List.length_nil] at hi2
    have : i = w.log.length ∨ i = w.log.length + 1 ∨ i = w.log.length + 2 ∨
        i = w.log.length + 3 := by omega
    rcases this with e | e | e | e <;> rw [e] <;> assumption

/-- C19: a hash mismatch is terminal.  When the block in the buffer is the
last content block of the target (`remaining_count == 1`), `write_sector`
accepts it and the digest buffer of the session differs from the header's
`md5` field in one of its 16 bytes, `process_block` sets `status` to
`stCorrupted` and stays in phase `phContent`; `activate_new_code` is not
called (the platform state is the one `write_sector` left: the boot pointer
has not moved and no boot switch is logged); `finish()` returns false, also
after any further data. -/
theorem hash_mismatch_terminal (env : Env) (s : updater_t) (w w1 : World) (b : List Nat)
    (f : partition_updater_t)
    (hp : s.phase = .phContent) (hb : s.buffer = some b) (hl : b.length = SPI_FLASH_SEC_SIZE)
    (hrc : s.remaining_count = 1)
    (hws : s.partition_updater.write_sector env w b = some (f, w1, true))
    (hne : s.header.md5.take 16 ≠ f._md5.getBytes.take 16) :
    ∃ s', updater_t.process_block env s w = some (s', w1) ∧
      s'.status = .stCorrupted ∧ s'.phase = .phContent ∧
      w1.boot = w.boot ∧ boot_switches w1.log = boot_switches w.log ∧
      (updater_t.finish s').2 = false ∧
      ∀ chunks, write_chunks env s' w1 chunks = some (s', w1) := by
  have hm : f.match_md5 s.header.md5 = false := by
    unfold partition_updater_t.match_md5
    split
    · rfl
    · split
      · rfl
      · exact decide_eq_false hne
  have hz : (s.remaining_count + U32 - 1) % U32 = 0 := by rw [hrc]; decide
  obtain ⟨-, -, hboot, ⟨ops, hlog, hops⟩, -⟩ := write_sector_frame hws
  rw [process_block_phContent env w hb hl hp]
  simp only [hws, hz, hm, ↓reduceIte, Bool.not_false]
  refine ⟨_, rfl, rfl, hp, hboot, ?_, finish_false_of_status rfl, ?_⟩
  · rw [hlog, boot_switches_append, boot_switches_storage ops hops]
    rfl
  · intro chunks
    exact write_chunks_of_status w1 (by simp) chunks

/-- C19 at a concrete input: on `sample_env` (whose digest is all zero) the
only content block of a target whose header announces the digest
`01 01 .. 01`. -/
theorem hash_mismatch_terminal_witness :
    ∃ s' w1, updater_t.process_block sample_env mismatch_state sample_world = some (s', w1) ∧
      s'.status = .stCorrupted ∧ s'.phase = .phContent ∧
      w1.boot = none ∧ boot_switches w1.log = 0 ∧ (updater_t.finish s').2 = false := by
  obtain ⟨f, w1, h⟩ := sample_write_sector 4096 (by decide)
  have hf := write_sector_true_fields h
  have hbuf : f._md5.buf = sample_env.md5sum f._md5.ctx :=
    hf.2.2.2.2.2.2.1 (by rw [hf.2.2.2.1]; decide)
  have hne : mismatch_state.header.md5.take 16 ≠ f._md5.getBytes.take 16 := by
    rw [MD5Builder.getBytes, hbuf]
    show ¬ (read_header sample_env mismatch_header).md5.take 16
      = List.take 16 (List.replicate 16 0)
    decide
  obtain ⟨s', h1, h2, h3, h4, h5, h6, -⟩ :=
    hash_mismatch_terminal sample_env mismatch_state sample_world w1 sample_block f rfl rfl
      sample_block_length rfl h hne
  exact ⟨s', w1, h1, h2, h3, h4, h5, h6⟩

theorem write_sector_write_fails (env : Env) (f : partition_updater_t) (w : World)
    (buf : List Nat) (part : esp_partition_t)
    (ht : f._type ≠ .utUnknown) (hp : f._progress < f._size) (hpart : f._partition = some part)
    (hl : SPI_FLASH_SEC_SIZE ≤ buf.length) (hm : env.malloc_ok w.mallocs = true)
    (h0 : env.io_ok w.log.length = true) (h1 : env.io_ok (w.log.length + 1) = false) :
    ∃ f' w', f.write_sector env w buf = some (f', w', false) ∧
      w'.log = w.log ++ sector_ops part f._progress buf := by
  unfold partition_updater_t.write_sector write_sector_fail
  simp only [ht, Nat.not_le.mpr hp, malloc_sector, hm, Nat.not_lt.mpr hl, hpart, ↓reduceIte,
    ge_iff_le, flashEraseSector, flashWrite, h0, h1, List.length_append, List.length_cons,
    List.length_nil]
  refine ⟨_, _, rfl, ?_⟩
  simp [sector_ops, flash_image]

/-- C20: a storage failure aborts the update.  When one of the erase, write or
read primitives issued by a `write_sector` call fails, the call returns false
and leaves the session with `_type == utUnknown`; on that session every later
`write_sector` returns false without any operation, `match_md5` returns false
for every hash and `activate_new_code` returns false without touching the
platform.  The stream processor that made the call sets `status` to
`stCorrupted`, and `finish()` returns false, also after any further data. -/
theorem io_failure_aborts (env : Env) (f f' : partition_updater_t) (w w' : World)
    (buf : List Nat) (r : Bool)
    (h : f.write_sector env w buf = some (f', w', r))
    (hfail : ∃ i, w.log.length ≤ i ∧ i < w'.log.length ∧ env.io_ok i = false) :
    r = false ∧ f'._type = .utUnknown ∧
    (∀ (env2 : Env) (w2 : World) (buf2 : List Nat),
      f'.write_sector env2 w2 buf2 = some (f', w2, false)) ∧
    (∀ md5, f'.match_md5 md5 = false) ∧
    (∀ (env2 : Env) (w2 : World), f'.activate_new_code env2 w2 = (w2, false)) ∧
    (∀ s : updater_t, s.phase = .phContent → s.buffer = some buf →
      buf.length = SPI_FLASH_SEC_SIZE → s.partition_updater = f →
      ∃ s', updater_t.process_block env s w = some (s', w') ∧
        s'.status = .stCorrupted ∧ (updater_t.finish s').2 = false ∧
        ∀ chunks, write_chunks env s' w' chunks = some (s', w')) := by
  obtain ⟨i, hi1, hi2, hi3⟩ := hfail
  have hr : r = false := by
    cases r with
    | false => rfl
    | true =>
      have := write_sector_true_io h i hi1 hi2
      rw [hi3] at this
      cases this
  subst hr
  have ht : f'._type = .utUnknown := by
    rcases write_sector_false_log h with ⟨hlog, -⟩ | ht
    · rw [hlog] at hi2
      omega
    · exact ht
  refine ⟨rfl, ht, ?_, ?_, ?_, ?_⟩
  · intro env2 w2 buf2
    unfold partition_updater_t.write_sector
    simp [ht]
  · intro md5
    simp [partition_updater_t.match_md5, ht]
  · intro env2 w2
    exact activate_not_code env2 f' w2 (by rw [ht]; decide)
  · intro s hp hb hl hf
    rw [process_block_phContent env w hb hl hp, hf]
    simp only [h]
    exact ⟨_, rfl, rfl, finish_false_of_status rfl,
      fun chunks => write_chunks_of_status w' (by simp) chunks⟩

/-- C20 at a concrete input: on `faulty_env` the flash write of the first
block fails. -/
theorem io_failure_aborts_witness :
    ∃ f' w', (sample_session 4096).write_sector faulty_env sample_world sample_block
        = some (f', w', false) ∧
      f'._type = .utUnknown ∧ f'.match_md5 (List.replicate 16 0) = false ∧
      f'.activate_new_code faulty_env w' = (w', false) := by
  obtain ⟨f', w', h, hlog⟩ := write_sector_write_fails faulty_env (sample_session 4096)
    sample_world sample_block { address := 0x10000, size := 0x100000 } (by decide) (by decide)
    rfl (Nat.le_of_eq sample_block_length.symm) rfl rfl rfl
  have key := io_failure_aborts faulty_env (sample_session 4096) f' sample_world w'
    sample_block false h
    ⟨1, by decide, by rw [hlog]; simp [sector_ops, sample_world], rfl⟩
  exact ⟨f', w', h, key.2.1, key.2.2.2.1 _, key.2.2.2.2.1 _ _⟩

/-- A property of the stream processor that does not depend on the receive
buffer and is kept by `process_block` is kept by `write_data`. -/
theorem write_data_preserves (env : Env) (P : updater_t → World → Prop)
    (hbuf : ∀ (s : updater_t) (w : World) (b : Option (List Nat)) (pos : Nat),
      P s w → P { s with buffer := b, buffer_pos := pos } w)
    (hstep : ∀ (s s' : updater_t) (w w' : World), s.status = .stNoError → P s w →
      updater_t.process_block env s w = some (s', w') → P s' w')
    (buf : List Nat) :
    ∀ (s s' : updater_t) (w w' : World), Inv s → P s w →
      updater_t.write_data env s w buf = some (s', w') → P s' w' := by
  have single : ∀ (x : Nat) (s s' : updater_t) (w w' : World), Inv s → P s w →
      updater_t.write_data env s w [x] = some (s', w') → P s' w' := by
    intro x s s' w w' hi hP h
    by_cases hst : s.status = .stNoError
    · cases hb : s.buffer with
      | none =>
        rw [write_data_of_null w [x] hb] at h
        injection h with h; injection h with h1 h2
        subst h1; subst h2; exact hP
      | some b =>
        rw [write_data_single env s w x b hst hb (hi.2.1 b hb) hi.1] at h
        split at h
        · refine hstep _ _ _ _ ?_ (hbuf s w _ 0 hP) h
          exact hst
        · injection h with h; injection h with h1 h2
          subst h1; subst h2
          exact hbuf s w _ _ hP
    · rw [write_data_of_status w [x] hst] at h
      injection h with h; injection h with h1 h2
      subst h1; subst h2; exact hP
  induction buf with
  | nil =>
    intro s s' w w' _ hP h
    rw [write_data_of_nil] at h
    injection h with h; injection h with h1 h2
    subst h1; subst h2; exact hP
  | cons x xs ih =>
    intro s s' w w' hi hP h
    rw [show x :: xs = [x] ++ xs from rfl, write_data_append env s w [x] xs hi] at h
    obtain ⟨r, hr, hir⟩ := write_data_single_total env s w x hi
    obtain ⟨s1, w1⟩ := r
    rw [hr] at h
    exact ih s1 s' w1 w' hir (single x s s1 w w1 hi hP hr) h

theorem doomed_finish {s : updater_t} (h : Doomed s) : (updater_t.finish s).2 = false := by
  rcases h with h | ⟨h, -⟩
  · exact finish_false_of_status h
  · exact finish_false_of_phase (by rw [h]; decide)

theorem write_sector_done_eq (env : Env) (f : partition_updater_t) (w : World)
    (buf : List Nat) (h : f._size ≤ f._progress) :
    f.write_sector env w buf = some (f, w, false) := by
  unfold partition_updater_t.write_sector
  by_cases ht : f._type = .utUnknown
  · simp [ht]
  · simp [ht, h]

theorem doomed_step {env : Env} {s s' : updater_t} {w w' : World}
    (hst : s.status = .stNoError) (hd : Doomed s)
    (h : updater_t.process_block env s w = some (s', w')) :
    s'.status = .stCorrupted ∧ w' = w := by
  rcases hd with hc | ⟨hp, hsz⟩
  · rw [hc] at hst; cases hst
  · cases hb : s.buffer with
    | none => simp [updater_t.process_block, hb] at h
    | some b =>
      by_cases hl : b.length = SPI_FLASH_SEC_SIZE
      · rw [process_block_phContent env w hb hl hp, write_sector_done_eq env _ w b hsz] at h
        injection h with h; injection h with h1 h2
        subst h1
        exact ⟨rfl, h2.symm⟩
      · simp [updater_t.process_block, hb, hl] at h

/-- Once the processor is doomed, `write_data` keeps it doomed and issues no
operation. -/
theorem doomed_write_data (env : Env) (buf : List Nat) (s s' : updater_t) (w w' : World)
    (hi : Inv s) (hd : Doomed s) (h : updater_t.write_data env s w buf = some (s', w')) :
    Doomed s' ∧ w' = w := by
  refine write_data_preserves env (fun s1 w1 => Doomed s1 ∧ w1 = w) ?_ ?_ buf s s' w w' hi
    ⟨hd, rfl⟩ h
  · intro s1 w1 b pos hP
    exact hP
  · intro s1 s2 w1 w2 hst hP hpb
    obtain ⟨h1, h2⟩ := doomed_step hst hP.1 hpb
    exact ⟨Or.inl h1, by rw [h2]; exact hP.2⟩

theorem zero_header_step (env : Env) (s : updater_t) (w : World) (hdr : List Nat)
    (hph : s.phase = .phHeader)
    (hhl : hdr.length = SPI_FLASH_SEC_SIZE) (hm : hdr.take 16 = FILE_BOUNDARY)
    (hk : type_of_label (read_header env hdr).label ≠ .utUnknown)
    (ho : (read_header env hdr).orig_len = 0) (ha : (read_header env hdr).arc_len = 0) :
    ∃ s1, updater_t.process_block env { s with buffer := some hdr } w = some (s1, w) ∧
      Doomed s1 ∧
      (∀ p, next_partition_from_type env (type_of_label (read_header env hdr).label) = some p →
        s1.phase = .phContent ∧ s1.status = s.status ∧ s1.remaining_count = 0 ∧
        s1.partition_updater._type = type_of_label (read_header env hdr).label ∧
        s1.partition_updater._size = 0 ∧ s1.partition_updater._progress = 0 ∧
        s1.partition_updater._partition = some p) := by
  have hchk : ¬ ((read_header env hdr).orig_len > (read_header env hdr).arc_len ∨
      (read_header env hdr).arc_len % SPI_FLASH_SEC_SIZE ≠ 0) := by
    rw [ho, ha]; decide
  rw [process_block_phHeader env w (s := { s with buffer := some hdr }) rfl hhl hph,
    if_neg (by simpa using hm), if_neg hchk, if_neg hk]
  cases hbg : s.partition_updater.begin env (type_of_label (read_header env hdr).label)
      (read_header env hdr).arc_len with
  | mk f r =>
    cases r with
    | false =>
      refine ⟨_, rfl, Or.inl rfl, ?_⟩
      intro p hp
      rw [begin_eq_true env s.partition_updater (by rw [ha]; decide) hp
        (by rw [ha]; exact Nat.zero_le _)] at hbg
      injection hbg with h1 h2
      cases h2
    | true =>
      obtain ⟨-, q, hq, -, hf⟩ := begin_true hbg
      refine ⟨_, rfl, Or.inr ⟨rfl, ?_⟩, ?_⟩
      · show f._size ≤ f._progress
        rw [hf, ha]
      · intro p hp
        rw [hq] at hp
        injection hp with hp
        subst hp
        refine ⟨rfl, rfl, ?_, ?_, ?_, ?_, ?_⟩
        · show (read_header env hdr).arc_len / SPI_FLASH_SEC_SIZE = 0
          rw [ha]; decide
        · show f._type = _
          rw [hf]
        · show f._size = 0
          rw [hf]; exact ha
        · show f._progress = 0
          rw [hf]
        · show f._partition = _
          rw [hf]

/-- C27: a target of zero bytes can never succeed.  A header block with a
valid marker, a known label and `orig_len == arc_len == 0`, received while the
processor awaits a target header, is accepted when its region is resolved:
`begin` returns true and the processor enters `phContent` with
`remaining_count == 0` on a session of size 0.  From there `finish()` returns
false, and one further full block makes `write_sector` fail ("already done")
and sets `status` to `stCorrupted`.  Whether or not the region is resolved,
`finish()` returns false after every continuation of the stream, and no
storage or boot-control primitive is issued from the header on. -/
theorem zero_length_target (env : Env) (s : updater_t) (w : World) (b hdr : List Nat)
    (hst : s.status = .stNoError) (hb : s.buffer = some b)
    (hl : b.length = SPI_FLASH_SEC_SIZE) (hpos : s.buffer_pos = 0) (hph : s.phase = .phHeader)
    (hhl : hdr.length = SPI_FLASH_SEC_SIZE) (hm : hdr.take 16 = FILE_BOUNDARY)
    (hk : type_of_label (read_header env hdr).label ≠ .utUnknown)
    (ho : (read_header env hdr).orig_len = 0) (ha : (read_header env hdr).arc_len = 0) :
    (∀ p, next_partition_from_type env (type_of_label (read_header env hdr).label) = some p →
      (s.partition_updater.begin env (type_of_label (read_header env hdr).label) 0).2 = true ∧
      ∃ s1, updater_t.write_data env s w hdr = some (s1, w) ∧
        s1.phase = .phContent ∧ s1.status = .stNoError ∧ s1.remaining_count = 0 ∧
        s1.partition_updater._size = 0 ∧ (updater_t.finish s1).2 = false ∧
        ∀ blk, blk.length = SPI_FLASH_SEC_SIZE →
          (s1.partition_updater.write_sector env w blk).map (fun r => r.2.2) = some false ∧
          ∃ s2, updater_t.write_data env s1 w blk = some (s2, w) ∧
            s2.status = .stCorrupted ∧ (updater_t.finish s2).2 = false) ∧
    (∀ rest, ∃ s3, updater_t.write_data env s w (hdr ++ rest) = some (s3, w) ∧
      (updater_t.finish s3).2 = false) := by
  obtain ⟨s1, hs1, hd1, hacc⟩ := zero_header_step env s w hdr hph hhl hm hk ho ha
  have hfr := process_block_frame hs1
  have hi : Inv s := ⟨by rw [hpos]; exact sec_pos, fun b' hb' => by
    rw [hb] at hb'; injection hb' with hb'; rw [← hb']; exact hl, fun h => by
    rw [hph] at h; cases h⟩
  have hi1 : Inv s1 := process_block_inv hs1 ⟨by show s.buffer_pos < _; rw [hpos]; exact sec_pos,
    fun b' hb' => by
      injection hb' with hb'; rw [← hb']; exact hhl,
    fun h => by rw [hph] at h; cases h⟩
  have hw1 : updater_t.write_data env s w hdr = some (s1, w) := by
    have := write_data_block env w hdr [] hst hb hl hpos hhl
    rw [List.append_nil, hs1] at this
    rw [this]
    exact write_data_of_nil env s1 w
  refine ⟨?_, ?_⟩
  · intro p hp
    obtain ⟨h1, h2, h3, h4, h5, h6, h7⟩ := hacc p hp
    refine ⟨?_, s1, hw1, h1, by rw [h2, hst], h3, h5, doomed_finish hd1, ?_⟩
    · rw [begin_eq_true env s.partition_updater (by decide) hp (Nat.zero_le _)]
    · intro blk hblk
      have hdone : s1.partition_updater._size ≤ s1.partition_updater._progress := by
        rw [h5]; exact Nat.zero_le _
      refine ⟨by rw [write_sector_done_eq env _ w blk hdone]; rfl, ?_⟩
      have hb1 : s1.buffer = some hdr := by rw [hfr.1]
      have hp1 : s1.buffer_pos = 0 := by rw [hfr.2]; exact hpos
      have hst1 : s1.status = .stNoError := by rw [h2, hst]
      have := write_data_block env w blk [] hst1 hb1 hhl hp1 hblk
      rw [List.append_nil] at this
      rw [this]
      obtain ⟨r, hr⟩ := process_block_isSome env (s := { s1 with buffer := some blk }) w rfl hblk
        hi1.2.2
      obtain ⟨s2, w2⟩ := r
      have hd2 := doomed_step (s := { s1 with buffer := some blk }) hst1
        (by
          rcases hd1 with h | h
          · exact Or.inl h
          · exact Or.inr h) hr
      rw [hr]
      obtain ⟨hc, hw⟩ := hd2
      subst hw
      exact ⟨s2, write_data_of_nil env s2 w2, hc, finish_false_of_status hc⟩
  · intro rest
    rw [write_data_append env s w hdr rest hi, hw1]
    obtain ⟨r, hr, -⟩ := write_data_total env s1 w rest hi1
    obtain ⟨s3, w3⟩ := r
    obtain ⟨hd3, hw3⟩ := doomed_write_data env rest s1 s3 w w3 hi1 hd1 hr
    subst hw3
    exact ⟨s3, hr, doomed_finish hd3⟩

theorem empty_target_header_length : empty_target_header.length = SPI_FLASH_SEC_SIZE := by
  simp only [empty_target_header, header_block, LABEL_app, FILE_BOUNDARY, List.length_append,
    List.length_replicate, List.length_cons, List.length_nil, SPI_FLASH_SEC_SIZE]

/-- C27 at a concrete input: an empty `app` target followed by one more block. -/
theorem zero_length_target_witness :
    ∃ s3, updater_t.write_data sample_env (awaiting_header sample_block) sample_world
        (empty_target_header ++ sample_block) = some (s3, sample_world) ∧
      (updater_t.finish s3).2 = false :=
  (zero_length_target sample_env (awaiting_header sample_block) sample_world sample_block
    empty_target_header rfl rfl sample_block_length rfl rfl empty_target_header_length
    (by decide) (by decide) (by decide) (by decide)).2 sample_block

/-- C25: the result of the activation is ignored.  When the last content block
of a `Code` target has been written, the digest matches, and the switch of the
boot partition fails (`activate_new_code` returns false), `process_block`
still returns to phase `phHeader` with `status == stNoError`; the boot pointer
has not moved, and a stream that ends there makes `finish()` return true. -/
theorem activation_result_ignored (env : Env) (s : updater_t) (w w1 : World) (b : List Nat)
    (f : partition_updater_t)
    (hst : s.status = .stNoError) (hp : s.phase = .phContent) (hb : s.buffer = some b)
    (hl : b.length = SPI_FLASH_SEC_SIZE) (hrc : s.remaining_count = 1)
    (hws : s.partition_updater.write_sector env w b = some (f, w1, true))
    (ht : f._type = .utCode) (hm : f.match_md5 s.header.md5 = true)
    (hact : (f.activate_new_code env w1).2 = false) :
    ∃ s' w', updater_t.process_block env s w = some (s', w') ∧
      s'.phase = .phHeader ∧ s'.status = .stNoError ∧ (updater_t.finish s').2 = true ∧
      w'.boot = w.boot := by
  have hz : (s.remaining_count + U32 - 1) % U32 = 0 := by rw [hrc]; decide
  have hps : f._progress = f._size := by
    by_contra hne
    have : f.match_md5 s.header.md5 = false := by
      simp [partition_updater_t.match_md5, hne]
    rw [this] at hm
    cases hm
  obtain ⟨-, -, hboot, -, -⟩ := write_sector_frame hws
  rw [process_block_phContent env w hb hl hp]
  simp only [hws, hz, hm, ↓reduceIte, Bool.not_true, Bool.false_eq_true]
  refine ⟨_, _, rfl, rfl, hst, ?_, ?_⟩
  · simp [updater_t.finish, hst]
  · rw [activate_code env f w1 ht hps] at hact ⊢
    rw [set_boot_boot]
    have hact2 : (f._partition.isSome && env.io_ok w1.log.length) = false := hact
    rw [if_neg (by rw [hact2]; decide), hboot]

/-- C25 at a concrete input: on `boot_fail_env` the one-block `app` target is
written and verified, and the boot switch (the fifth primitive) fails. -/
theorem activation_result_ignored_witness :
    ∃ s' w', updater_t.process_block boot_fail_env last_block_state sample_world
        = some (s', w') ∧
      s'.phase = .phHeader ∧ s'.status = .stNoError ∧ (updater_t.finish s').2 = true ∧
      w'.boot = none := by
  obtain ⟨f, w1, h⟩ := write_sector_ok boot_fail_env (sample_session 4096) sample_world
    sample_block (by decide) (by decide) (by decide) (Nat.le_of_eq sample_block_length.symm) rfl
    (fun i hi => by
      show decide (0 + i ≠ 4) = true
      rw [decide_eq_true_iff]; omega)
  have hf := write_sector_true_fields h
  have hlog := write_sector_true_log h
    (show (sample_session 4096)._partition = some { address := 0x10000, size := 0x100000 }
      from rfl)
  have hps : f._progress = f._size := by rw [hf.2.2.2.1, hf.2.1]; decide
  have hbuf : f._md5.buf = boot_fail_env.md5sum f._md5.ctx :=
    hf.2.2.2.2.2.2.1 (by rw [← hf.2.1, hps])
  have hlen : w1.log.length = 4 := by
    obtain ⟨-, -, patch, hl⟩ := hlog.2.2.2 (by rw [← hf.2.1, hps])
    rw [hl]
    simp [sector_ops, sample_world]
  have hm : f.match_md5 last_block_state.header.md5 = true := by
    rw [match_md5_eq f _ (by rw [hf.1]; decide) hps, hbuf, decide_eq_true_iff]
    show (read_header sample_env (sample_header LABEL_app)).md5.take 16
      = List.take 16 (List.replicate 16 0)
    decide
  have hact : (f.activate_new_code boot_fail_env w1).2 = false := by
    rw [activate_code boot_fail_env f w1 hf.1 hps]
    show (f._partition.isSome && decide (w1.log.length ≠ 4)) = false
    rw [hlen]
    simp
  exact activation_result_ignored boot_fail_env last_block_state sample_world w1 sample_block f
    rfl rfl rfl sample_block_length rfl h hf.1 hm hact

/-- C29: an unknown active slot.  When the label of the running partition is
neither `"app0"` nor `"app1"`, `get_current_active_partition_number` returns
`-1` and `next_partition_from_type` looks up `OTA_1`, `"spiffs1"` and font
subtype 1: the same lookups as on a platform whose running partition is
labelled `"app0"`. -/
theorem unknown_active_slot (env : Env) (h0 : env.running_label ≠ STR_app0)
    (h1 : env.running_label ≠ STR_app1) :
    get_current_active_partition_number env = -1 ∧
    next_partition_from_type env .utCode =
      env.esp_partition_find_first ESP_PARTITION_TYPE_APP ESP_PARTITION_SUBTYPE_APP_OTA_1
        none ∧
    next_partition_from_type env .utSPIFFS =
      env.esp_partition_find_first ESP_PARTITION_TYPE_DATA ESP_PARTITION_SUBTYPE_DATA_SPIFFS
        (some STR_spiffs1) ∧
    next_partition_from_type env .utFont = env.esp_partition_find_first 0x40 1 none ∧
    (∀ env0 : Env, env0.running_label = STR_app0 →
      ∀ type, next_partition_query env0 type = next_partition_query env type) := by
  have ha : get_current_active_partition_number env = -1 := by
    simp [get_current_active_partition_number, h0, h1]
  refine ⟨ha, ?_, ?_, ?_, ?_⟩
  · simp [next_partition_from_type, next_partition_query, ha]
  · simp [next_partition_from_type, next_partition_query, ha]
  · simp [next_partition_from_type, next_partition_query, ha]
  · intro env0 h type
    have hb : get_current_active_partition_number env0 = 0 := by
      simp [get_current_active_partition_number, h]
    cases type <;> simp [next_partition_query, ha, hb]

/-- C29 at a concrete input: a platform running from the `"factory"` partition. -/
theorem unknown_active_slot_witness :
    get_current_active_partition_number factory_env = -1 ∧
    next_partition_query factory_env .utCode =
      some (ESP_PARTITION_TYPE_APP, ESP_PARTITION_SUBTYPE_APP_OTA_1, none) :=
  ⟨(unknown_active_slot factory_env (by decide) (by decide)).1, by decide⟩

theorem flash_image_length (P : Nat) (buf : List Nat) (hl : SPI_FLASH_SEC_SIZE ≤ buf.length) :
    (flash_image P buf).length = SPI_FLASH_SEC_SIZE := by
  unfold flash_image
  split
  · rw [List.length_set, List.length_take]; omega
  · rw [List.length_take]; omega

theorem flash_image_getD (P : Nat) (buf : List Nat) (i : Nat) (hi : i < SPI_FLASH_SEC_SIZE)
    (h0 : P ≠ 0 ∨ i ≠ 0) (d : Nat) :
    (flash_image P buf).getD i d = buf.getD i d := by
  unfold flash_image
  simp only [List.getD_eq_getElem?_getD]
  split
  · rename_i hP
    have hi0 : i ≠ 0 := by
      rcases h0 with h | h
      · exact absurd hP h
      · exact h
    rw [List.getElem?_set_ne (Ne.symm hi0), List.getElem?_take_of_lt hi]
  · rw [List.getElem?_take_of_lt hi]

theorem block_range {base a : Nat} (hb : base % SPI_FLASH_SEC_SIZE = 0) :
    a / SPI_FLASH_SEC_SIZE = base / SPI_FLASH_SEC_SIZE ↔
      base ≤ a ∧ a < base + SPI_FLASH_SEC_SIZE := by
  unfold SPI_FLASH_SEC_SIZE at *
  omega

/-- The bytes of flash other than the one at the region's base address after
a successful `write_sector` on a block-aligned region: the block just written
holds the input bytes, everything else is untouched. -/
theorem write_sector_mem_other {env : Env} {f f' : partition_updater_t} {w w' : World}
    {buf : List Nat} {part : esp_partition_t}
    (h : f.write_sector env w buf = some (f', w', true))
    (hpart : f._partition = some part)
    (hbase : part.address % SPI_FLASH_SEC_SIZE = 0)
    (hal : f._progress % SPI_FLASH_SEC_SIZE = 0)
    (hwrap : part.address + f._progress < U32)
    (a : Nat) (ha : a ≠ part.address) :
    w'.mem a =
      if part.address + f._progress ≤ a ∧ a < part.address + f._progress + SPI_FLASH_SEC_SIZE
      then buf.getD (a - (part.address + f._progress)) 0 % 256 else w.mem a := by
  obtain ⟨-, -, hl, -, part', w1, w2, hp', he, hw, hcase⟩ := write_sector_true h
  rw [hpart] at hp'
  injection hp' with hp'
  subst hp'
  have e := flashEraseSector_eq he
  have e2 := flashWrite_eq hw
  have hmod : (part.address + f._progress) % U32 = part.address + f._progress :=
    Nat.mod_eq_of_lt hwrap
  have hadr : (part.address + f._progress) % SPI_FLASH_SEC_SIZE = 0 := by
    unfold SPI_FLASH_SEC_SIZE at *
    omega
  have hm2 : w2.mem a =
      if part.address + f._progress ≤ a ∧ a < part.address + f._progress + SPI_FLASH_SEC_SIZE
      then buf.getD (a - (part.address + f._progress)) 0 % 256 else w.mem a := by
    rw [e2.2.2.2.2, e.2.2.2.2, hmod, flash_image_length _ _ hl]
    simp only [true_and]
    by_cases hin : part.address + f._progress ≤ a ∧
        a < part.address + f._progress + SPI_FLASH_SEC_SIZE
    · rw [if_pos hin, if_pos hin, if_pos ((block_range hadr).mpr hin), land_255]
      have hi : a - (part.address + f._progress) < SPI_FLASH_SEC_SIZE := by omega
      have h0 : f._progress ≠ 0 ∨ a - (part.address + f._progress) ≠ 0 := by
        by_cases hP : f._progress = 0
        · right
          rw [hP] at hin ⊢
          omega
        · left; exact hP
      rw [flash_image_getD _ _ _ hi h0]
      simp only [List.getD_eq_getElem?_getD]
      have hlt : a - (part.address + f._progress) < buf.length := by omega
      rw [List.getElem?_eq_getElem hlt]
      rfl
    · rw [if_neg hin, if_neg hin, if_neg (fun hc => hin ((block_range hadr).mp hc))]
  rcases hcase with ⟨-, hw', -⟩ | ⟨-, w3, buf4, hr, hw4, -⟩
  · rw [hw']; exact hm2
  · have e3 := flashRead_eq hr
    have e4 := flashWrite_eq hw4
    have hb4 : buf4 = (List.range 4).map (fun i => w2.mem (part.address + i)) := by
      have := e3.2.2.2.2
      split at this
      · injection this
      · cases this
    have hlen4 : (buf4.set 0 (first_byte_of f buf)).length = 4 := by
      rw [hb4]; simp
    rw [e4.2.2.2.2, e3.2.2.2.1, hlen4]
    simp only [true_and]
    by_cases hin : part.address ≤ a ∧ a < part.address + 4
    · rw [if_pos hin]
      have hi0 : a - part.address ≠ 0 := by omega
      have hi4 : a - part.address < 4 := by omega
      have hg : (buf4.set 0 (first_byte_of f buf)).getD (a - part.address) 0xFF = w2.mem a := by
        simp only [List.getD_eq_getElem?_getD]
        rw [List.getElem?_set_ne (Ne.symm hi0), hb4, List.getElem?_map,
          List.getElem?_range hi4]
        simp only [Option.map_some', Option.getD_some]
        congr 1
        omega
      rw [hg, Nat.and_self]
      exact hm2
    · rw [if_neg hin]
      exact hm2

theorem flatten_length_blocks (blocks : List (List Nat))
    (h : ∀ b ∈ blocks, b.length = SPI_FLASH_SEC_SIZE) :
    blocks.flatten.length = SPI_FLASH_SEC_SIZE * blocks.length := by
  induction blocks with
  | nil => rfl
  | cons b bs ih =>
    rw [List.flatten_cons, List.length_append, h b (List.mem_cons_self _ _),
      ih (fun x hx => h x (List.mem_cons_of_mem _ hx)), List.length_cons]
    unfold SPI_FLASH_SEC_SIZE
    omega

/-- The bytes of flash other than the one at the region's base address after
a run of successful `write_sector` calls on a block-aligned region. -/
theorem write_sectors_mem_other (env : Env) (blocks : List (List Nat)) :
    ∀ (f f' : partition_updater_t) (w w' : World) (part : esp_partition_t),
      write_sectors env f w blocks = some (f', w', true) →
      (∀ b ∈ blocks, b.length = SPI_FLASH_SEC_SIZE) →
      f._partition = some part → part.address % SPI_FLASH_SEC_SIZE = 0 →
      f._progress % SPI_FLASH_SEC_SIZE = 0 → f._size % SPI_FLASH_SEC_SIZE = 0 → f._size < U32 →
      part.address + f._size ≤ U32 →
      ∀ a, a ≠ part.address →
        w'.mem a =
          if part.address + f._progress ≤ a ∧
              a < part.address + f._progress + SPI_FLASH_SEC_SIZE * blocks.length
          then blocks.flatten.getD (a - (part.address + f._progress)) 0 % 256 else w.mem a := by
  induction blocks with
  | nil =>
    intro f f' w w' part h _ _ _ _ _ _ _ a _
    simp only [write_sectors, Option.some.injEq, Prod.mk.injEq, and_true] at h
    obtain ⟨-, h2⟩ := h
    subst h2
    rw [if_neg (by simp only [List.length_nil]; omega)]
  | cons b bs ih =>
    intro f f' w w' part h hb hpart hbase hp hs hu hwrap a ha
    obtain ⟨f1, w1, h1, h2⟩ := write_sectors_cons_true h
    obtain ⟨-, hlt, -, -, -⟩ := write_sector_true h1
    obtain ⟨-, e2, e3, e4, -⟩ := write_sector_true_fields h1
    obtain ⟨a1, a2, a3⟩ := aligned_step hp hs hlt hu
    rw [a1] at e4
    have hbl := hb b (List.mem_cons_self _ _)
    have hm := write_sector_mem_other h1 hpart hbase hp (by omega) a ha
    have hi := ih f1 f' w1 w' part h2 (fun x hx => hb x (List.mem_cons_of_mem _ hx))
      (by rw [e3]; exact hpart) hbase (by rw [e4]; exact a3) (by rw [e2]; exact hs)
      (by rw [e2]; exact hu) (by rw [e2]; exact hwrap) a ha
    rw [hi, hm, e4, List.flatten_cons, List.length_cons]
    simp only [List.getD_eq_getElem?_getD]
    by_cases hA : part.address + f._progress ≤ a ∧
        a < part.address + f._progress + SPI_FLASH_SEC_SIZE
    · rw [if_neg (by omega), if_pos hA, if_pos (by unfold SPI_FLASH_SEC_SIZE at *; omega),
        List.getElem?_append_left (by rw [hbl]; omega)]
    · by_cases hB : part.address + (f._progress + SPI_FLASH_SEC_SIZE) ≤ a ∧
          a < part.address + (f._progress + SPI_FLASH_SEC_SIZE) + SPI_FLASH_SEC_SIZE * bs.length
      · rw [if_pos hB, if_pos (by unfold SPI_FLASH_SEC_SIZE at *; omega),
          List.getElem?_append_right (by rw [hbl]; omega), hbl]
        have hidx : a - (part.address + f._progress) - SPI_FLASH_SEC_SIZE
            = a - (part.address + (f._progress + SPI_FLASH_SEC_SIZE)) := by omega
        rw [hidx]
      · rw [if_neg hB, if_neg hA, if_neg (by unfold SPI_FLASH_SEC_SIZE at *; omega)]

/-- C21: the final content of the flash.  A session opened by a successful
`begin(type, size)` on a block-aligned region inside the 32-bit address space,
fed `K >= 1` full blocks with `K * 4096 == size`, every `write_sector`
succeeding, leaves the concatenation of the `K` input blocks (each byte reduced
to 8 bits) in flash at `[base, base + size)`, the true first byte included. -/
theorem final_flash_content (env : Env) (f0 f1 f' : partition_updater_t) (w0 w' : World)
    (type : update_type_t) (size : Nat) (blocks : List (List Nat)) (part : esp_partition_t)
    (hbegin : f0.begin env type size = (f1, true)) (hpart : f1._partition = some part)
    (hbase : part.address % SPI_FLASH_SEC_SIZE = 0)
    (hsz : size < U32) (hwrap : part.address + size ≤ U32)
    (hblk : ∀ b ∈ blocks, b.length = SPI_FLASH_SEC_SIZE)
    (hK : 1 ≤ blocks.length) (hsize : blocks.length * SPI_FLASH_SEC_SIZE = size)
    (hrun : write_sectors env f1 w0 blocks = some (f', w', true)) :
    flash_bytes w' part.address size = blocks.flatten.map (fun x => x % 256) ∧
    ((∀ x ∈ blocks.flatten, x < 256) → flash_bytes w' part.address size = blocks.flatten) := by
  obtain ⟨hal, p, -, -, hf1⟩ := begin_true hbegin
  have hp0 : f1._progress = 0 := by rw [hf1]
  have hs1 : f1._size = size := by rw [hf1]
  have hne : blocks ≠ [] := by
    intro h0; rw [h0] at hK; exact absurd hK (by decide)
  have hflen := flatten_length_blocks blocks hblk
  obtain ⟨-, -, -, hprog, -, hlast⟩ := write_sectors_session env blocks f1 f' w0 w' hrun hblk
    (by rw [hp0]; rfl) (by rw [hs1]; exact hal) (by rw [hs1]; exact hsz)
  obtain ⟨-, -, hfb, -⟩ := hlast hne
  have hdone : f'._progress = f1._size := by
    rw [hprog, hp0, hs1, ← hsize]; unfold SPI_FLASH_SEC_SIZE; omega
  have hbaseb := (write_sectors_mem_base env blocks f1 f' w0 w' part hrun hne hblk hpart
    (by rw [hp0]; rfl) (by rw [hs1]; exact hal) (by rw [hs1]; exact hsz)
    (by rw [hs1]; exact hwrap)).2 hdone
  have hoth := write_sectors_mem_other env blocks f1 f' w0 w' part hrun hblk hpart hbase
    (by rw [hp0]; rfl) (by rw [hs1]; exact hal) (by rw [hs1]; exact hsz)
    (by rw [hs1]; exact hwrap)
  have hmain : flash_bytes w' part.address size = blocks.flatten.map (fun x => x % 256) := by
    apply List.ext_getElem?
    intro i
    unfold flash_bytes
    rw [List.getElem?_map, List.getElem?_map]
    by_cases hi : i < size
    · have hil : i < blocks.flatten.length := by
        rw [hflen, ← hsize] at *; unfold SPI_FLASH_SEC_SIZE at *; omega
      rw [List.getElem?_range hi, List.getElem?_eq_getElem hil]
      simp only [Option.map_some', Option.some.injEq]
      by_cases h0 : i = 0
      · subst h0
        rw [Nat.add_zero, hbaseb, if_pos hp0, hfb, if_pos hp0, land_255]
        cases blocks with
        | nil => exact absurd rfl hne
        | cons b bs =>
          have hbl := hblk b (List.mem_cons_self _ _)
          cases b with
          | nil => rw [List.length_nil] at hbl; exact absurd hbl (by decide)
          | cons x xs => rfl
      · rw [hoth (part.address + i) (by omega), hp0, Nat.add_zero,
          if_pos ⟨by omega, by rw [← hsize] at hi; unfold SPI_FLASH_SEC_SIZE at *; omega⟩,
          Nat.add_sub_cancel_left, List.getD_eq_getElem?_getD, List.getElem?_eq_getElem hil]
        rfl
    · have hil : blocks.flatten.length ≤ i := by
        rw [hflen, ← hsize] at *; unfold SPI_FLASH_SEC_SIZE at *; omega
      rw [List.getElem?_eq_none (by rw [List.length_range]; omega),
        List.getElem?_eq_none hil]
      rfl
  refine ⟨hmain, fun hbytes => ?_⟩
  rw [hmain]
  conv_rhs => rw [← List.map_id blocks.flatten]
  apply List.map_congr_left
  intro x hx
  exact Nat.mod_eq_of_lt (hbytes x hx)

/-- C21 at a concrete input: a one-block `Code` session on `sample_env`. -/
theorem final_flash_content_witness :
    ∃ f' w', write_sectors sample_env (sample_session 4096) sample_world [sample_block]
        = some (f', w', true) ∧
      flash_bytes w' 0x10000 4096 = [sample_block].flatten := by
  obtain ⟨f', w', h⟩ := sample_write_sector 4096 (by decide)
  have hrun := write_sectors_single h
  refine ⟨f', w', hrun, ?_⟩
  exact (final_flash_content sample_env idle_flasher (sample_session 4096) f' sample_world w'
    .utCode 4096 [sample_block] { address := 0x10000, size := 0x100000 }
    (sample_begin 4096 (by decide) (by decide)) rfl (by decide) (by decide) (by decide)
    (fun b hb => by
      rw [List.mem_singleton] at hb
      rw [hb]; exact sample_block_length)
    (by decide) (by decide) hrun).2
    (fun x hx => by
      rw [List.flatten_cons, List.flatten_nil, List.append_nil, sample_block,
        List.mem_replicate] at hx
      rw [hx.2]; decide)

/-- C22: the first byte is deferred while the image is incomplete.  In a
session opened by a successful `begin`, after the blocks `pre` have been
written, a successful `write_sector` for the next full block `b` erases the
sector of that block and hands the flash write the block itself, except that
for block 0 byte 0 is replaced by `0xFF`; and as long as the block just
written is not the last one of the session, the byte of flash at the base
address of the region is `0xFF` and nothing but the erase and the write was
issued. -/
theorem deferred_first_byte_incomplete (env : Env) (f0 f1 f2 f3 : partition_updater_t)
    (w0 w2 w3 : World) (type : update_type_t) (size : Nat) (pre : List (List Nat))
    (b : List Nat) (part : esp_partition_t)
    (hbegin : f0.begin env type size = (f1, true)) (hpart : f1._partition = some part)
    (hsz : size < U32) (hwrap : part.address + size ≤ U32)
    (hblk : ∀ x ∈ pre, x.length = SPI_FLASH_SEC_SIZE) (hb : b.length = SPI_FLASH_SEC_SIZE)
    (hpre : write_sectors env f1 w0 pre = some (f2, w2, true))
    (hws : f2.write_sector env w2 b = some (f3, w3, true)) :
    (∃ tail, w3.log = w2.log ++
      [FlashOp.erase ((part.address + SPI_FLASH_SEC_SIZE * pre.length) / SPI_FLASH_SEC_SIZE),
       FlashOp.write (part.address + SPI_FLASH_SEC_SIZE * pre.length)
        (if pre = [] then b.set 0 0xFF else b)] ++ tail) ∧
    ((pre.length + 1) * SPI_FLASH_SEC_SIZE < size →
      w3.log = w2.log ++
        [FlashOp.erase ((part.address + SPI_FLASH_SEC_SIZE * pre.length) / SPI_FLASH_SEC_SIZE),
         FlashOp.write (part.address + SPI_FLASH_SEC_SIZE * pre.length)
          (if pre = [] then b.set 0 0xFF else b)] ∧
      w3.mem part.address = 0xFF) := by
  obtain ⟨hal, p, -, -, hf1⟩ := begin_true hbegin
  have hp0 : f1._progress = 0 := by rw [hf1]
  have hs1 : f1._size = size := by rw [hf1]
  obtain ⟨-, hs2, hpart2, hprog, -, -⟩ := write_sectors_session env pre f1 f2 w0 w2 hpre hblk
    (by rw [hp0]; rfl) (by rw [hs1]; exact hal) (by rw [hs1]; exact hsz)
  rw [hp0, Nat.zero_add] at hprog
  rw [hs1] at hs2
  rw [hpart] at hpart2
  obtain ⟨-, hlt, -, -, -⟩ := write_sector_true hws
  rw [hs2, hprog] at hlt
  have hf3 := write_sector_true_fields hws
  have hal2 : f2._progress % SPI_FLASH_SEC_SIZE = 0 := by
    rw [hprog]; exact Nat.mul_mod_right _ _
  obtain ⟨a1, -, -⟩ := aligned_step (p := f2._progress) (s := size) hal2 hal
    (by rw [hprog]; exact hlt) hsz
  have hp3 : f3._progress = SPI_FLASH_SEC_SIZE * pre.length + SPI_FLASH_SEC_SIZE := by
    rw [hf3.2.2.2.1, a1, hprog]
  have hmod : (part.address + SPI_FLASH_SEC_SIZE * pre.length) % U32
      = part.address + SPI_FLASH_SEC_SIZE * pre.length := Nat.mod_eq_of_lt (by omega)
  have himg : flash_image (SPI_FLASH_SEC_SIZE * pre.length) b
      = if pre = [] then b.set 0 0xFF else b := by
    have ht : b.take SPI_FLASH_SEC_SIZE = b := List.take_of_length_le (Nat.le_of_eq hb)
    unfold flash_image
    rw [ht]
    cases pre with
    | nil => rfl
    | cons x xs =>
      rw [if_neg (by rw [List.length_cons]; unfold SPI_FLASH_SEC_SIZE; omega),
        if_neg (by exact List.cons_ne_nil _ _)]
  obtain ⟨-, -, hlog1, hlog2⟩ := write_sector_true_log hws hpart2
  rw [hs2, hp3, hprog] at hlog1 hlog2
  simp only [sector_ops, hmod, himg] at hlog1 hlog2
  refine ⟨?_, ?_⟩
  · by_cases hfin : SPI_FLASH_SEC_SIZE * pre.length + SPI_FLASH_SEC_SIZE < size
    · exact ⟨[], by rw [hlog1 hfin, List.append_nil]⟩
    · obtain ⟨-, -, patch, hl⟩ := hlog2 (by omega)
      exact ⟨_, by rw [hl, List.append_assoc]⟩
  · intro hinc
    have hfin : SPI_FLASH_SEC_SIZE * pre.length + SPI_FLASH_SEC_SIZE < size := by
      unfold SPI_FLASH_SEC_SIZE at *; omega
    refine ⟨hlog1 hfin, ?_⟩
    have hm := (write_sector_mem_base hws hpart2 hal2 (by rw [hprog]; omega)).1
      (by rw [hs2, hp3]; exact hfin)
    rw [hm]
    by_cases hpe : pre = []
    · subst hpe
      rw [if_pos (by rw [hprog]; rfl)]
    · have hne : f2._progress ≠ 0 := by
        rw [hprog]
        cases pre with
        | nil => exact absurd rfl hpe
        | cons x xs => rw [List.length_cons]; unfold SPI_FLASH_SEC_SIZE; omega
      rw [if_neg hne]
      have := (write_sectors_mem_base env pre f1 f2 w0 w2 part hpre hpe hblk hpart
        (by rw [hp0]; rfl) (by rw [hs1]; exact hal) (by rw [hs1]; exact hsz)
        (by rw [hs1]; exact hwrap)).1 (by rw [hs1, hprog]; omega)
      rw [this, if_pos hp0]

/-- C22 at a concrete input: block 0 of a two-block `Code` session on
`sample_env`. -/
theorem deferred_first_byte_incomplete_witness :
    ∃ f3 w3, (sample_session 8192).write_sector sample_env sample_world sample_block
        = some (f3, w3, true) ∧
      w3.log = [FlashOp.erase 16, FlashOp.write 0x10000 (sample_block.set 0 0xFF)] ∧
      w3.mem 0x10000 = 0xFF := by
  obtain ⟨f3, w3, h⟩ := sample_write_sector 8192 (by decide)
  exact ⟨f3, w3, h,
    (deferred_first_byte_incomplete sample_env idle_flasher (sample_session 8192)
      (sample_session 8192) f3 sample_world sample_world w3 .utCode 8192 [] sample_block
      { address := 0x10000, size := 0x100000 } (sample_begin 8192 (by decide) (by decide)) rfl
      (by decide) (by decide) (fun x hx => by cases hx) sample_block_length rfl h).2
      (by decide)⟩

/-- The shape of a `write_sector` call, whatever it returns: either nothing
happened, or the session was open and incomplete and the primitives issued are
among the erase and the write of the current block, the read of the first word
and the 4-byte patch. -/
theorem write_sector_shape {env : Env} {f f' : partition_updater_t} {w w' : World}
    {buf : List Nat} {r : Bool}
    (h : f.write_sector env w buf = some (f', w', r)) :
    (w'.log = w.log ∧ f' = f ∧ r = false) ∨
    (f._type ≠ .utUnknown ∧ f._progress < f._size ∧ SPI_FLASH_SEC_SIZE ≤ buf.length ∧
      ∃ part, f._partition = some part ∧
        (f'._progress = f._progress ∨
          f'._progress = (f._progress + SPI_FLASH_SEC_SIZE) % U32) ∧
        (f'._type = f._type ∨ (f'._type = .utUnknown ∧ r = false)) ∧
        ∃ ops, w'.log = w.log ++ ops ∧ ∀ op ∈ ops,
          op = FlashOp.erase ((part.address + f._progress) % U32 / SPI_FLASH_SEC_SIZE) ∨
          op = FlashOp.write ((part.address + f._progress) % U32)
            (flash_image f._progress buf) ∨
          op = FlashOp.read part.address 4 ∨
          ∃ buf4 : List Nat, buf4.length = 4 ∧ op = FlashOp.write part.address buf4) := by
  unfold partition_updater_t.write_sector write_sector_fail at h
  by_cases ht : f._type = .utUnknown
  · simp only [ht, ↓reduceIte, Option.some.injEq, Prod.mk.injEq] at h
    obtain ⟨h1, h2, h3⟩ := h
    subst h1; subst h2; subst h3
    exact Or.inl ⟨rfl, rfl, rfl⟩
  by_cases hp : f._progress ≥ f._size
  · simp only [ht, hp, ↓reduceIte, Option.some.injEq, Prod.mk.injEq] at h
    obtain ⟨h1, h2, h3⟩ := h
    subst h1; subst h2; subst h3
    exact Or.inl ⟨rfl, rfl, rfl⟩
  cases hm : env.malloc_ok w.mallocs
  · simp only [ht, hp, malloc_sector, hm, ↓reduceIte, Option.some.injEq, Prod.mk.injEq,
      Bool.false_eq_true] at h
    obtain ⟨h1, h2, h3⟩ := h
    subst h1; subst h2; subst h3
    exact Or.inl ⟨rfl, rfl, rfl⟩
  by_cases hl : buf.length < SPI_FLASH_SEC_SIZE
  · simp [ht, hp, malloc_sector, hm, hl] at h
  cases hpart : f._partition with
  | none => simp [ht, hp, malloc_sector, hm, hl, hpart] at h
  | some part =>
    right
    refine ⟨ht, Nat.not_le.mp hp, Nat.not_lt.mp hl, part, rfl, ?_⟩
    simp only [ht, hp, malloc_sector, hm, hl, hpart, ↓reduceIte] at h
    split at h
    · rename_i w1 he
      have e := flashEraseSector_eq he
      simp only [Option.some.injEq, Prod.mk.injEq] at h
      obtain ⟨h1, h2, h3⟩ := h
      subst h1; subst h2; subst h3
      refine ⟨Or.inl rfl, Or.inr ⟨rfl, rfl⟩, _, e.2.1, ?_⟩
      intro op hop
      rw [List.mem_singleton] at hop
      exact Or.inl hop
    rename_i w1 he
    have e := flashEraseSector_eq he
    split at h
    · rename_i w2 hw
      have e2 := flashWrite_eq hw
      simp only [Option.some.injEq, Prod.mk.injEq] at h
      obtain ⟨h1, h2, h3⟩ := h
      subst h1; subst h2; subst h3
      refine ⟨Or.inl rfl, Or.inr ⟨rfl, rfl⟩, _, by rw [e2.2.1, e.2.1, List.append_assoc], ?_⟩
      intro op hop
      simp only [List.singleton_append, List.mem_cons, List.mem_singleton, List.not_mem_nil,
        or_false] at hop
      rcases hop with hop | hop
      · exact Or.inl hop
      · exact Or.inr (Or.inl hop)
    rename_i w2 hw
    have e2 := flashWrite_eq hw
    by_cases hd : (f._progress + SPI_FLASH_SEC_SIZE) % U32 ≥ f._size
    · simp only [hd, ↓reduceIte] at h
      split at h
      · rename_i w3 hr
        have e3 := flashRead_eq hr
        simp only [Option.some.injEq, Prod.mk.injEq] at h
        obtain ⟨h1, h2, h3⟩ := h
        subst h1; subst h2; subst h3
        refine ⟨Or.inr rfl, Or.inr ⟨rfl, rfl⟩, _,
          by rw [e3.1, e2.2.1, e.2.1, List.append_assoc, List.append_assoc], ?_⟩
        intro op hop
        simp only [List.singleton_append, List.mem_cons, List.mem_singleton, List.not_mem_nil,
          or_false] at hop
        rcases hop with hop | hop | hop
        · exact Or.inl hop
        · exact Or.inr (Or.inl hop)
        · exact Or.inr (Or.inr (Or.inl hop))
      rename_i w3 buf4 hr
      have e3 := flashRead_eq hr
      have hb4 : buf4.length = 4 := by
        have := e3.2.2.2.2
        split at this
        · injection this with this
          rw [this]; simp
        · cases this
      split at h
      all_goals
        rename_i w4 hw2
        have e4 := flashWrite_eq hw2
        simp only [Option.some.injEq, Prod.mk.injEq] at h
        obtain ⟨h1, h2, h3⟩ := h
        subst h1; subst h2; subst h3
        refine ⟨Or.inr rfl, ?_, _,
          by rw [e4.2.1, e3.1, e2.2.1, e.2.1, List.append_assoc, List.append_assoc,
            List.append_assoc], ?_⟩
        · first
            | exact Or.inr ⟨rfl, rfl⟩
            | exact Or.inl rfl
        · intro op hop
          simp only [List.singleton_append, List.mem_cons, List.mem_singleton,
            List.not_mem_nil, or_false] at hop
          rcases hop with hop | hop | hop | hop
          · exact Or.inl hop
          · exact Or.inr (Or.inl hop)
          · exact Or.inr (Or.inr (Or.inl hop))
          · exact Or.inr (Or.inr (Or.inr ⟨_, by rw [List.length_set]; exact hb4, hop⟩))
    · simp only [hd, ↓reduceIte, Option.some.injEq, Prod.mk.injEq] at h
      obtain ⟨h1, h2, h3⟩ := h
      subst h1; subst h2; subst h3
      refine ⟨Or.inr rfl, Or.inl rfl, _, by rw [e2.2.1, e.2.1, List.append_assoc], ?_⟩
      intro op hop
      simp only [List.singleton_append, List.mem_cons, List.mem_singleton, List.not_mem_nil,
        or_false] at hop
      rcases hop with hop | hop
      · exact Or.inl hop
      · exact Or.inr (Or.inl hop)

theorem begin_session_inv {env : Env} {f0 f1 : partition_updater_t} {type : update_type_t}
    {size : Nat} (h : f0.begin env type size = (f1, true)) :
    size % SPI_FLASH_SEC_SIZE = 0 ∧
    ∃ p, next_partition_from_type env type = some p ∧ size ≤ p.size ∧ SessionInv p size f1 ∧
      f1._progress = 0 ∧ f1._type = type := by
  obtain ⟨hal, p, hp, hs, hf⟩ := begin_true h
  refine ⟨hal, p, hp, hs, ⟨by rw [hf], by rw [hf], by rw [hf]; rfl, by rw [hf]; exact Nat.zero_le _⟩,
    by rw [hf], by rw [hf]⟩

/-- One `write_sector` call keeps the session invariant; a successful call
advances the byte counter by one block and keeps the type. -/
theorem write_sector_session_step {env : Env} {f f' : partition_updater_t} {w w' : World}
    {buf : List Nat} {r : Bool} {p : esp_partition_t} {size : Nat}
    (h : f.write_sector env w buf = some (f', w', r))
    (hi : SessionInv p size f) (hs : size % SPI_FLASH_SEC_SIZE = 0) (hu : size < U32) :
    SessionInv p size f' ∧
    (r = true → f'._progress = f._progress + SPI_FLASH_SEC_SIZE ∧ f'._type = f._type ∧
      f._type ≠ .utUnknown) ∧
    (r = false → f'._type = .utUnknown ∨ f' = f) := by
  obtain ⟨hpart, hsize, hal, hle⟩ := hi
  obtain ⟨hfs, hfp, -, -, hff⟩ := write_sector_frame h
  rcases write_sector_shape h with ⟨-, hf, hr⟩ | ⟨ht, hlt, -, part, -, hprog, -, -⟩
  · subst hf
    refine ⟨⟨hpart, hsize, hal, hle⟩, fun hc => ?_, hff⟩
    rw [hr] at hc; cases hc
  · rw [hsize] at hlt
    obtain ⟨a1, a2, a3⟩ := aligned_step hal hs hlt hu
    refine ⟨⟨by rw [hfp]; exact hpart, by rw [hfs]; exact hsize, ?_, ?_⟩, fun hc => ?_, hff⟩
    · rcases hprog with e | e
      · rw [e]; exact hal
      · rw [e, a1]; exact a3
    · rcases hprog with e | e
      · rw [e]; exact hle
      · rw [e, a1]; exact a2
    · subst hc
      have hf := write_sector_true_fields h
      exact ⟨by rw [hf.2.2.2.1, a1], hf.1, ht⟩

theorem write_sector_calls_inv (env : Env) (p : esp_partition_t) (size : Nat)
    (hs : size % SPI_FLASH_SEC_SIZE = 0) (hu : size < U32) (bufs : List (List Nat)) :
    ∀ (f f' : partition_updater_t) (w w' : World) (rs : List Bool),
      SessionInv p size f → write_sector_calls env f w bufs = some (f', w', rs) →
      SessionInv p size f' ∧
      (f'._type ≠ .utUnknown →
        f'._type = f._type ∧
        f'._progress = f._progress + SPI_FLASH_SEC_SIZE * rs.count true) := by
  induction bufs with
  | nil =>
    intro f f' w w' rs hi h
    simp only [write_sector_calls, Option.some.injEq, Prod.mk.injEq] at h
    obtain ⟨h1, -, h3⟩ := h
    subst h1; subst h3
    exact ⟨hi, fun _ => ⟨rfl, rfl⟩⟩
  | cons b bs ih =>
    intro f f' w w' rs hi h
    unfold write_sector_calls at h
    cases h1 : f.write_sector env w b with
    | none => simp [h1] at h
    | some x =>
      obtain ⟨f1, w1, r⟩ := x
      simp only [h1] at h
      cases h2 : write_sector_calls env f1 w1 bs with
      | none => simp [h2] at h
      | some y =>
        obtain ⟨f2, w2, rs2⟩ := y
        simp only [h2, Option.some.injEq, Prod.mk.injEq] at h
        obtain ⟨e1, -, e3⟩ := h
        subst e1; subst e3
        obtain ⟨hi1, hT, hF⟩ := write_sector_session_step h1 hi hs hu
        obtain ⟨hi2, hrel⟩ := ih f1 f2 w1 w2 rs2 hi1 h2
        refine ⟨hi2, fun hne => ?_⟩
        obtain ⟨ht2, hp2⟩ := hrel hne
        cases r with
        | true =>
          obtain ⟨hp1, ht1, -⟩ := hT rfl
          refine ⟨by rw [ht2, ht1], ?_⟩
          rw [hp2, hp1, List.count_cons_self]
          unfold SPI_FLASH_SEC_SIZE; omega
        | false =>
          rcases hF rfl with hu1 | he
          · rw [ht2] at hne
            exact absurd hu1 hne
          · subst he
            refine ⟨ht2, ?_⟩
            rw [hp2, List.count_cons_of_ne (by decide)]

theorem write_sector_calls_total (env : Env) (p : esp_partition_t) (size : Nat)
    (hs : size % SPI_FLASH_SEC_SIZE = 0) (hu : size < U32) (bufs : List (List Nat)) :
    ∀ (f : partition_updater_t) (w : World), SessionInv p size f →
      (∀ b ∈ bufs, SPI_FLASH_SEC_SIZE ≤ b.length) →
      ∃ f' w' rs, write_sector_calls env f w bufs = some (f', w', rs) := by
  induction bufs with
  | nil => intro f w _ _; exact ⟨f, w, [], rfl⟩
  | cons b bs ih =>
    intro f w hi hb
    obtain ⟨⟨f1, w1, r⟩, h1⟩ := write_sector_isSome env f w b (hb b (List.mem_cons_self _ _))
      (by rw [hi.1]; exact Option.some_ne_none _)
    obtain ⟨hi1, -, -⟩ := write_sector_session_step h1 hi hs hu
    obtain ⟨f2, w2, rs, h2⟩ := ih f1 w1 hi1 (fun x hx => hb x (List.mem_cons_of_mem _ hx))
    exact ⟨f2, w2, r :: rs, by simp only [write_sector_calls, h1, h2]⟩

/-- C24: the progress invariant.  After a successful `begin(type, size)` the
byte counter is 0.  After any sequence of `write_sector` calls on full blocks,
successful or not, the counter is a multiple of the block size and at most
`size`, and, as long as the session is open, it is the block size times the
number of successful calls.  From any such state a successful `write_sector`
advances the counter by exactly one block, and a call refused as "not begun"
or "already done" returns false and leaves the session as it was. -/
theorem progress_invariant (env : Env) (f0 f1 : partition_updater_t) (type : update_type_t)
    (size : Nat) (w : World) (bufs : List (List Nat))
    (hbegin : f0.begin env type size = (f1, true)) (hsz : size < U32)
    (hbufs : ∀ b ∈ bufs, SPI_FLASH_SEC_SIZE ≤ b.length) :
    f1._progress = 0 ∧
    ∃ f' w' rs, write_sector_calls env f1 w bufs = some (f', w', rs) ∧
      f'._progress % SPI_FLASH_SEC_SIZE = 0 ∧ f'._progress ≤ size ∧ f'._size = size ∧
      (f'._type ≠ .utUnknown → f'._progress = SPI_FLASH_SEC_SIZE * rs.count true) ∧
      ∀ (buf : List Nat) (f2 : partition_updater_t) (w2 : World) (r : Bool),
        f'.write_sector env w' buf = some (f2, w2, r) →
        (r = true → f2._progress = f'._progress + SPI_FLASH_SEC_SIZE) ∧
        (f'._type = .utUnknown ∨ size ≤ f'._progress → r = false ∧ f2 = f' ∧ w2 = w') := by
  obtain ⟨hal, p, -, -, hi1, hp0, -⟩ := begin_session_inv hbegin
  obtain ⟨f', w', rs, hc⟩ := write_sector_calls_total env p size hal hsz bufs f1 w hi1 hbufs
  obtain ⟨hi2, hrel⟩ := write_sector_calls_inv env p size hal hsz bufs f1 f' w w' rs hi1 hc
  refine ⟨hp0, f', w', rs, hc, hi2.2.2.1, hi2.2.2.2, hi2.2.1, ?_, ?_⟩
  · intro hne
    rw [(hrel hne).2, hp0, Nat.zero_add]
  · intro buf f2 w2 r h
    refine ⟨fun hr => ?_, fun hcase => ?_⟩
    · subst hr
      exact ((write_sector_session_step h hi2 hal hsz).2.1 rfl).1
    · have hq : f'.write_sector env w' buf = some (f', w', false) := by
        rcases hcase with hu | hd
        · unfold partition_updater_t.write_sector
          simp [hu]
        · exact write_sector_done_eq env f' w' buf (by rw [hi2.2.1]; exact hd)
      rw [hq] at h
      injection h with h; injection h with h1 h2; injection h2 with h2 h3
      exact ⟨h3.symm, h1.symm, h2.symm⟩

/-- C24 at a concrete input: two full blocks offered to a one-block session;
the second call is refused. -/
theorem progress_invariant_witness :
    ∃ f' w' rs, write_sector_calls sample_env (sample_session 4096) sample_world
        [sample_block, sample_block] = some (f', w', rs) ∧
      f'._progress % SPI_FLASH_SEC_SIZE = 0 ∧ f'._progress ≤ 4096 := by
  obtain ⟨-, f', w', rs, h, h1, h2, -⟩ := progress_invariant sample_env idle_flasher
    (sample_session 4096) .utCode 4096 sample_world [sample_block, sample_block]
    (sample_begin 4096 (by decide) (by decide)) (by decide)
    (fun b hb => by
      have : b = sample_block := by
        simp only [List.mem_cons, List.mem_singleton, List.not_mem_nil, or_false, or_self] at hb
        exact hb
      rw [this]; exact Nat.le_of_eq sample_block_length.symm)
  exact ⟨f', w', rs, h, h1, h2⟩

theorem lockstep_step {env : Env} {s s' : updater_t} {w w' : World}
    (hl : Lockstep s) (h : updater_t.process_block env s w = some (s', w')) :
    Lockstep s' := by
  cases hb : s.buffer with
  | none => simp [updater_t.process_block, hb] at h
  | some b =>
    by_cases hlen : b.length = SPI_FLASH_SEC_SIZE
    · cases hp : s.phase with
      | phBegin =>
        rw [process_block_phBegin env w hb hlen hp] at h
        split at h
        all_goals
          injection h with h; injection h with h1 h2
          subst h1
          intro hph _
          simp only [hp] at hph
          cases hph
      | phHeader =>
        rw [process_block_phHeader env w hb hlen hp] at h
        split at h
        · injection h with h; injection h with h1 h2
          subst h1
          intro hph _
          simp only [hp] at hph
          cases hph
        · split at h
          · injection h with h; injection h with h1 h2
            subst h1
            intro hph _
            simp only [hp] at hph
            cases hph
          · rename_i hchk
            split at h
            · injection h with h; injection h with h1 h2
              subst h1
              intro hph _
              simp only [hp] at hph
              cases hph
            · split at h
              · injection h with h; injection h with h1 h2
                subst h1
                intro _ hst
                cases hst
              · rename_i f hbg
                injection h with h; injection h with h1 h2
                subst h1
                obtain ⟨-, q, -, -, hf⟩ := begin_true hbg
                intro _ _
                refine ⟨read_header_arc_len_lt env b, fun hpos => ?_⟩
                have hmod : (read_header env b).arc_len % SPI_FLASH_SEC_SIZE = 0 := by
                  by_contra hc
                  exact hchk (Or.inr hc)
                have hpos2 : 0 < (read_header env b).arc_len := hpos
                have hfs : f._size = (read_header env b).arc_len := by rw [hf]
                have hfp : f._progress = 0 := by rw [hf]
                show 1 ≤ (read_header env b).arc_len / SPI_FLASH_SEC_SIZE ∧
                  (read_header env b).arc_len / SPI_FLASH_SEC_SIZE * SPI_FLASH_SEC_SIZE
                    + f._progress = f._size ∧ f._size = (read_header env b).arc_len
                rw [hfs, hfp]
                unfold SPI_FLASH_SEC_SIZE at *
                omega
      | phContent =>
        rw [process_block_phContent env w hb hlen hp] at h
        cases hws : s.partition_updater.write_sector env w b with
        | none => simp [hws] at h
        | some x =>
          obtain ⟨f, w1, r⟩ := x
          cases r with
          | false =>
            simp only [hws] at h
            injection h with h; injection h with h1 h2
            subst h1
            intro _ hst
            cases hst
          | true =>
            simp only [hws] at h
            split at h
            · split at h
              · injection h with h; injection h with h1 h2
                subst h1
                intro _ hst
                cases hst
              · injection h with h; injection h with h1 h2
                subst h1
                intro hph _
                have hph2 : phase_t.phHeader = phase_t.phContent := hph
                cases hph2
            · rename_i hrc
              simp only [Option.some.injEq, Prod.mk.injEq] at h
              obtain ⟨h1, -⟩ := h
              rw [← h1]
              intro _ hst
              obtain ⟨hu, hrest⟩ := hl hp hst
              refine ⟨hu, fun hpos => ?_⟩
              obtain ⟨h1, h2, h3⟩ := hrest hpos
              have hf := write_sector_true_fields hws
              show 1 ≤ (s.remaining_count + U32 - 1) % U32 ∧
                (s.remaining_count + U32 - 1) % U32 * SPI_FLASH_SEC_SIZE + f._progress
                  = f._size ∧ f._size = s.header.arc_len
              rw [hf.2.2.2.1, hf.2.1]
              unfold SPI_FLASH_SEC_SIZE U32 at *
              omega
    · simp [updater_t.process_block, hb, hlen] at h

/-- C26: counter lockstep.  In every state reached from `updater_t::begin()`
by `write_data` calls in which the phase is `phContent`, the status is
`stNoError` and the header announces `arc_len > 0`: `remaining_count >= 1` and
`remaining_count * 4096 + _progress == _size == arc_len`.  Consequently the
session is not yet fully written when the next block arrives (`write_sector`
does not fail with "already done"), and when the block that brings
`remaining_count` to zero has been written, the session is complete
(`match_md5` is called with `_progress == _size`). -/
theorem counter_lockstep (env : Env) (s0 : updater_t) (w0 : World) (chunks : List (List Nat))
    (h0 : ∀ b, s0.buffer = some b → b.length = SPI_FLASH_SEC_SIZE) :
    ∃ s w,
      write_chunks env (updater_t.begin env s0 w0).1 (updater_t.begin env s0 w0).2 chunks
        = some (s, w) ∧
      (s.phase = .phContent → s.status = .stNoError → 0 < s.header.arc_len →
        1 ≤ s.remaining_count ∧
        s.remaining_count * SPI_FLASH_SEC_SIZE + s.partition_updater._progress
          = s.partition_updater._size ∧
        s.partition_updater._size = s.header.arc_len ∧
        s.partition_updater._progress < s.partition_updater._size ∧
        ∀ (b : List Nat) (f : partition_updater_t) (w1 : World),
          s.partition_updater.write_sector env w b = some (f, w1, true) →
          (s.remaining_count + U32 - 1) % U32 = 0 → f._progress = f._size) := by
  have hi := begin_inv env s0 w0 h0
  have hph := (begin_fields env s0 w0).2.2.1
  rw [write_chunks_eq_write_data env chunks _ _ hi]
  obtain ⟨⟨s, w⟩, hr, -⟩ := write_data_total env (updater_t.begin env s0 w0).1
    (updater_t.begin env s0 w0).2 chunks.flatten hi
  have hl : Lockstep s :=
    write_data_preserves env (fun s1 _ => Lockstep s1) (fun s1 _ _ _ hP => hP)
      (fun s1 s2 w1 w2 _ hP hpb => lockstep_step hP hpb) chunks.flatten _ s _ w hi
      (fun hc => by rw [hph] at hc; cases hc) hr
  refine ⟨s, w, hr, fun hp hst hpos => ?_⟩
  obtain ⟨hu, hrest⟩ := hl hp hst
  obtain ⟨h1, h2, h3⟩ := hrest hpos
  refine ⟨h1, h2, h3, ?_, ?_⟩
  · unfold SPI_FLASH_SEC_SIZE at *; omega
  · intro b f w1 hws hz
    have hf := write_sector_true_fields hws
    rw [hf.2.2.2.1, hf.2.1]
    unfold SPI_FLASH_SEC_SIZE U32 at *
    omega

theorem sample_truncated_state :
    ∃ s w,
      write_chunks sample_env (updater_t.begin sample_env idle_updater sample_world).1
        (updater_t.begin sample_env idle_updater sample_world).2
        [sample_magic ++ sample_header LABEL_app, [1, 2, 3]] = some (s, w) ∧
      s.phase = .phContent ∧ s.status = .stNoError ∧ s.header.arc_len = 4096 ∧
      s.remaining_count = 1 := by
  have h0 : ∀ b, idle_updater.buffer = some b → b.length = SPI_FLASH_SEC_SIZE :=
    fun b hb => (by cases hb)
  have hi := begin_inv sample_env idle_updater sample_world h0
  have hf := begin_fields sample_env idle_updater sample_world
  have hhl := sample_header_length LABEL_app rfl
  rw [write_chunks_eq_write_data sample_env _ _ _ hi]
  have hfl : [sample_magic ++ sample_header LABEL_app, [1, 2, 3]].flatten
      = sample_magic ++ (sample_header LABEL_app ++ [1, 2, 3]) := by
    simp only [List.flatten_cons, List.flatten_nil, List.append_assoc, List.append_nil]
  rw [hfl, magic_accept sample_env idle_updater sample_world sample_magic _ h0 (fun _ => rfl)
      sample_magic_length (by decide),
    write_data_block sample_env _
      (s := { (updater_t.begin sample_env idle_updater sample_world).1 with
        buffer := some sample_magic, phase := .phHeader })
      (sample_header LABEL_app) [1, 2, 3] hf.2.2.2.1 rfl sample_magic_length hf.1 hhl]
  have hacc := header_accept sample_env
    { (updater_t.begin sample_env idle_updater sample_world).1 with
        buffer := some sample_magic, phase := .phHeader }
    (updater_t.begin sample_env idle_updater sample_world).2 (sample_header LABEL_app)
    sample_block { address := 0x10000, size := 0x100000 } rfl sample_target_app
  simp only at hacc
  rw [hacc]
  simp only
  obtain ⟨b', hb'⟩ := write_data_tail sample_env
    (updater_t.begin sample_env idle_updater sample_world).2
    (s := { (updater_t.begin sample_env idle_updater sample_world).1 with
        buffer := some (sample_header LABEL_app),
        header := read_header sample_env (sample_header LABEL_app),
        partition_updater :=
          { _type := type_of_label (read_header sample_env (sample_header LABEL_app)).label,
            _size := (read_header sample_env (sample_header LABEL_app)).arc_len, _progress := 0,
            _partition := some { address := 0x10000, size := 0x100000 },
            _first_byte :=
              (updater_t.begin sample_env idle_updater sample_world).1.partition_updater._first_byte,
            _md5 :=
              (updater_t.begin sample_env idle_updater sample_world).1.partition_updater._md5.begin },
        remaining_count :=
          (read_header sample_env (sample_header LABEL_app)).arc_len / SPI_FLASH_SEC_SIZE,
        phase := .phContent })
    [1, 2, 3] hf.2.2.2.1 rfl hhl (by simp only [hf.1]; decide)
  refine ⟨_, _, hb', rfl, hf.2.2.2.1, ?_, ?_⟩
  · show (read_header sample_env (sample_header LABEL_app)).arc_len = 4096
    decide
  · show (read_header sample_env (sample_header LABEL_app)).arc_len / SPI_FLASH_SEC_SIZE = 1
    decide

/-- C26 at a concrete input: three bytes into the content of a one-block
`app` target. -/
theorem counter_lockstep_witness :
    ∃ s w,
      write_chunks sample_env (updater_t.begin sample_env idle_updater sample_world).1
        (updater_t.begin sample_env idle_updater sample_world).2
        [sample_magic ++ sample_header LABEL_app, [1, 2, 3]] = some (s, w) ∧
      s.phase = .phContent ∧ s.status = .stNoError ∧ 0 < s.header.arc_len ∧
      1 ≤ s.remaining_count ∧
      s.remaining_count * SPI_FLASH_SEC_SIZE + s.partition_updater._progress
        = s.partition_updater._size := by
  obtain ⟨s, w, hrun, hp, hst, ha, -⟩ := sample_truncated_state
  obtain ⟨s', w', hrun', H⟩ := counter_lockstep sample_env idle_updater sample_world
    [sample_magic ++ sample_header LABEL_app, [1, 2, 3]] (fun b hb => (by cases hb))
  rw [hrun] at hrun'
  injection hrun' with hrun'
  injection hrun' with e1 e2
  subst e1
  have hpos : 0 < s.header.arc_len := by rw [ha]; decide
  exact ⟨s, w, hrun, hp, hst, hpos, (H hp hst hpos).1, (H hp hst hpos).2.1⟩

theorem pending_length {s : updater_t} (hi : Inv s) (hb : s.buffer ≠ none) :
    (pending s).length = s.buffer_pos := by
  cases hbuf : s.buffer with
  | none => exact absurd hbuf hb
  | some b =>
    have hl := hi.2.1 b hbuf
    have hp := hi.1
    simp only [pending, hbuf, Option.getD_some, List.length_take]
    omega

theorem write_data_single_pos (env : Env) (s s' : updater_t) (w w' : World) (x : Nat)
    (hi : Inv s) (h : updater_t.write_data env s w [x] = some (s', w'))
    (hst : s'.status = .stNoError) (hb : s'.buffer ≠ none) :
    s.status = .stNoError ∧ s.buffer ≠ none ∧
    s'.buffer_pos = (s.buffer_pos + 1) % SPI_FLASH_SEC_SIZE ∧
    pending s' = (pending s ++ [x]).drop
      ((s.buffer_pos + 1) / SPI_FLASH_SEC_SIZE * SPI_FLASH_SEC_SIZE) := by
  by_cases hs : s.status = .stNoError
  · cases hbuf : s.buffer with
    | none =>
      rw [write_data_of_null w [x] hbuf] at h
      injection h with h; injection h with h1 h2
      subst h1
      exact absurd hbuf hb
    | some b =>
      have hl := hi.2.1 b hbuf
      have hp := hi.1
      have hpl : (pending s).length = s.buffer_pos := pending_length hi (by rw [hbuf]; simp)
      have hps : pending s = b.take s.buffer_pos := by simp only [pending, hbuf, Option.getD_some]
      rw [write_data_single env s w x b hs hbuf hl hp] at h
      refine ⟨hs, by simp, ?_⟩
      split at h
      · rename_i hfull
        have hfr := process_block_frame h
        have hpos' : s'.buffer_pos = 0 := hfr.2
        refine ⟨by rw [hpos', hfull]; rfl, ?_⟩
        rw [pending, hpos', List.take_zero, hfull]
        symm
        apply List.drop_of_length_le
        rw [List.length_append, hpl, List.length_singleton, hfull]
        exact Nat.le_of_eq (by decide)
      · rename_i hnf
        injection h with h; injection h with h1 h2
        subst h1
        have hlt : s.buffer_pos + 1 < SPI_FLASH_SEC_SIZE := by omega
        refine ⟨(Nat.mod_eq_of_lt hlt).symm, ?_⟩
        rw [Nat.div_eq_of_lt hlt, Nat.zero_mul, List.drop_zero, hps]
        show List.take (s.buffer_pos + 1)
          (b.take s.buffer_pos ++ [x] ++ b.drop (s.buffer_pos + 1)) = _
        rw [List.take_append_of_le_length (by simp; omega)]
        rw [List.take_of_length_le (by simp)]
  · rw [write_data_of_status w [x] hs] at h
    injection h with h; injection h with h1 h2
    subst h1
    exact absurd hst hs

/-- The position in the receive buffer and the bytes waiting there after a
`write_data` call that ends without error. -/
theorem write_data_pos (env : Env) (buf : List Nat) :
    ∀ (s s' : updater_t) (w w' : World), Inv s →
      updater_t.write_data env s w buf = some (s', w') →
      s'.status = .stNoError → s'.buffer ≠ none →
      s'.buffer_pos = (s.buffer_pos + buf.length) % SPI_FLASH_SEC_SIZE ∧
      pending s' = (pending s ++ buf).drop
        ((s.buffer_pos + buf.length) / SPI_FLASH_SEC_SIZE * SPI_FLASH_SEC_SIZE) := by
  induction buf with
  | nil =>
    intro s s' w w' hi h _ _
    rw [write_data_of_nil] at h
    injection h with h; injection h with h1 h2
    subst h1
    have hp := hi.1
    rw [List.length_nil, Nat.add_zero, Nat.mod_eq_of_lt hp, Nat.div_eq_of_lt hp, Nat.zero_mul,
      List.drop_zero, List.append_nil]
    exact ⟨rfl, rfl⟩
  | cons x xs ih =>
    intro s s' w w' hi h hst hb
    rw [show x :: xs = [x] ++ xs from rfl, write_data_append env s w [x] xs hi] at h
    obtain ⟨r, hr, hir⟩ := write_data_single_total env s w x hi
    obtain ⟨s1, w1⟩ := r
    rw [hr] at h
    have h : updater_t.write_data env s1 w1 xs = some (s', w') := h
    have hst1 : s1.status = .stNoError := by
      by_contra hc
      rw [write_data_of_status w1 xs hc] at h
      injection h with h; injection h with h1 h2
      subst h1
      exact hc hst
    have hb1 : s1.buffer ≠ none := by
      intro hc
      rw [write_data_of_null w1 xs hc] at h
      injection h with h; injection h with h1 h2
      subst h1
      exact hb hc
    obtain ⟨-, hbs, hp1, hq1⟩ := write_data_single_pos env s s1 w w1 x hi hr hst1 hb1
    obtain ⟨hp2, hq2⟩ := ih s1 s' w1 w' hir h hst hb
    have hpl := pending_length hi hbs
    have hp := hi.1
    refine ⟨?_, ?_⟩
    · rw [hp2, hp1, List.length_cons]
      unfold SPI_FLASH_SEC_SIZE at *
      omega
    · rw [hq2, hq1, hp1]
      by_cases hfull : s.buffer_pos + 1 = SPI_FLASH_SEC_SIZE
      · have hd : (pending s ++ [x]).drop
            ((s.buffer_pos + 1) / SPI_FLASH_SEC_SIZE * SPI_FLASH_SEC_SIZE) = [] := by
          apply List.drop_of_length_le
          rw [List.length_append, hpl, List.length_singleton, hfull]
          exact Nat.le_of_eq (by decide)
        have hlen : (pending s ++ [x]).length = SPI_FLASH_SEC_SIZE := by
          rw [List.length_append, hpl, List.length_singleton, hfull]
        have he : (s.buffer_pos + (x :: xs).length) / SPI_FLASH_SEC_SIZE * SPI_FLASH_SEC_SIZE
            = (pending s ++ [x]).length + xs.length / SPI_FLASH_SEC_SIZE * SPI_FLASH_SEC_SIZE := by
          rw [hlen, List.length_cons]
          unfold SPI_FLASH_SEC_SIZE at *
          omega
        rw [hd, List.nil_append, he, show x :: xs = [x] ++ xs from rfl, ← List.append_assoc,
          List.drop_append, hfull]
        have hz : SPI_FLASH_SEC_SIZE % SPI_FLASH_SEC_SIZE + xs.length = xs.length := by
          rw [Nat.mod_self, Nat.zero_add]
        rw [hz]
      · have hlt : s.buffer_pos + 1 < SPI_FLASH_SEC_SIZE := by omega
        rw [Nat.div_eq_of_lt hlt, Nat.zero_mul, List.drop_zero, Nat.mod_eq_of_lt hlt,
          List.append_assoc, List.length_cons]
        have hz : s.buffer_pos + 1 + xs.length = s.buffer_pos + (xs.length + 1) := by omega
        rw [hz]
        rfl

/-- C30: the receive-buffer bound.  From `updater_t::begin()`, every sequence
of `write_data` calls with arbitrary sizes has a defined result: each copy
stays inside the 4096-byte allocation and each loop ends within its bound.
Between calls `buffer_pos < 4096`, so the next copy covers
`[buffer_pos, buffer_pos + one_size)` with `buffer_pos + one_size <= 4096`.
Unless the status became `stCorrupted`, all input bytes were consumed: every
full block of the input went through `process_block`, `buffer_pos` is the
number of input bytes modulo 4096 and the buffer holds the bytes after the last
full block. -/
theorem receive_buffer_bound (env : Env) (s0 : updater_t) (w0 : World)
    (chunks : List (List Nat))
    (h0 : ∀ b, s0.buffer = some b → b.length = SPI_FLASH_SEC_SIZE) :
    ∃ s w,
      write_chunks env (updater_t.begin env s0 w0).1 (updater_t.begin env s0 w0).2 chunks
        = some (s, w) ∧
      s.buffer_pos < SPI_FLASH_SEC_SIZE ∧
      (∀ b, s.buffer = some b → b.length = SPI_FLASH_SEC_SIZE) ∧
      (∀ n, s.buffer_pos + min ((SPI_FLASH_SEC_SIZE + U32 - s.buffer_pos) % U32) n
        ≤ SPI_FLASH_SEC_SIZE) ∧
      (∃ sj, run_blocks env (updater_t.begin env s0 w0).1 (updater_t.begin env s0 w0).2
          chunks.flatten (chunks.flatten.length / SPI_FLASH_SEC_SIZE) = some (sj, w) ∧
        s.phase = sj.phase ∧ s.status = sj.status) ∧
      (s.status = .stNoError → s.buffer ≠ none →
        s.buffer_pos = chunks.flatten.length % SPI_FLASH_SEC_SIZE ∧
        pending s = chunks.flatten.drop
          (chunks.flatten.length / SPI_FLASH_SEC_SIZE * SPI_FLASH_SEC_SIZE)) := by
  have hi := begin_inv env s0 w0 h0
  have hf := begin_fields env s0 w0
  obtain ⟨⟨s, w⟩, hr, his⟩ := write_data_total env (updater_t.begin env s0 w0).1
    (updater_t.begin env s0 w0).2 chunks.flatten hi
  have hrun : write_chunks env (updater_t.begin env s0 w0).1 (updater_t.begin env s0 w0).2
      chunks = some (s, w) := by
    rw [write_chunks_eq_write_data env chunks _ _ hi]; exact hr
  obtain ⟨sj, hsj, hph, hst, -, -⟩ := write_chunks_blocks env s0 w0 chunks h0 hrun
  refine ⟨s, w, hrun, his.1, his.2.1, ?_, ⟨sj, hsj, hph, hst⟩, ?_⟩
  · intro n
    have hp : s.buffer_pos < SPI_FLASH_SEC_SIZE := his.1
    rw [U32_remain _ (Nat.le_of_lt hp)]
    have := Nat.min_le_left (SPI_FLASH_SEC_SIZE - s.buffer_pos) n
    omega
  · intro hok hbuf
    obtain ⟨h1, h2⟩ := write_data_pos env chunks.flatten _ s _ w hi hr hok hbuf
    rw [hf.1, Nat.zero_add] at h1 h2
    have hpe : pending (updater_t.begin env s0 w0).1 = [] := by
      rw [pending, hf.1, List.take_zero]
    rw [hpe, List.nil_append] at h2
    exact ⟨h1, h2⟩

/-- C30 at a concrete input: the magic block, a header block and three more
bytes, in two calls. -/
theorem receive_buffer_bound_witness :
    ∃ s w,
      write_chunks sample_env (updater_t.begin sample_env idle_updater sample_world).1
        (updater_t.begin sample_env idle_updater sample_world).2
        [sample_magic ++ sample_header LABEL_app, [1, 2, 3]] = some (s, w) ∧
      s.buffer_pos < SPI_FLASH_SEC_SIZE ∧
      (∀ b, s.buffer = some b → b.length = SPI_FLASH_SEC_SIZE) := by
  obtain ⟨s, w, h, h1, h2, -⟩ := receive_buffer_bound sample_env idle_updater sample_world
    [sample_magic ++ sample_header LABEL_app, [1, 2, 3]] (fun b hb => (by cases hb))
  exact ⟨s, w, h, h1, h2⟩

/-- C28 as amended: a trailing partial block is ignored.  The result of
`finish()` does not depend on `buffer_pos` or on the contents of the receive
buffer.  When the bytes left over after the last full block of a stream,
together with the bytes `t`, are fewer than one block, feeding `t` after the
stream changes neither the phase nor the status nor the platform state, and
`finish()` returns what it would have returned without `t`. -/
theorem trailing_partial_block (env : Env) (s0 : updater_t) (w0 : World) (str t : List Nat)
    (h0 : ∀ b, s0.buffer = some b → b.length = SPI_FLASH_SEC_SIZE)
    (ht : str.length % SPI_FLASH_SEC_SIZE + t.length < SPI_FLASH_SEC_SIZE) :
    (∃ s1 s2 w,
      updater_t.write_data env (updater_t.begin env s0 w0).1 (updater_t.begin env s0 w0).2 str
        = some (s1, w) ∧
      updater_t.write_data env (updater_t.begin env s0 w0).1 (updater_t.begin env s0 w0).2
        (str ++ t) = some (s2, w) ∧
      s2.phase = s1.phase ∧ s2.status = s1.status ∧
      (updater_t.finish s2).2 = (updater_t.finish s1).2) ∧
    (∀ (u : updater_t) (b : Option (List Nat)) (pos : Nat),
      (updater_t.finish { u with buffer := b, buffer_pos := pos }).2 = (updater_t.finish u).2) := by
  have hi := begin_inv env s0 w0 h0
  have hf := begin_fields env s0 w0
  refine ⟨?_, fun u b pos => rfl⟩
  obtain ⟨⟨s1, w1⟩, hr1, hi1⟩ := write_data_total env (updater_t.begin env s0 w0).1
    (updater_t.begin env s0 w0).2 str hi
  rw [write_data_append env _ _ str t hi, hr1]
  show ∃ s1' s2 w, some (s1, w1) = some (s1', w) ∧
    updater_t.write_data env s1 w1 t = some (s2, w) ∧ _
  by_cases hst : s1.status = .stNoError
  · cases hb : s1.buffer with
    | none =>
      exact ⟨s1, s1, w1, rfl, write_data_of_null w1 t hb, rfl, rfl, rfl⟩
    | some b =>
      have hpos := (write_data_pos env str _ s1 _ w1 hi hr1 hst (by rw [hb]; simp)).1
      rw [hf.1, Nat.zero_add] at hpos
      obtain ⟨b', hb'⟩ := write_data_tail env w1 t hst hb (hi1.2.1 b hb)
        (by rw [hpos]; exact ht)
      exact ⟨s1, _, w1, rfl, hb', rfl, rfl, rfl⟩
  · exact ⟨s1, s1, w1, rfl, write_data_of_status w1 t hst, rfl, rfl, rfl⟩

/-- C28 as amended, at a concrete input: the magic block followed by 100
bytes. -/
theorem trailing_partial_block_witness :
    ∃ s2 w,
      updater_t.write_data sample_env (updater_t.begin sample_env idle_updater sample_world).1
        (updater_t.begin sample_env idle_updater sample_world).2
        (sample_magic ++ List.replicate 100 7) = some (s2, w) ∧
      (updater_t.finish s2).2 = true := by
  have h0 : ∀ b, idle_updater.buffer = some b → b.length = SPI_FLASH_SEC_SIZE :=
    fun b hb => (by cases hb)
  have hm := magic_accept sample_env idle_updater sample_world sample_magic [] h0
    (fun _ => rfl) sample_magic_length (by decide)
  rw [List.append_nil, write_data_of_nil] at hm
  obtain ⟨⟨s1, s2, w, hr1, hr2, hph, hst, hfin⟩, -⟩ := trailing_partial_block sample_env
    idle_updater sample_world sample_magic (List.replicate 100 7) h0
    (by rw [sample_magic_length, List.length_replicate]; decide)
  rw [hm] at hr1
  injection hr1 with hr1
  injection hr1 with e1 e2
  subst e1
  exact ⟨s2, w, hr2, by rw [hfin]; rfl⟩

theorem bad_header_block (env : Env) (s : updater_t) (w : World) (b blk : List Nat)
    (hst : s.status = .stNoError) (hb : s.buffer = some b)
    (hl : b.length = SPI_FLASH_SEC_SIZE) (hpos : s.buffer_pos = 0) (hph : s.phase = .phHeader)
    (hblk : blk.length = SPI_FLASH_SEC_SIZE) (hne : blk.take 16 ≠ FILE_BOUNDARY) :
    ∃ s2, updater_t.write_data env s w blk = some (s2, w) ∧ s2.status = .stCorrupted := by
  have h := write_data_block env w blk [] hst hb hl hpos hblk
  rw [List.append_nil,
    process_block_phHeader env w (s := { s with buffer := some blk }) rfl hblk hph,
    if_pos hne] at h
  simp only at h
  rw [write_data_of_nil] at h
  exact ⟨_, h, rfl⟩

/-- C28 as stated fails when the stream does not end on a block boundary: after
the magic block and one more byte `finish()` would return true, and 4095
further bytes (a string shorter than one block) complete a block that is not a
target header, after which `finish()` returns false. -/
theorem partial_block_completes_block :
    ∃ s1 w1 s2 w2,
      updater_t.write_data sample_env (updater_t.begin sample_env idle_updater sample_world).1
        (updater_t.begin sample_env idle_updater sample_world).2
        (sample_magic ++ [1]) = some (s1, w1) ∧
      (updater_t.finish s1).2 = true ∧
      (List.replicate 4095 0).length < SPI_FLASH_SEC_SIZE ∧
      updater_t.write_data sample_env (updater_t.begin sample_env idle_updater sample_world).1
        (updater_t.begin sample_env idle_updater sample_world).2
        ((sample_magic ++ [1]) ++ List.replicate 4095 0) = some (s2, w2) ∧
      (updater_t.finish s2).2 = false := by
  have h0 : ∀ b, idle_updater.buffer = some b → b.length = SPI_FLASH_SEC_SIZE :=
    fun b hb => (by cases hb)
  have hf := begin_fields sample_env idle_updater sample_world
  have hl1 : (([1] : List Nat) ++ List.replicate 4095 0).length = SPI_FLASH_SEC_SIZE := by
    rw [List.length_append, List.length_replicate, List.length_singleton]; rfl
  have hne : (([1] : List Nat) ++ List.replicate 4095 0).take 16 ≠ FILE_BOUNDARY := by decide
  obtain ⟨b', hb'⟩ := write_data_tail sample_env
    (updater_t.begin sample_env idle_updater sample_world).2
    (s := { (updater_t.begin sample_env idle_updater sample_world).1 with
        buffer := some sample_magic, phase := .phHeader })
    [1] hf.2.2.2.1 rfl sample_magic_length
    (by simp only [hf.1, List.length_singleton]; decide)
  obtain ⟨s2, hs2, hc2⟩ := bad_header_block sample_env
    { (updater_t.begin sample_env idle_updater sample_world).1 with
        buffer := some sample_magic, phase := .phHeader }
    (updater_t.begin sample_env idle_updater sample_world).2 sample_magic
    ([1] ++ List.replicate 4095 0) hf.2.2.2.1 rfl sample_magic_length hf.1 rfl hl1 hne
  have hA : ∃ s1 w1,
      updater_t.write_data sample_env (updater_t.begin sample_env idle_updater sample_world).1
        (updater_t.begin sample_env idle_updater sample_world).2
        (sample_magic ++ [1]) = some (s1, w1) ∧ (updater_t.finish s1).2 = true := by
    rw [magic_accept sample_env idle_updater sample_world sample_magic _ h0 (fun _ => rfl)
      sample_magic_length (by decide)]
    exact ⟨_, _, hb', by simp [updater_t.finish, hf.2.2.2.1]⟩
  have hB : ∃ w2,
      updater_t.write_data sample_env (updater_t.begin sample_env idle_updater sample_world).1
        (updater_t.begin sample_env idle_updater sample_world).2
        ((sample_magic ++ [1]) ++ List.replicate 4095 0) = some (s2, w2) := by
    rw [List.append_assoc, magic_accept sample_env idle_updater sample_world sample_magic _ h0
      (fun _ => rfl) sample_magic_length (by decide)]
    exact ⟨_, hs2⟩
  obtain ⟨s1, w1, hr1, hfin1⟩ := hA
  obtain ⟨w2, hr2⟩ := hB
  exact ⟨s1, w1, s2, w2, hr1, hfin1, by rw [List.length_replicate]; decide, hr2,
    finish_false_of_status hc2⟩

theorem write_sector_unknown_eq (env : Env) (f : partition_updater_t) (w : World)
    (buf : List Nat) (h : f._type = .utUnknown) :
    f.write_sector env w buf = some (f, w, false) := by
  unfold partition_updater_t.write_sector
  simp [h]

/-- A `write_sector` call that returns false changes no byte of flash outside
the sector it erases and the block it writes: the `fail:` exit touches the
flash no further, and a primitive that fails leaves the flash as it was. -/
theorem write_sector_false_frame {env : Env} {f f' : partition_updater_t} {w w' : World}
    {buf : List Nat} {part : esp_partition_t}
    (h : f.write_sector env w buf = some (f', w', false))
    (hpart : f._partition = some part) (a : Nat)
    (h1 : a / SPI_FLASH_SEC_SIZE ≠ (part.address + f._progress) % U32 / SPI_FLASH_SEC_SIZE)
    (h2 : ¬ ((part.address + f._progress) % U32 ≤ a ∧
      a < (part.address + f._progress) % U32 + SPI_FLASH_SEC_SIZE)) :
    w'.mem a = w.mem a := by
  unfold partition_updater_t.write_sector write_sector_fail at h
  by_cases ht : f._type = .utUnknown
  · simp only [ht, ↓reduceIte, Option.some.injEq, Prod.mk.injEq] at h
    obtain ⟨-, h2, -⟩ := h
    subst h2
    rfl
  by_cases hp : f._progress ≥ f._size
  · simp only [ht, hp, ↓reduceIte, Option.some.injEq, Prod.mk.injEq] at h
    obtain ⟨-, h2, -⟩ := h
    subst h2
    rfl
  cases hm : env.malloc_ok w.mallocs
  · simp only [ht, hp, malloc_sector, hm, ↓reduceIte, Option.some.injEq, Prod.mk.injEq,
      Bool.false_eq_true] at h
    obtain ⟨-, h2, -⟩ := h
    subst h2
    rfl
  by_cases hl : buf.length < SPI_FLASH_SEC_SIZE
  · simp [ht, hp, malloc_sector, hm, hl] at h
  simp only [ht, hp, malloc_sector, hm, hl, hpart, ↓reduceIte] at h
  have hlen : (flash_image f._progress buf).length = SPI_FLASH_SEC_SIZE :=
    flash_image_length _ _ (Nat.not_lt.mp hl)
  split at h
  · rename_i w1 he
    have e := flashEraseSector_eq he
    simp only [Option.some.injEq, Prod.mk.injEq] at h
    obtain ⟨-, hw, -⟩ := h
    subst hw
    rw [e.2.2.2.2]
    simp
  rename_i w1 he
  have e := flashEraseSector_eq he
  have hm1 : w1.mem a = w.mem a := by
    rw [e.2.2.2.2]
    simp only [true_and]
    rw [if_neg h1]
  split at h
  · rename_i w2 hw
    have e2 := flashWrite_eq hw
    simp only [Option.some.injEq, Prod.mk.injEq] at h
    obtain ⟨-, hw', -⟩ := h
    subst hw'
    rw [e2.2.2.2.2]
    simp only [Bool.false_eq_true, false_and, ↓reduceIte]
    exact hm1
  rename_i w2 hw
  have e2 := flashWrite_eq hw
  have hm2 : w2.mem a = w.mem a := by
    rw [e2.2.2.2.2]
    simp only [true_and]
    have hlen2 : (if f._progress = 0 then (List.take SPI_FLASH_SEC_SIZE buf).set 0 255
        else List.take SPI_FLASH_SEC_SIZE buf).length = SPI_FLASH_SEC_SIZE := hlen
    rw [hlen2, if_neg h2]
    exact hm1
  by_cases hd : (f._progress + SPI_FLASH_SEC_SIZE) % U32 ≥ f._size
  · simp only [hd, ↓reduceIte] at h
    split at h
    · rename_i w3 hr
      have e3 := flashRead_eq hr
      simp only [Option.some.injEq, Prod.mk.injEq] at h
      obtain ⟨-, hw', -⟩ := h
      subst hw'
      rw [e3.2.2.2.1]
      exact hm2
    rename_i w3 buf4 hr
    have e3 := flashRead_eq hr
    split at h
    · rename_i w4 hw2
      have e4 := flashWrite_eq hw2
      simp only [Option.some.injEq, Prod.mk.injEq] at h
      obtain ⟨-, hw', -⟩ := h
      subst hw'
      rw [e4.2.2.2.2]
      simp only [Bool.false_eq_true, false_and, ↓reduceIte]
      rw [e3.2.2.2.1]
      exact hm2
    · simp at h
  · simp [hd] at h

/-- A block that is not the last one of its session is written as soon as the
allocation, the erase and the write succeed. -/
theorem write_sector_ok_nonfinal (env : Env) (f : partition_updater_t) (w : World)
    (buf : List Nat) (part : esp_partition_t)
    (ht : f._type ≠ .utUnknown) (hp : f._progress < f._size)
    (hnf : (f._progress + SPI_FLASH_SEC_SIZE) % U32 < f._size)
    (hpart : f._partition = some part)
    (hl : SPI_FLASH_SEC_SIZE ≤ buf.length) (hm : env.malloc_ok w.mallocs = true)
    (h0 : env.io_ok w.log.length = true) (h1 : env.io_ok (w.log.length + 1) = true) :
    ∃ f' w', f.write_sector env w buf = some (f', w', true) := by
  unfold partition_updater_t.write_sector write_sector_fail
  simp only [ht, Nat.not_le.mpr hp, Nat.not_le.mpr hnf, malloc_sector, hm, Nat.not_lt.mpr hl,
    hpart, ↓reduceIte, ge_iff_le, flashEraseSector, flashWrite, h0, h1, List.length_append,
    List.length_cons, List.length_nil]
  exact ⟨_, _, rfl⟩

/-- The byte of flash at the base address of the region over any sequence of
`write_sector` calls, successful or failed: from the first successful call on,
and as long as fewer blocks than the session holds have been written, it is
`0xFF`. -/
theorem write_sector_calls_base (env : Env) (p : esp_partition_t) (size : Nat)
    (hs : size % SPI_FLASH_SEC_SIZE = 0) (hu : size < U32) (hwrap : p.address + size ≤ U32)
    (bufs : List (List Nat)) :
    ∀ (f f' : partition_updater_t) (w w' : World) (rs : List Bool) (n : Nat),
      SessionInv p size f → (f._type ≠ .utUnknown → f._progress = SPI_FLASH_SEC_SIZE * n) →
      (1 ≤ n → n * SPI_FLASH_SEC_SIZE < size → w.mem p.address = 0xFF) →
      write_sector_calls env f w bufs = some (f', w', rs) →
      1 ≤ n + rs.count true → (n + rs.count true) * SPI_FLASH_SEC_SIZE < size →
      w'.mem p.address = 0xFF := by
  induction bufs with
  | nil =>
    intro f f' w w' rs n _ _ hmem h
    simp only [write_sector_calls, Option.some.injEq, Prod.mk.injEq] at h
    obtain ⟨-, h2, h3⟩ := h
    subst h2; subst h3
    simpa using hmem
  | cons b bs ih =>
    intro f f' w w' rs n hi hprog hmem h
    unfold write_sector_calls at h
    cases h1 : f.write_sector env w b with
    | none => simp [h1] at h
    | some x =>
      obtain ⟨f1, w1, r⟩ := x
      simp only [h1] at h
      cases h2 : write_sector_calls env f1 w1 bs with
      | none => simp [h2] at h
      | some y =>
        obtain ⟨f2, w2, rs2⟩ := y
        simp only [h2, Option.some.injEq, Prod.mk.injEq] at h
        obtain ⟨e1, e2, e3⟩ := h
        subst e1; subst e2; subst e3
        obtain ⟨hi1, hT, hF⟩ := write_sector_session_step h1 hi hs hu
        obtain ⟨hpart, hsize, hal, hle⟩ := hi
        cases r with
        | true =>
          obtain ⟨hp1, ht1, htn⟩ := hT rfl
          have hP := hprog htn
          have hlt : f._progress < size := by
            have := (write_sector_true h1).2.1
            rw [hsize] at this; exact this
          have hmb := (write_sector_mem_base h1 hpart hal (by omega)).1
          rw [List.count_cons_self]
          have key := ih f1 f2 w1 w2 rs2 (n + 1) hi1
            (fun _ => by rw [hp1, hP]; unfold SPI_FLASH_SEC_SIZE; omega)
            (fun _ hlt1 => by
              rw [hmb (by rw [hp1, hsize, hP]; unfold SPI_FLASH_SEC_SIZE at *; omega)]
              by_cases h0 : f._progress = 0
              · rw [if_pos h0]
              · rw [if_neg h0]
                exact hmem (by rw [hP] at h0; unfold SPI_FLASH_SEC_SIZE at h0; omega)
                  (by unfold SPI_FLASH_SEC_SIZE at *; omega))
            h2
          intro hc1 hc2
          exact key (by omega) (by
            have : n + 1 + List.count true rs2 = n + (List.count true rs2 + 1) := by omega
            rw [this]; exact hc2)
        | false =>
          rw [List.count_cons_of_ne (by decide)]
          by_cases htu : f._type = .utUnknown
          · rw [write_sector_unknown_eq env f w b htu] at h1
            simp only [Option.some.injEq, Prod.mk.injEq] at h1
            obtain ⟨e1, e2, -⟩ := h1
            subst e1; subst e2
            exact ih f f2 w w2 rs2 n ⟨hpart, hsize, hal, hle⟩ hprog hmem h2
          · by_cases hdone : size ≤ f._progress
            · rw [write_sector_done_eq env f w b (by rw [hsize]; exact hdone)] at h1
              simp only [Option.some.injEq, Prod.mk.injEq] at h1
              obtain ⟨e1, e2, -⟩ := h1
              subst e1; subst e2
              exact ih f f2 w w2 rs2 n ⟨hpart, hsize, hal, hle⟩ hprog hmem h2
            · have hP := hprog htu
              refine ih f1 f2 w1 w2 rs2 n hi1 (fun hne => ?_) (fun hn hlt1 => ?_) h2
              · rcases hF rfl with hu1 | he
                · exact absurd hu1 hne
                · rw [he]; exact hP
              · have hmod : (p.address + f._progress) % U32 = p.address + f._progress :=
                  Nat.mod_eq_of_lt (by omega)
                rw [write_sector_false_frame h1 hpart p.address
                  (by rw [hmod, hP]; unfold SPI_FLASH_SEC_SIZE; omega)
                  (by rw [hmod, hP]; unfold SPI_FLASH_SEC_SIZE; omega)]
                exact hmem hn hlt1

/-- C3 as amended (first-byte safety).  In a session opened by a successful
`begin` on a region that ends inside the 32-bit address space, after any
sequence of `write_sector` calls, successful or failed: once block 0 has been
written (at least one call succeeded) and as long as the session is incomplete
(fewer than `size / 4096` calls succeeded), the byte on flash at the base
address of the region is the erase sentinel `0xFF`, also right after a call
that failed on a storage primitive.  Such a sequence of calls on full blocks
always has a result.  When every call succeeds, the call that writes the last
block writes the true first byte back itself, before `match_md5` is called. -/
theorem first_byte_deferred (env : Env) (f0 f1 : partition_updater_t) (w0 : World)
    (type : update_type_t) (size : Nat) (part : esp_partition_t)
    (hbegin : f0.begin env type size = (f1, true)) (hpart : f1._partition = some part)
    (hsz : size < U32) (hwrap : part.address + size ≤ U32) :
    (∀ (bufs : List (List Nat)) (f' : partition_updater_t) (w' : World) (rs : List Bool),
      write_sector_calls env f1 w0 bufs = some (f', w', rs) →
      1 ≤ rs.count true → rs.count true * SPI_FLASH_SEC_SIZE < size →
      w'.mem part.address = 0xFF) ∧
    (∀ bufs : List (List Nat), (∀ b ∈ bufs, SPI_FLASH_SEC_SIZE ≤ b.length) →
      ∃ f' w' rs, write_sector_calls env f1 w0 bufs = some (f', w', rs)) ∧
    (∀ (blocks : List (List Nat)) (f' : partition_updater_t) (w' : World),
      (∀ b ∈ blocks, b.length = SPI_FLASH_SEC_SIZE) → blocks ≠ [] →
      write_sectors env f1 w0 blocks = some (f', w', true) →
      (blocks.length * SPI_FLASH_SEC_SIZE < size → w'.mem part.address = 0xFF) ∧
      (blocks.length * SPI_FLASH_SEC_SIZE = size →
        w'.mem part.address = (blocks.headD []).getD 0 0 % 256)) := by
  obtain ⟨hal, q, -, -, hi1, hp0, -⟩ := begin_session_inv hbegin
  have hpq : q = part := by
    have := hi1.1
    rw [hpart] at this
    injection this with this
    exact this.symm
  subst hpq
  refine ⟨?_, ?_, ?_⟩
  · intro bufs f' w' rs hrun hc1 hc2
    exact write_sector_calls_base env q size hal hsz hwrap bufs f1 f' w0 w' rs 0 hi1
      (fun _ => by rw [hp0, Nat.mul_zero])
      (fun h0 _ => absurd h0 (by decide)) hrun (by rw [Nat.zero_add]; exact hc1)
      (by rw [Nat.zero_add]; exact hc2)
  · intro bufs hb
    exact write_sector_calls_total env q size hal hsz bufs f1 w0 hi1 hb
  · intro blocks f' w' hblk hK hrun
    exact write_sectors_first_byte env f0 f1 f' w0 w' type size blocks q hbegin hpart hsz hwrap
      hblk hK hrun

/-- C3 as amended, at a concrete input: a two-block session on
`second_write_fail_env`; block 0 is written, then the flash write of block 1
fails, and the byte at the base address is still `0xFF`. -/
theorem first_byte_deferred_witness :
    ∃ f' w', write_sector_calls second_write_fail_env (sample_session 8192) sample_world
        [sample_block, sample_block] = some (f', w', [true, false]) ∧
      w'.mem 0x10000 = 0xFF := by
  have hl : SPI_FLASH_SEC_SIZE ≤ sample_block.length := Nat.le_of_eq sample_block_length.symm
  obtain ⟨f1, w1, h1⟩ := write_sector_ok_nonfinal second_write_fail_env (sample_session 8192)
    sample_world sample_block { address := 0x10000, size := 0x100000 } (by decide) (by decide)
    (by decide) rfl hl rfl rfl rfl
  have hf := write_sector_true_fields h1
  have hp1 : f1._progress = 4096 := by rw [hf.2.2.2.1]; decide
  have hlog := (write_sector_true_log h1
    (show (sample_session 8192)._partition = some { address := 0x10000, size := 0x100000 }
      from rfl)).2.2.1 (by rw [hp1]; decide)
  have hlen : w1.log.length = 2 := by
    rw [hlog]; simp [sector_ops, sample_world]
  obtain ⟨f2, w2, h2, -⟩ := write_sector_write_fails second_write_fail_env f1 w1 sample_block
    { address := 0x10000, size := 0x100000 } (by rw [hf.1]; decide)
    (by rw [hp1, hf.2.1]; decide) (by rw [hf.2.2.1]; rfl) hl rfl
    (by
      show decide (w1.log.length ≠ 3) = true
      rw [hlen]; decide)
    (by
      show decide (w1.log.length + 1 ≠ 3) = false
      rw [hlen]; decide)
  have hcalls : write_sector_calls second_write_fail_env (sample_session 8192) sample_world
      [sample_block, sample_block] = some (f2, w2, [true, false]) := by
    simp only [write_sector_calls, h1, h2]
  exact ⟨f2, w2, hcalls,
    (first_byte_deferred second_write_fail_env idle_flasher (sample_session 8192) sample_world
      .utCode 8192 { address := 0x10000, size := 0x100000 }
      (begin_eq_true second_write_fail_env idle_flasher (by decide) rfl (by decide)) rfl
      (by decide) (by decide)).1 _ f2 w2 _ hcalls (by decide) (by decide)⟩

end MzUpdate
